import Mathlib

/-!
FSLIB::Surface: binary surface reader and normal computation.

A shallow embedding of `src/MNE/fs/surface.cpp` (`Surface::clear`,
`Surface::compute_normals`, `Surface::read`, `Surface::read_curv`) together
with the stream and matrix primitives it relies on.

* A file is a list of bytes; a stream is the list of bytes not yet consumed.
* An Eigen matrix is its dimensions plus its column-major storage; coefficient
  access is the unchecked storage access `data[i + rows * j]`.
* A `float` is its four-byte memory image; IEEE arithmetic is not interpreted
  but passed in as a record of operations.
* Reads past the end of the file, violated Eigen size preconditions, a call of
  `compute_normals` with a triangle index that is not a row of the vertex
  matrix, and `int` computations that leave the 32-bit range are reported as a
  `Fault`: the source does not check for them and its behaviour there is not
  defined.
-/

namespace FSLIB

/-! ## Bytes, faults, loops -/

abbrev Byte := Fin 256

/-- Situations in which the behaviour of the source is not defined. -/
inductive Fault where
  | truncated
  | eigenAssert
  | intRange
  deriving DecidableEq, Repr

/-- The loop `for (i = 0; i < n; ++i) s = body(i, s);`. -/
def forPure {σ : Type} (n : Nat) (body : Nat → σ → σ) (s : σ) : σ :=
  match n with
  | 0 => s
  | k + 1 => body k (forPure k body s)

/-- The loop `for (i = 0; i < n; ++i)` whose body may fault. -/
def forLoop {σ : Type} (n : Nat) (body : Nat → σ → Except Fault σ) (s : σ) :
    Except Fault σ :=
  match n with
  | 0 => .ok s
  | k + 1 =>
    match forLoop k body s with
    | .error e => .error e
    | .ok s1 => body k s1

/-! ## Floats as memory images -/

/-- A `float` object: its four bytes in memory order. -/
structure F32 where
  b0 : Byte
  b1 : Byte
  b2 : Byte
  b3 : Byte
  deriving DecidableEq, Repr

instance : Inhabited F32 := ⟨⟨0, 0, 0, 0⟩⟩

/-- The bytes of a float object in memory order. -/
def F32.bytes (f : F32) : List Byte := [f.b0, f.b1, f.b2, f.b3]

/-- Arithmetic used by `compute_normals`, over an arbitrary scalar type. -/
structure Arith (K : Type) where
  zero : K
  add : K → K → K
  sub : K → K → K
  mul : K → K → K
  div : K → K → K
  sqrt : K → K
  nonzero : K → Bool

/-- The `float` arithmetic used by `Surface::read`: the operations of `Arith`
on memory images, the conversion `(float)i` and the literal `0.001f`. -/
structure FloatOps extends Arith F32 where
  ofInt : Int → F32
  milli : F32

/-! ## Eigen matrices -/

/-- A dynamically sized Eigen matrix with column-major storage. -/
structure Mat (α : Type) where
  rows : Nat
  cols : Nat
  data : List α

namespace Mat

variable {α : Type}

/-- Storage of the right size for the dimensions. -/
def WF (m : Mat α) : Prop := m.data.length = m.rows * m.cols

/-- A matrix of the given size (`resize`, `Zero`, constructor with sizes). -/
def resize (r c : Nat) (fill : α) : Mat α := ⟨r, c, List.replicate (r * c) fill⟩

/-- Unchecked coefficient read `m(i,j)`: the storage cell `i + rows * j`. A
position past the end of the storage, where the source reads foreign memory,
gives the default value. -/
def coeff [Inhabited α] (m : Mat α) (i j : Nat) : α :=
  m.data.getD (i + m.rows * j) default

/-- Unchecked coefficient write `m(i,j) = v`: the storage cell `i + rows * j`
is overwritten. A position past the end of the storage, where the source
writes to foreign memory, leaves the matrix as it is. -/
def set (m : Mat α) (i j : Nat) (v : α) : Mat α :=
  { m with data := m.data.set (i + m.rows * j) v }

/-- Row assignment `m.row(i) = src`, `src` given by column. -/
def setRow (m : Mat α) (i : Nat) (src : Nat → α) : Mat α :=
  forPure m.cols (fun j acc => acc.set i j (src j)) m

/-- Column assignment `m.col(j) = src`, `src` given by row. -/
def setCol (m : Mat α) (j : Nat) (src : Nat → α) : Mat α :=
  forPure m.rows (fun i acc => acc.set i j (src i)) m

/-- Coefficient-wise binary operation (`a - b`, `a.cwiseProduct(b)`). -/
def zipWith (f : α → α → α) (a b : Mat α) : Mat α :=
  ⟨a.rows, a.cols, List.zipWith f a.data b.data⟩

/-- The transposed matrix (`transpose`, `transposeInPlace`). -/
def transpose [Inhabited α] (m : Mat α) : Mat α :=
  ⟨m.cols, m.rows,
    (List.range (m.cols * m.rows)).map (fun k => m.coeff (k / m.cols) (k % m.cols))⟩

/-- The top-left block `m.block(0, 0, r, c)`. -/
def block [Inhabited α] (m : Mat α) (r c : Nat) : Except Fault (Mat α) :=
  if r ≤ m.rows ∧ c ≤ m.cols then
    .ok ⟨r, c, (List.range (r * c)).map (fun k => m.coeff (k % r) (k / r))⟩
  else .error .eigenAssert

end Mat

/-! ## Stream primitives -/

/-- Two's-complement reading of a 32-bit pattern. -/
def toInt32 (n : Nat) : Int :=
  if n % 2 ^ 32 < 2 ^ 31 then ((n % 2 ^ 32 : Nat) : Int) else ((n % 2 ^ 32 : Nat) : Int) - 2 ^ 32

/-- Two's-complement reading of a 16-bit pattern. -/
def toInt16 (n : Nat) : Int :=
  if n % 2 ^ 16 < 2 ^ 15 then ((n % 2 ^ 16 : Nat) : Int) else ((n % 2 ^ 16 : Nat) : Int) - 2 ^ 16

/-- The value of four bytes read as a big-endian signed 32-bit integer. -/
def beInt32 (b0 b1 b2 b3 : Byte) : Int :=
  toInt32 (b0.val * 2 ^ 24 + b1.val * 2 ^ 16 + b2.val * 2 ^ 8 + b3.val)

/-- The value of two bytes read as a big-endian signed 16-bit integer. -/
def beInt16 (b0 b1 : Byte) : Int := toInt16 (b0.val * 2 ^ 8 + b1.val)

/-- The stream operator `t_DataStream >> (qint32&)` in big-endian mode. -/
def readInt32 (st : List Byte) : Except Fault (Int × List Byte) :=
  match st with
  | b0 :: b1 :: b2 :: b3 :: rest => .ok (beInt32 b0 b1 b2 b3, rest)
  | _ => .error .truncated

/-- The stream operator `t_DataStream >> (qint16&)` in big-endian mode. -/
def readInt16 (st : List Byte) : Except Fault (Int × List Byte) :=
  match st with
  | b0 :: b1 :: rest => .ok (beInt16 b0 b1, rest)
  | _ => .error .truncated

/-- The call `t_DataStream.readRawData(p, 4 * n)` with `p` the storage of `n`
floats: the next `4 * n` bytes of the file become the memory of the floats. -/
def readRawFloats (n : Nat) (st : List Byte) : Except Fault (List F32 × List Byte) :=
  match n with
  | 0 => .ok ([], st)
  | k + 1 =>
    match st with
    | b0 :: b1 :: b2 :: b3 :: rest =>
      match readRawFloats k rest with
      | .error e => .error e
      | .ok (fs, st1) => .ok (⟨b0, b1, b2, b3⟩ :: fs, st1)
    | _ => .error .truncated

/-- The call `t_File.readLine()`: consumes up to and including the first line
feed, or the rest of the file when there is none. -/
def readLine (st : List Byte) : List Byte × List Byte :=
  match st with
  | [] => ([], [])
  | b :: rest =>
    if b = 10 then ([b], rest)
    else ((b :: (readLine rest).1), (readLine rest).2)

/-- Modelled from the spec: `IOUtils::fread3` (declared in `utils/ioutils.h`,
which is not part of the sources at hand). "Read 3 raw bytes, combine as
`(b0<<16)|(b1<<8)|b2`, no sign extension." -/
def fread3 (st : List Byte) : Except Fault (Nat × List Byte) :=
  match st with
  | b0 :: b1 :: b2 :: rest => .ok ((b0.val <<< 16) ||| (b1.val <<< 8) ||| b2.val, rest)
  | _ => .error .truncated

/-- Modelled from the spec: `IOUtils::fread3_many` (declared in
`utils/ioutils.h`). "Read `nquad*4` such values into a flat buffer", each with
the `fread3` primitive, in file order. -/
def fread3_many (count : Nat) (st : List Byte) : Except Fault (List Int × List Byte) :=
  match count with
  | 0 => .ok ([], st)
  | k + 1 =>
    match fread3 st with
    | .error e => .error e
    | .ok (v, st1) =>
      match fread3_many k st1 with
      | .error e => .error e
      | .ok (vs, st2) => .ok ((v : Int) :: vs, st2)

/-- Modelled from the spec: `IOUtils::swap_floatp(float*)` (declared in
`utils/ioutils.h`): the float pointed to is "byte-swapped", its four bytes are
reversed in place. -/
def swap_floatp (f : F32) : F32 := ⟨f.b3, f.b2, f.b1, f.b0⟩

/-- Modelled from the spec: `IOUtils::swap_int` (declared in
`utils/ioutils.h`). Unlike the `...p` helpers it receives its argument by
value and returns the byte-reversed value; the spec has the header and face
integers "read through the stream's declared big-endian mode" with "no
swapping needed", so a call whose result is dropped changes nothing. -/
def swap_int (source : Int) : Int :=
  let u := (source % 2 ^ 32).toNat
  toInt32 (u % 256 * 2 ^ 24 + u / 2 ^ 8 % 256 * 2 ^ 16 + u / 2 ^ 16 % 256 * 2 ^ 8 + u / 2 ^ 24)

/-- Modelled from the spec: `IOUtils::swap_short` (declared in
`utils/ioutils.h`), the 16-bit sibling of `swap_int`: by value, returning the
byte-reversed value; the spec decodes the stored big-endian 16-bit integers
as they come from the stream. -/
def swap_short (source : Int) : Int :=
  let u := (source % 2 ^ 16).toNat
  toInt16 (u % 256 * 2 ^ 8 + u / 2 ^ 8)

/-! ## QString -/

/-- The test `hay.contains(needle)` on character sequences (case sensitive). -/
def containsChars (needle : List Char) : List Char → Bool
  | [] => needle.isPrefixOf []
  | c :: cs => needle.isPrefixOf (c :: cs) || containsChars needle cs

/-- `QString::contains`. -/
def QString_contains (s sub : String) : Bool := containsChars sub.data s.data

/-- `QString::right(n)`: the last `n` characters, the whole string when it is
shorter. -/
def QString_right (s : String) (n : Nat) : String := ⟨s.data.drop (s.data.length - n)⟩

/-! ## Surface -/

/-- The data members of `FSLIB::Surface`. -/
structure Surface where
  m_fileName : String
  hemi : Int
  surf : String
  rr : Mat F32
  tris : Mat Int
  nn : Mat F32
  curv : List F32

/-- `Surface::clear`. -/
def Surface.clear (_s : Surface) : Surface :=
  { m_fileName := ""
    hemi := -1
    surf := ""
    rr := Mat.resize 0 3 default
    tris := Mat.resize 0 3 default
    nn := Mat.resize 0 3 default
    curv := [] }

/-- The row norms `normSize` of `compute_normals`:
`tmp = m.cwiseProduct(m); normSize = tmp.rowwise().sum(); normSize = normSize.cwiseSqrt();`
for a matrix with three columns. -/
def rowNorms {K : Type} [Inhabited K] (A : Arith K) (m : Mat K) : List K :=
  let tmp := Mat.zipWith A.mul m m
  (List.range tmp.rows).map
    (fun i => A.sqrt (A.add (A.add (tmp.coeff i 0) (tmp.coeff i 1)) (tmp.coeff i 2)))

/-- The normalisation loop of `compute_normals`:
`for (i = 0; i < normSize.size(); ++i) if (normSize(i) != 0) m.row(i) /= normSize(i);`. -/
def normalizeRows {K : Type} [Inhabited K] (A : Arith K) (normSize : List K) (m : Mat K) :
    Mat K :=
  forPure normSize.length
    (fun i acc =>
      if A.nonzero (normSize.getD i default) then
        acc.setRow i (fun c => A.div (acc.coeff i c) (normSize.getD i default))
      else acc)
    m

/-- `Surface::compute_normals`, for triangles whose entries are all row indices
of `rr`. With an entry outside the rows of `rr` the source reads and writes
outside `rr` and `nn`; the value of this function is then of no meaning (the
storage is addressed unchecked, a negative index is taken as 0), and the call
from `Surface::read` is `compute_normals_checked`. -/
def compute_normals {K : Type} [Inhabited K] (A : Arith K) (rr : Mat K) (tris : Mat Int) :
    Mat K :=
  let r1 := forPure tris.rows
    (fun i m => m.setRow i (fun c => rr.coeff (tris.coeff i 0).toNat c))
    (Mat.resize tris.rows 3 default)
  let r2 := forPure tris.rows
    (fun i m => m.setRow i (fun c => rr.coeff (tris.coeff i 1).toNat c))
    (Mat.resize tris.rows 3 default)
  let r3 := forPure tris.rows
    (fun i m => m.setRow i (fun c => rr.coeff (tris.coeff i 2).toNat c))
    (Mat.resize tris.rows 3 default)
  let x := Mat.zipWith A.sub r2 r1
  let y := Mat.zipWith A.sub r3 r1
  let tri_nn0 : Mat K := Mat.resize x.rows y.cols default
  let tri_nn1 := tri_nn0.setCol 0
    (fun i => A.sub (A.mul (x.coeff i 1) (y.coeff i 2)) (A.mul (x.coeff i 2) (y.coeff i 1)))
  let tri_nn2 := tri_nn1.setCol 1
    (fun i => A.sub (A.mul (x.coeff i 2) (y.coeff i 0)) (A.mul (x.coeff i 0) (y.coeff i 2)))
  let tri_nn3 := tri_nn2.setCol 2
    (fun i => A.sub (A.mul (x.coeff i 0) (y.coeff i 1)) (A.mul (x.coeff i 1) (y.coeff i 0)))
  let tri_nn := normalizeRows A (rowNorms A tri_nn3) tri_nn3
  let nn0 : Mat K := Mat.resize rr.rows 3 A.zero
  let nn1 := forPure tris.rows
    (fun p nn =>
      forPure 3
        (fun j nn => nn.setRow (tris.coeff p j).toNat (fun c => tri_nn.coeff p c))
        nn)
    nn0
  normalizeRows A (rowNorms A nn1) nn1

def NEW_QUAD_FILE_MAGIC_NUMBER : Nat := 16777213
def TRIANGLE_FILE_MAGIC_NUMBER : Nat := 16777214
def QUAD_FILE_MAGIC_NUMBER : Nat := 16777215

/-- How a call of `Surface::read` ends: one constructor per `return`
statement, `badMagic` carrying the value printed by `qWarning`. -/
inductive Exit where
  | openFailed
  | badMagic (magic : Nat)
  | hemiUnresolved
  | loaded
  deriving DecidableEq, Repr

/-- The `bool` returned by `Surface::read`. -/
def Exit.ret : Exit → Bool
  | .loaded => true
  | _ => false

/-- `Surface::read`, the vertices of a quad file (lines 206-227). -/
def readQuadVertices (ops : FloatOps) (magic nvert : Nat) (st : List Byte) :
    Except Fault (Mat F32 × List Byte) :=
  let verts : Mat F32 := Mat.resize nvert 3 default
  if magic = QUAD_FILE_MAGIC_NUMBER then
    forLoop nvert
      (fun i s =>
        forLoop 3
          (fun j s =>
            match readInt16 s.2 with
            | .error e => .error e
            | .ok (iVal, st1) =>
              let _ := swap_short iVal
              .ok (s.1.set i j (ops.div (ops.ofInt iVal) (ops.ofInt 100)), st1))
          s)
      (verts, st)
  else
    match readRawFloats (nvert * 3) st with
    | .error e => .error e
    | .ok (fs, st1) =>
      let verts1 : Mat F32 := { verts with data := fs }
      .ok (forPure nvert
            (fun i m => forPure 3 (fun j m => m.set i j (swap_floatp (m.coeff i j))) m)
            verts1, st1)

/-- `Surface::read`, the quads of a quad file (lines 229-240): the flat
buffer returned by `fread3_many`, a `count x 1` matrix, is copied into the
`4 x nquad` matrix `quads_new`, which is then transposed. -/
def reshapeQuads (flat : List Int) (nquad : Nat) : Mat Int :=
  let quads : Mat Int := ⟨flat.length, 1, flat⟩
  let quads_new : Mat Int := Mat.resize 4 nquad 0
  let filled := forPure quads.cols
    (fun j s =>
      forPure quads.rows (fun i s => (s.1.set i j (quads.coeff s.2 0), s.2 + 1)) s)
    (quads_new, 0)
  filled.1.transpose

/-- `Surface::read`, face splitting (lines 244-273): the matrix `faces` and
the counter `nface` after the loop. -/
def splitQuads (quads : Mat Int) (nquad : Nat) : Mat Int × Nat :=
  forPure nquad
    (fun k s =>
      let quad := fun c => quads.coeff k c
      if (quad 0).tmod 2 = 0 then
        let f1 := ((s.1.set s.2 0 (quad 0)).set s.2 1 (quad 1)).set s.2 2 (quad 3)
        let n1 := s.2 + 1
        let f2 := ((f1.set n1 0 (quad 2)).set n1 1 (quad 3)).set n1 2 (quad 1)
        (f2, n1 + 1)
      else
        let f1 := ((s.1.set s.2 0 (quad 0)).set s.2 1 (quad 1)).set s.2 2 (quad 2)
        let n1 := s.2 + 1
        let f2 := ((f1.set n1 0 (quad 0)).set n1 1 (quad 2)).set n1 2 (quad 3)
        (f2, n1 + 1))
    (Mat.resize (2 * nquad) 3 0, 0)

/-- `Surface::read`, the quad branch (lines 199-273): `verts` and `faces`. -/
def readQuadBranch (ops : FloatOps) (magic : Nat) (st : List Byte) :
    Except Fault (Mat F32 × Mat Int) :=
  match fread3 st with
  | .error e => .error e
  | .ok (nvert, st1) =>
    match fread3 st1 with
    | .error e => .error e
    | .ok (nquad, st2) =>
      match readQuadVertices ops magic nvert st2 with
      | .error e => .error e
      | .ok (verts, st3) =>
        match fread3_many (nquad * 4) st3 with
        | .error e => .error e
        | .ok (flat, _) =>
          let quads := reshapeQuads flat nquad
          .ok (verts, (splitQuads quads nquad).1)

/-- `Surface::read`, the faces of a triangle file (lines 296-306). -/
def readTriangleFaces (nface : Nat) (st : List Byte) : Except Fault (Mat Int × List Byte) :=
  forLoop nface
    (fun i s =>
      forLoop 3
        (fun j s =>
          match readInt32 s.2 with
          | .error e => .error e
          | .ok (iVal, st1) =>
            let _ := swap_int iVal
            .ok (s.1.set i j iVal, st1))
        s)
    (Mat.resize nface 3 0, st)

/-- `Surface::read`, the triangle branch (lines 277-306): `verts` and
`faces`. -/
def readTriangleBranch (st : List Byte) : Except Fault (Mat F32 × Mat Int) :=
  let st1 := (readLine st).2
  let st2 := (readLine st1).2
  match readInt32 st2 with
  | .error e => .error e
  | .ok (nvert, st3) =>
    match readInt32 st3 with
    | .error e => .error e
    | .ok (nface, st4) =>
      let _ := swap_int nvert
      let _ := swap_int nface
      if nvert < 0 then .error .eigenAssert
      else if 2 ^ 31 ≤ nvert * 3 * 4 then .error .intRange
      else
        match readRawFloats (nvert.toNat * 3) st4 with
        | .error e => .error e
        | .ok (fs, st5) =>
          let verts0 : Mat F32 := ⟨3, nvert.toNat, fs⟩
          let verts := forPure 3
            (fun i m =>
              forPure nvert.toNat (fun j m => m.set i j (swap_floatp (m.coeff i j))) m)
            verts0
          if nface < 0 then .error .eigenAssert
          else
            match readTriangleFaces nface.toNat st5 with
            | .error e => .error e
            | .ok (faces, _) => .ok (verts, faces)

/-- Every entry of the first three columns of `tris` is a row index of a
matrix with `rows` rows. -/
def indicesInRange (rows : Nat) (tris : Mat Int) : Bool :=
  (List.range tris.rows).all
    (fun p =>
      (List.range 3).all
        (fun j => decide (0 ≤ tris.coeff p j ∧ tris.coeff p j < (rows : Int))))

/-- A call `compute_normals(rr, tris)`. The source uses every entry of `tris`
as a row index of `rr` and of `nn` (lines 121-123 and 148) without a test. An
entry `r` that is not a row index of `rr` takes the call outside the two
matrices and outside their storage (the third element of row `r >= rows` has
the position `r + 2 * rows`, past the `3 * rows` elements of a matrix with
three columns), which is a fault: the index assertion of Eigen, undefined
behaviour without it. -/
def compute_normals_checked {K : Type} [Inhabited K] (A : Arith K) (rr : Mat K)
    (tris : Mat Int) : Except Fault (Mat K) :=
  if indicesInRange rr.rows tris then .ok (compute_normals A rr tris)
  else .error .eigenAssert

/-- `Surface::read`, from `verts.transposeInPlace()` to the end (lines
314-340). -/
def finishRead (ops : FloatOps) (path : String) (p : Surface) (verts : Mat F32)
    (faces : Mat Int) : Except Fault (Exit × Surface) :=
  let vt := verts.transpose
  let vs : Mat F32 := { vt with data := vt.data.map (fun v => ops.mul v ops.milli) }
  match vs.block vs.rows 3 with
  | .error e => .error e
  | .ok rr =>
    match faces.block faces.rows 3 with
    | .error e => .error e
    | .ok tris =>
      match compute_normals_checked ops.toArith rr tris with
      | .error e => .error e
      | .ok nn =>
        let p1 : Surface := { p with rr := rr, tris := tris, nn := nn }
        if QString_contains path "lh." then
          .ok (.loaded, { p1 with hemi := 0, surf := QString_right path 4 })
        else if QString_contains path "rh." then
          .ok (.loaded, { p1 with hemi := 1, surf := QString_right path 4 })
        else
          .ok (.hemiUnresolved, { p1 with hemi := -1 })

/-- `Surface::read`. `file` is the content of the file named `path`, `none`
when it cannot be opened. -/
def read (ops : FloatOps) (file : Option (List Byte)) (path : String) (p_Surface : Surface)
    (_p_bLoadCurvature : Bool) : Except Fault (Exit × Surface) :=
  let p := p_Surface.clear
  match file with
  | none => .ok (.openFailed, p)
  | some bytes =>
    match fread3 bytes with
    | .error e => .error e
    | .ok (magic, st) =>
      if magic = QUAD_FILE_MAGIC_NUMBER ∨ magic = NEW_QUAD_FILE_MAGIC_NUMBER then
        match readQuadBranch ops magic st with
        | .error e => .error e
        | .ok (verts, faces) => finishRead ops path p verts faces
      else if magic = TRIANGLE_FILE_MAGIC_NUMBER then
        match readTriangleBranch st with
        | .error e => .error e
        | .ok (verts, faces) => finishRead ops path p verts faces
      else
        .ok (.badMagic magic, p)

/-! ## Reading positions of a block of file bytes -/

/-- The `k`-th float of a block of raw floats: its four file bytes, in file
order, taken as the memory of a float. -/
def floatAt (blk : List Byte) (k : Nat) : F32 :=
  ⟨blk.getD (4 * k) 0, blk.getD (4 * k + 1) 0, blk.getD (4 * k + 2) 0, blk.getD (4 * k + 3) 0⟩

/-- The `k`-th big-endian signed 32-bit integer of a block. -/
def int32At (blk : List Byte) (k : Nat) : Int :=
  beInt32 (blk.getD (4 * k) 0) (blk.getD (4 * k + 1) 0) (blk.getD (4 * k + 2) 0)
    (blk.getD (4 * k + 3) 0)

/-- The `k`-th big-endian signed 16-bit integer of a block. -/
def int16At (blk : List Byte) (k : Nat) : Int :=
  beInt16 (blk.getD (2 * k) 0) (blk.getD (2 * k + 1) 0)

/-- The `k`-th three-byte big-endian unsigned integer of a block. -/
def uint24At (blk : List Byte) (k : Nat) : Nat :=
  ((blk.getD (3 * k) 0).val <<< 16) ||| ((blk.getD (3 * k + 1) 0).val <<< 8) |||
    (blk.getD (3 * k + 2) 0).val

/-! ## File layouts -/

/-- The bytes of a triangle file as `Surface::read` consumes them: the magic
number 16777214, two text lines, the two header integers, the vertex block,
the face block, and whatever follows. -/
def triangleFile (line1 line2 : List Byte) (v0 v1 v2 v3 f0 f1 f2 f3 : Byte)
    (vblock fblock extra : List Byte) : List Byte :=
  255 :: 255 :: 254 :: (line1 ++ 10 :: (line2 ++ 10 ::
    (v0 :: v1 :: v2 :: v3 :: f0 :: f1 :: f2 :: f3 :: (vblock ++ (fblock ++ extra)))))

/-- The bytes of a quad file as `Surface::read` consumes them: the magic
number (16777215 when `m2 = 255`, 16777213 when `m2 = 253`), the vertex and
quad counts as three bytes each, the vertex block, the quad block, and
whatever follows. -/
def quadFile (m2 : Byte) (v0 v1 v2 q0 q1 q2 : Byte) (vblock qblock extra : List Byte) :
    List Byte :=
  255 :: 255 :: m2 :: v0 :: v1 :: v2 :: q0 :: q1 :: q2 :: (vblock ++ (qblock ++ extra))

/-- The default constructor `Surface::Surface()`: empty file name and kind,
`hemi = -1`, matrices and curvature vector without rows. -/
def Surface.new : Surface :=
  { m_fileName := ""
    hemi := -1
    surf := ""
    rr := ⟨0, 3, []⟩
    tris := ⟨0, 3, []⟩
    nn := ⟨0, 3, []⟩
    curv := [] }

/-- An instance of the arithmetic record for instantiating statements at
concrete inputs. Its operations are not those of IEEE arithmetic: each binary
operation returns its first operand and the conversion of an integer keeps
its two low-order bytes. -/
def sampleOps : FloatOps :=
  { zero := ⟨0, 0, 0, 0⟩
    add := fun a _ => a
    sub := fun a _ => a
    mul := fun a _ => a
    div := fun a _ => a
    sqrt := fun a => a
    nonzero := fun a => decide (a ≠ ⟨0, 0, 0, 0⟩)
    ofInt := fun i => ⟨0, 0, Fin.ofNat (i.toNat / 256), Fin.ofNat i.toNat⟩
    milli := ⟨0, 0, 0, 1⟩ }

/-- A well-formed triangle file: the text lines end at their line feed, the
header bytes give non-negative counts `nvert` and `nface` as big-endian signed
32-bit integers, the byte count of the vertex block fits an `int`, the vertex
and face blocks have the declared sizes, and every stored face index is the
index of a vertex, `0 <= index < nvert`. -/
def ValidTriangleFile (bytes : List Byte) : Prop :=
  ∃ (line1 line2 : List Byte) (v0 v1 v2 v3 f0 f1 f2 f3 : Byte) (nvert nface : Nat)
    (vblock fblock extra : List Byte),
    (10 : Byte) ∉ line1 ∧ (10 : Byte) ∉ line2 ∧
    beInt32 v0 v1 v2 v3 = (nvert : Int) ∧ beInt32 f0 f1 f2 f3 = (nface : Int) ∧
    nvert * 12 < 2 ^ 31 ∧ vblock.length = 12 * nvert ∧ fblock.length = 12 * nface ∧
    (∀ k, k < 3 * nface → 0 ≤ int32At fblock k ∧ int32At fblock k < (nvert : Int)) ∧
    bytes = triangleFile line1 line2 v0 v1 v2 v3 f0 f1 f2 f3 vblock fblock extra

/-- A quad file, old (`m2 = 255`) or new (`m2 = 253`), on which the decode of
`Surface::read` completes: the header declares `nvert` vertices and `nquad`
quads, the vertex block holds `3 * nvert` values of two or four bytes, the
quad block `4 * nquad` values of three bytes, there are at least three
vertices, and every stored vertex index is below 3. The last two conditions
are those of the vertex matrix that `Surface::read` builds for a quad file:
it takes a block of three columns of the transposed `nvert x 3` matrix, which
has three rows whatever `nvert` is. -/
def ValidQuadFile (bytes : List Byte) : Prop :=
  ∃ (m2 v0 v1 v2 q0 q1 q2 : Byte) (nvert nquad : Nat) (vblock qblock extra : List Byte),
    (m2 = 255 ∨ m2 = 253) ∧
    (v0.val <<< 16 ||| v1.val <<< 8 ||| v2.val) = nvert ∧
    (q0.val <<< 16 ||| q1.val <<< 8 ||| q2.val) = nquad ∧ 3 ≤ nvert ∧
    vblock.length = (if m2 = 255 then 6 else 12) * nvert ∧ qblock.length = 12 * nquad ∧
    (∀ k, k < 4 * nquad → uint24At qblock k < 3) ∧
    bytes = quadFile m2 v0 v1 v2 q0 q1 q2 vblock qblock extra

/-- A mesh file of one of the formats `Surface::read` accepts on which the
decode completes: every face index is a row index of the vertex matrix that
`Surface::read` builds. -/
def ValidMeshFile (bytes : List Byte) : Prop :=
  ValidTriangleFile bytes ∨ ValidQuadFile bytes

/-! ## Curvature files -/

/-- The scalar operations used by `Surface::read_curv`, over a type `K` that
stands for `float`: the value of a float object given its memory, the
conversion `(float)i`, and the division. -/
structure CurvOps (K : Type) where
  ofMem : F32 → K
  ofInt : Int → K
  div : K → K → K

/-- The operations of `Surface::read_curv` on floats taken as memory images,
with the arithmetic of a `FloatOps` record. -/
def CurvOps.ofFloatOps (ops : FloatOps) : CurvOps F32 :=
  { ofMem := fun f => f
    ofInt := ops.ofInt
    div := ops.div }

def NEW_VERSION_MAGIC_NUMBER : Nat := 16777215

/-- `Surface::read_curv`. `file` is the content of the curvature file, `none`
when it cannot be opened. In the new format the vector is filled by a raw
read and its floats are byte-swapped in place; the result lists their
values. -/
def read_curv {K : Type} [Inhabited K] (ops : CurvOps K) (file : Option (List Byte)) :
    Except Fault (List K) :=
  match file with
  | none => .ok []
  | some bytes =>
    match fread3 bytes with
    | .error e => .error e
    | .ok (vnum0, st) =>
      if vnum0 = NEW_VERSION_MAGIC_NUMBER then
        match fread3 st with
        | .error e => .error e
        | .ok (vnum, st1) =>
          match fread3 st1 with
          | .error e => .error e
          | .ok (_fnum, st2) =>
            match fread3 st2 with
            | .error e => .error e
            | .ok (_vals_per_vertex, st3) =>
              match readRawFloats vnum st3 with
              | .error e => .error e
              | .ok (raw, _) =>
                let curv := forPure vnum
                  (fun i (v : List F32) => v.set i (swap_floatp (v.getD i default))) raw
                .ok (curv.map ops.ofMem)
      else
        match fread3 st with
        | .error e => .error e
        | .ok (_fnum, st1) =>
          match forLoop vnum0
              (fun i (s : List K × List Byte) =>
                match readInt16 s.2 with
                | .error e => .error e
                | .ok (iVal, st2) =>
                  let _ := swap_short iVal
                  .ok (s.1.set i (ops.div (ops.ofInt iVal) (ops.ofInt 100)), st2))
              (List.replicate vnum0 default, st1) with
          | .error e => .error e
          | .ok (curv, _) => .ok curv

/-- The bytes of a legacy curvature file as `Surface::read_curv` consumes
them: the vertex count and the unused `fnum`, three bytes each, the block of
16-bit values, and whatever follows. -/
def legacyCurvFile (n0 n1 n2 f0 f1 f2 : Byte) (vblock extra : List Byte) : List Byte :=
  n0 :: n1 :: n2 :: f0 :: f1 :: f2 :: (vblock ++ extra)

/-- The bytes of a new-format curvature file as `Surface::read_curv` consumes
them: the magic number 16777215, the vertex count, the unused `fnum` and
`vals_per_vertex`, three bytes each, the block of floats, and whatever
follows. -/
def newCurvFile (n0 n1 n2 f0 f1 f2 p0 p1 p2 : Byte) (vblock extra : List Byte) : List Byte :=
  255 :: 255 :: 255 :: n0 :: n1 :: n2 :: f0 :: f1 :: f2 :: p0 :: p1 :: p2 :: (vblock ++ extra)

/-- A well-formed curvature file, legacy or new, that declares `n` values and
holds a value block of the declared size. -/
def ValidCurvFile (bytes : List Byte) (n : Nat) : Prop :=
  (∃ (n0 n1 n2 f0 f1 f2 : Byte) (vblock extra : List Byte),
    (n0.val <<< 16 ||| n1.val <<< 8 ||| n2.val) = n ∧ n ≠ 16777215 ∧
    vblock.length = 2 * n ∧ bytes = legacyCurvFile n0 n1 n2 f0 f1 f2 vblock extra) ∨
  (∃ (n0 n1 n2 f0 f1 f2 p0 p1 p2 : Byte) (vblock extra : List Byte),
    (n0.val <<< 16 ||| n1.val <<< 8 ||| n2.val) = n ∧
    vblock.length = 4 * n ∧ bytes = newCurvFile n0 n1 n2 f0 f1 f2 p0 p1 p2 vblock extra)

/-! ## Normals: the stages of `compute_normals` and their reference values -/

/-- `Surface::compute_normals` up to the first normalisation loop (lines
117-140): the matrix `tri_nn` of unit triangle normals. -/
def triangle_normals {K : Type} [Inhabited K] (A : Arith K) (rr : Mat K) (tris : Mat Int) :
    Mat K :=
  let r1 := forPure tris.rows
    (fun i m => m.setRow i (fun c => rr.coeff (tris.coeff i 0).toNat c))
    (Mat.resize tris.rows 3 default)
  let r2 := forPure tris.rows
    (fun i m => m.setRow i (fun c => rr.coeff (tris.coeff i 1).toNat c))
    (Mat.resize tris.rows 3 default)
  let r3 := forPure tris.rows
    (fun i m => m.setRow i (fun c => rr.coeff (tris.coeff i 2).toNat c))
    (Mat.resize tris.rows 3 default)
  let x := Mat.zipWith A.sub r2 r1
  let y := Mat.zipWith A.sub r3 r1
  let tri_nn0 : Mat K := Mat.resize x.rows y.cols default
  let tri_nn1 := tri_nn0.setCol 0
    (fun i => A.sub (A.mul (x.coeff i 1) (y.coeff i 2)) (A.mul (x.coeff i 2) (y.coeff i 1)))
  let tri_nn2 := tri_nn1.setCol 1
    (fun i => A.sub (A.mul (x.coeff i 2) (y.coeff i 0)) (A.mul (x.coeff i 0) (y.coeff i 2)))
  let tri_nn3 := tri_nn2.setCol 2
    (fun i => A.sub (A.mul (x.coeff i 0) (y.coeff i 1)) (A.mul (x.coeff i 1) (y.coeff i 0)))
  normalizeRows A (rowNorms A tri_nn3) tri_nn3

/-- `Surface::compute_normals` up to the assignment loop (lines 117-149): the
matrix `nn` before the second normalisation. -/
def assigned_normals {K : Type} [Inhabited K] (A : Arith K) (rr : Mat K) (tris : Mat Int) :
    Mat K :=
  forPure tris.rows
    (fun p nn =>
      forPure 3
        (fun j nn =>
          nn.setRow (tris.coeff p j).toNat (fun c => (triangle_normals A rr tris).coeff p c))
        nn)
    (Mat.resize rr.rows 3 A.zero)

/-- Row `i` of a matrix with three columns. -/
def Mat.row3 {α : Type} [Inhabited α] (m : Mat α) (i : Nat) : α × α × α :=
  (m.coeff i 0, m.coeff i 1, m.coeff i 2)

/-- The raw cross product `(rr[b] - rr[a]) x (rr[c] - rr[a])` of the triangle
with the vertices `a`, `b`, `c`. -/
def faceCross {K : Type} [Inhabited K] (A : Arith K) (rr : Mat K) (a b c : Nat) : K × K × K :=
  (A.sub (A.mul (A.sub (rr.coeff b 1) (rr.coeff a 1)) (A.sub (rr.coeff c 2) (rr.coeff a 2)))
      (A.mul (A.sub (rr.coeff b 2) (rr.coeff a 2)) (A.sub (rr.coeff c 1) (rr.coeff a 1))),
    A.sub (A.mul (A.sub (rr.coeff b 2) (rr.coeff a 2)) (A.sub (rr.coeff c 0) (rr.coeff a 0)))
      (A.mul (A.sub (rr.coeff b 0) (rr.coeff a 0)) (A.sub (rr.coeff c 2) (rr.coeff a 2))),
    A.sub (A.mul (A.sub (rr.coeff b 0) (rr.coeff a 0)) (A.sub (rr.coeff c 1) (rr.coeff a 1)))
      (A.mul (A.sub (rr.coeff b 1) (rr.coeff a 1)) (A.sub (rr.coeff c 0) (rr.coeff a 0))))

/-- The Euclidean length of a vector, `sqrt(n.x*n.x + n.y*n.y + n.z*n.z)`. -/
def norm3 {K : Type} (A : Arith K) (n : K × K × K) : K :=
  A.sqrt (A.add (A.add (A.mul n.1 n.1) (A.mul n.2.1 n.2.1)) (A.mul n.2.2 n.2.2))

/-- The vector divided by its length; a vector of length zero is left as it
is. -/
def normalize3 {K : Type} (A : Arith K) (n : K × K × K) : K × K × K :=
  if A.nonzero (norm3 A n) then
    (A.div n.1 (norm3 A n), A.div n.2.1 (norm3 A n), A.div n.2.2 (norm3 A n))
  else n

/-- The highest index `p < n` of a row of `tris` that contains the vertex `v`,
if there is one. -/
def lastTriangle (tris : Mat Int) (v : Nat) : Nat → Option Nat
  | 0 => none
  | p + 1 =>
    if tris.coeff p 0 = (v : Int) ∨ tris.coeff p 1 = (v : Int) ∨ tris.coeff p 2 = (v : Int) then
      some p
    else lastTriangle tris v p

/-- The reference value of the normal of vertex `v`: the normalised cross
product of the last triangle that contains `v`, the zero vector when no
triangle contains it. -/
def lastNormal {K : Type} [Inhabited K] (A : Arith K) (rr : Mat K) (tris : Mat Int) (v : Nat) :
    K × K × K :=
  match lastTriangle tris v tris.rows with
  | none => (A.zero, A.zero, A.zero)
  | some p =>
    normalize3 A
      (faceCross A rr (tris.coeff p 0).toNat (tris.coeff p 1).toNat (tris.coeff p 2).toNat)

/-- The arithmetic record computes exactly, over the real numbers. -/
structure ExactArith (A : Arith ℝ) : Prop where
  zero_eq : A.zero = 0
  add_eq : ∀ x y, A.add x y = x + y
  sub_eq : ∀ x y, A.sub x y = x - y
  mul_eq : ∀ x y, A.mul x y = x * y
  div_eq : ∀ x y, A.div x y = x / y
  sqrt_eq : ∀ x, A.sqrt x = Real.sqrt x
  nonzero_iff : ∀ x, A.nonzero x = true ↔ x ≠ 0

/-- All entries of `tris` are row indices of `rr`. -/
def InRange {K : Type} (rr : Mat K) (tris : Mat Int) : Prop :=
  ∀ p j, p < tris.rows → j < 3 → 0 ≤ tris.coeff p j ∧ tris.coeff p j < (rr.rows : Int)

/-- The arithmetic record of a field, with a given square root and a given
test for being different from zero. -/
def fieldArith {K : Type} [Field K] (sqrt : K → K) (nonzero : K → Bool) : Arith K :=
  { zero := 0
    add := fun x y => x + y
    sub := fun x y => x - y
    mul := fun x y => x * y
    div := fun x y => x / y
    sqrt := sqrt
    nonzero := nonzero }

/-- The vertices `(0,0,0), (1,0,0), (1,1,0), (0,1,0)` scaled by 0.001, as a
`4 x 3` matrix. -/
def scaledSquare (K : Type) [Field K] : Mat K :=
  ⟨4, 3, [0, 1 / 1000, 1 / 1000, 0, 0, 0, 1 / 1000, 1 / 1000, 0, 0, 0, 0]⟩

/-- The triangles `(0,1,2)` and `(0,2,3)`, as a `2 x 3` matrix. -/
def squareTriangles : Mat Int := ⟨2, 3, [0, 0, 1, 2, 2, 3]⟩

/-! ## The element accesses of the reshape loop -/

/-- `Surface::read`, the reshape loop of the quad branch (lines 229-240) with
a record of its element accesses: the loop of `reshapeQuads`, which in
addition appends the triple `(i, j, count)` for every execution of
`quads_new(i,j) = quads(count, 0)`. The result is the reshaped matrix and the
accesses in the order of execution. -/
def reshapeQuadsTraced (flat : List Int) (nquad : Nat) : Mat Int × List (Nat × Nat × Nat) :=
  let quads : Mat Int := ⟨flat.length, 1, flat⟩
  let quads_new : Mat Int := Mat.resize 4 nquad 0
  let filled := forPure quads.cols
    (fun j s =>
      forPure quads.rows
        (fun i s => ((s.1.1.set i j (quads.coeff s.1.2 0), s.1.2 + 1), s.2 ++ [(i, j, s.1.2)]))
        s)
    ((quads_new, 0), ([] : List (Nat × Nat × Nat)))
  (filled.1.1.transpose, filled.2)

/-- An access `(i, j, count)` of the reshape loop stays within the declared
sizes: the write `quads_new(i,j)` within the `4 x nquad` matrix, the read
`quads(count, 0)` within the `4*nquad x 1` buffer. -/
def AccessInBounds (nquad : Nat) (a : Nat × Nat × Nat) : Prop :=
  a.1 < 4 ∧ a.2.1 < nquad ∧ a.2.2 < 4 * nquad

instance AccessInBounds.dec (nquad : Nat) (a : Nat × Nat × Nat) :
    Decidable (AccessInBounds nquad a) :=
  inferInstanceAs (Decidable (a.1 < 4 ∧ a.2.1 < nquad ∧ a.2.2 < 4 * nquad))

/-! ## Sample meshes for the symmetries of `compute_normals` -/

/-- The vertices `(0,0,0), (1,0,0), (1,1,0), (0,1,0)` in raw units, as a
`4 x 3` matrix. -/
def rawSquare (K : Type) [Field K] : Mat K :=
  ⟨4, 3, [0, 1, 1, 0, 0, 0, 1, 1, 0, 0, 0, 0]⟩

/-- The triangles `(0,2,1)` and `(0,3,2)`: those of `squareTriangles` with the
second and third vertex exchanged. -/
def squareTrianglesSwapped : Mat Int := ⟨2, 3, [0, 0, 2, 3, 1, 2]⟩

/-- The triangles `(1,2,0)` and `(2,3,0)`: those of `squareTriangles` rotated
cyclically. -/
def squareTrianglesRotated : Mat Int := ⟨2, 3, [1, 2, 2, 3, 0, 0]⟩

/-! ## A quad file that refers to more than three vertices -/

/-- An old-quad file with 8 vertices, the raw 16-bit coordinates `1, 2, ...,
24` in file order, and the 2 quads `(0,1,2,3)` and `(4,5,6,7)`. -/
def eightVertexQuadFile : List Byte :=
  quadFile 255 0 0 8 0 0 2
    [0, 1, 0, 2, 0, 3, 0, 4, 0, 5, 0, 6, 0, 7, 0, 8, 0, 9, 0, 10, 0, 11, 0, 12,
     0, 13, 0, 14, 0, 15, 0, 16, 0, 17, 0, 18, 0, 19, 0, 20, 0, 21, 0, 22, 0, 23, 0, 24]
    [0, 0, 0, 0, 0, 1, 0, 0, 2, 0, 0, 3, 0, 0, 4, 0, 0, 5, 0, 0, 6, 0, 0, 7] []

/-! ## Loop rules -/

theorem forPure_inv {σ : Type} (P : Nat → σ → Prop) (n : Nat) (body : Nat → σ → σ) (s : σ)
    (h0 : P 0 s) (hstep : ∀ i t, i < n → P i t → P (i + 1) (body i t)) :
    P n (forPure n body s) := by
  induction n with
  | zero => exact h0
  | succ k ih =>
    exact hstep k _ (Nat.lt_succ_self k)
      (ih (fun i t hi hP => hstep i t (Nat.lt_succ_of_lt hi) hP))

theorem forLoop_inv {σ : Type} (P : Nat → σ → Prop) (n : Nat)
    (body : Nat → σ → Except Fault σ) (s : σ) (h0 : P 0 s)
    (hstep : ∀ i t, i < n → P i t → ∃ u, body i t = .ok u ∧ P (i + 1) u) :
    ∃ u, forLoop n body s = .ok u ∧ P n u := by
  induction n with
  | zero => exact ⟨s, rfl, h0⟩
  | succ k ih =>
    obtain ⟨t, ht, hP⟩ := ih (fun i t hi hP => hstep i t (Nat.lt_succ_of_lt hi) hP)
    obtain ⟨u, hu, hQ⟩ := hstep k t (Nat.lt_succ_self k) hP
    exact ⟨u, by simp only [forLoop, ht, hu], hQ⟩

/-! ## Matrix lemmas -/

namespace Mat

variable {α : Type}

theorem index_inj {r i j i2 j2 : Nat} (hi : i < r) (hi2 : i2 < r)
    (h : i + r * j = i2 + r * j2) : i = i2 ∧ j = j2 := by
  have h1 : (i + r * j) % r = (i2 + r * j2) % r := by rw [h]
  rw [Nat.add_mul_mod_self_left, Nat.add_mul_mod_self_left, Nat.mod_eq_of_lt hi,
    Nat.mod_eq_of_lt hi2] at h1
  subst h1
  have hr : 0 < r := by omega
  have h2 : r * j = r * j2 := by omega
  exact ⟨rfl, Nat.eq_of_mul_eq_mul_left hr h2⟩

theorem index_lt {r c i j : Nat} (hi : i < r) (hj : j < c) : i + r * j < r * c := by
  have h1 : r * (j + 1) ≤ r * c := Nat.mul_le_mul_left r hj
  rw [Nat.mul_add, Nat.mul_one] at h1
  omega

@[simp] theorem set_rows (m : Mat α) (i j : Nat) (v : α) : (m.set i j v).rows = m.rows := rfl

@[simp] theorem set_cols (m : Mat α) (i j : Nat) (v : α) : (m.set i j v).cols = m.cols := rfl

theorem set_WF {m : Mat α} (h : m.WF) (i j : Nat) (v : α) : (m.set i j v).WF := by
  unfold WF at *
  simp [set, h]

theorem resize_WF (r c : Nat) (v : α) : (resize r c v).WF := by
  simp [WF, resize]

theorem coeff_eq_getElem [Inhabited α] (m : Mat α) (i j : Nat)
    (h : i + m.rows * j < m.data.length) : m.coeff i j = m.data[i + m.rows * j] := by
  simp [coeff, List.getD_eq_getElem?_getD, List.getElem?_eq_getElem h]

theorem coeff_set [Inhabited α] {m : Mat α} (hw : m.WF) {i j i2 j2 : Nat} (v : α)
    (hi : i < m.rows) (hj : j < m.cols) (hi2 : i2 < m.rows) :
    (m.set i j v).coeff i2 j2 = if i2 = i ∧ j2 = j then v else m.coeff i2 j2 := by
  have hlt : i + m.rows * j < m.data.length := by rw [hw]; exact index_lt hi hj
  simp only [coeff, set, List.getD_eq_getElem?_getD, List.getElem?_set]
  by_cases h : i + m.rows * j = i2 + m.rows * j2
  · obtain ⟨h1, h2⟩ := index_inj hi hi2 h
    subst h1; subst h2
    simp [hlt]
  · have h3 : ¬ (i2 = i ∧ j2 = j) := by
      rintro ⟨h1, h2⟩
      exact h (by rw [h1, h2])
    simp [h, h3]

theorem coeff_resize [Inhabited α] (r c : Nat) (v : α) {i j : Nat} (hi : i < r) (hj : j < c) :
    (resize r c v).coeff i j = v := by
  simp [coeff, resize, List.getD_eq_getElem?_getD, List.getElem?_replicate, index_lt hi hj]

@[simp] theorem transpose_rows [Inhabited α] (m : Mat α) : m.transpose.rows = m.cols := rfl

@[simp] theorem transpose_cols [Inhabited α] (m : Mat α) : m.transpose.cols = m.rows := rfl

theorem transpose_WF [Inhabited α] (m : Mat α) : m.transpose.WF := by
  simp [WF, transpose]

theorem coeff_transpose [Inhabited α] (m : Mat α) {i j : Nat} (hi : i < m.cols)
    (hj : j < m.rows) : m.transpose.coeff i j = m.coeff j i := by
  have hlt : i + m.cols * j < m.cols * m.rows := index_lt hi hj
  have hpos : 0 < m.cols := by omega
  simp only [coeff, transpose, List.getD_eq_getElem?_getD, List.getElem?_map,
    List.getElem?_range hlt, Option.map_some', Option.getD_some]
  rw [Nat.add_mul_div_left _ _ hpos, Nat.add_mul_mod_self_left, Nat.div_eq_of_lt hi,
    Nat.mod_eq_of_lt hi, Nat.zero_add]

theorem coeff_mapData [Inhabited α] (m : Mat α) (g : α → α) {i j : Nat}
    (h : i + m.rows * j < m.data.length) :
    Mat.coeff { m with data := m.data.map g } i j = g (m.coeff i j) := by
  simp [coeff, List.getD_eq_getElem?_getD, List.getElem?_eq_getElem h]

theorem block_ok [Inhabited α] (m : Mat α) {r c : Nat} (hr : r ≤ m.rows) (hc : c ≤ m.cols) :
    ∃ b, m.block r c = .ok b ∧ b.rows = r ∧ b.cols = c ∧ b.WF ∧
      ∀ i j, i < r → j < c → b.coeff i j = m.coeff i j := by
  refine ⟨⟨r, c, (List.range (r * c)).map (fun k => m.coeff (k % r) (k / r))⟩, ?_, rfl, rfl,
    ?_, ?_⟩
  · simp only [block, hr, hc, and_self, if_true]
  · simp [WF]
  · intro i j hi hj
    have hlt : i + r * j < r * c := index_lt hi hj
    have hpos : 0 < r := by omega
    simp only [coeff, List.getD_eq_getElem?_getD, List.getElem?_map,
      List.getElem?_range hlt, Option.map_some', Option.getD_some]
    rw [Nat.add_mul_div_left _ _ hpos, Nat.add_mul_mod_self_left, Nat.div_eq_of_lt hi,
      Nat.mod_eq_of_lt hi, Nat.zero_add]

end Mat

/-! ## Stream lemmas -/

theorem drop_four {blk : List Byte} {n : Nat} (h : n + 4 ≤ blk.length) :
    blk.drop n = blk.getD n 0 :: blk.getD (n + 1) 0 :: blk.getD (n + 2) 0 ::
      blk.getD (n + 3) 0 :: blk.drop (n + 4) := by
  rw [List.drop_eq_getElem_cons (by omega : n < blk.length),
    List.drop_eq_getElem_cons (by omega : n + 1 < blk.length),
    List.drop_eq_getElem_cons (by omega : n + 2 < blk.length),
    List.drop_eq_getElem_cons (by omega : n + 3 < blk.length),
    List.getD_eq_getElem _ _ (by omega : n < blk.length),
    List.getD_eq_getElem _ _ (by omega : n + 1 < blk.length),
    List.getD_eq_getElem _ _ (by omega : n + 2 < blk.length),
    List.getD_eq_getElem _ _ (by omega : n + 3 < blk.length)]

theorem drop_two {blk : List Byte} {n : Nat} (h : n + 2 ≤ blk.length) :
    blk.drop n = blk.getD n 0 :: blk.getD (n + 1) 0 :: blk.drop (n + 2) := by
  rw [List.drop_eq_getElem_cons (by omega : n < blk.length),
    List.drop_eq_getElem_cons (by omega : n + 1 < blk.length),
    List.getD_eq_getElem _ _ (by omega : n < blk.length),
    List.getD_eq_getElem _ _ (by omega : n + 1 < blk.length)]

theorem readInt32_drop (blk rest : List Byte) (k : Nat) (h : 4 * k + 4 ≤ blk.length) :
    readInt32 (blk.drop (4 * k) ++ rest) = .ok (int32At blk k, blk.drop (4 * (k + 1)) ++ rest) := by
  rw [drop_four h]
  simp only [List.cons_append, readInt32, int32At]
  rfl

theorem readInt16_drop (blk rest : List Byte) (k : Nat) (h : 2 * k + 2 ≤ blk.length) :
    readInt16 (blk.drop (2 * k) ++ rest) = .ok (int16At blk k, blk.drop (2 * (k + 1)) ++ rest) := by
  rw [drop_two h]
  simp only [List.cons_append, readInt16, int16At]
  rfl

theorem readLine_line (line rest : List Byte) (h : (10 : Byte) ∉ line) :
    readLine (line ++ 10 :: rest) = (line ++ [10], rest) := by
  induction line with
  | nil => simp [readLine]
  | cons b t ih =>
    have hb : b ≠ 10 := fun hb => h (by simp [hb])
    have ht : (10 : Byte) ∉ t := fun ht => h (by simp [ht])
    simp [readLine, hb, ih ht]

theorem readRawFloats_block (n : Nat) (blk rest : List Byte) (h : blk.length = 4 * n) :
    readRawFloats n (blk ++ rest) = .ok ((List.range n).map (floatAt blk), rest) := by
  induction n generalizing blk with
  | zero =>
    have : blk = [] := List.length_eq_zero.mp (by omega)
    subst this
    rfl
  | succ k ih =>
    match blk, h with
    | b0 :: b1 :: b2 :: b3 :: t, h =>
      have ht : t.length = 4 * k := by simp only [List.length_cons] at h; omega
      simp only [List.cons_append, readRawFloats, ih t ht, List.range_succ_eq_map, List.map_cons,
        List.map_map]
      congr 2

theorem fread3_many_block (n : Nat) (blk rest : List Byte) (h : blk.length = 3 * n) :
    fread3_many n (blk ++ rest) =
      .ok ((List.range n).map (fun k => (uint24At blk k : Int)), rest) := by
  induction n generalizing blk with
  | zero =>
    have : blk = [] := List.length_eq_zero.mp (by omega)
    subst this
    rfl
  | succ k ih =>
    match blk, h with
    | b0 :: b1 :: b2 :: t, h =>
      have ht : t.length = 3 * k := by simp only [List.length_cons] at h; omega
      simp only [List.cons_append, fread3_many, fread3, ih t ht, List.range_succ_eq_map,
        List.map_cons, List.map_map]
      congr 2

/-! ## Loops that fill or update a matrix -/

/-- A double loop over `(i, j)`, `i < n`, `j < 3`, whose body reads one cell
of `w` bytes from the stream and stores it at `(i, j)`, fills the matrix with
the cells of the block in file order and consumes exactly the block. -/
theorem fill_loop {α : Type} [Inhabited α]
    (step : Nat → Nat → Mat α × List Byte → Except Fault (Mat α × List Byte))
    (w n : Nat) (blk rest : List Byte) (val : Nat → α) (hlen : blk.length = w * (3 * n))
    (hstep : ∀ i j m k, w * k + w ≤ blk.length →
      step i j (m, blk.drop (w * k) ++ rest) =
        .ok (m.set i j (val k), blk.drop (w * (k + 1)) ++ rest))
    (m0 : Mat α) (hr : m0.rows = n) (hc : m0.cols = 3) (hw : m0.WF) :
    ∃ m, forLoop n (fun i s => forLoop 3 (fun j s => step i j s) s) (m0, blk ++ rest) =
        .ok (m, rest) ∧
      m.rows = n ∧ m.cols = 3 ∧ m.WF ∧
      ∀ i j, i < n → j < 3 → m.coeff i j = val (3 * i + j) := by
  obtain ⟨u, hu, hP⟩ := forLoop_inv
    (fun i s => s.2 = blk.drop (w * (3 * i)) ++ rest ∧ s.1.rows = n ∧ s.1.cols = 3 ∧ s.1.WF ∧
      ∀ a b, a < i → b < 3 → s.1.coeff a b = val (3 * a + b))
    n (fun i s => forLoop 3 (fun j s => step i j s) s) (m0, blk ++ rest)
    ⟨by simp, hr, hc, hw, fun a b ha => absurd ha (Nat.not_lt_zero a)⟩
    (by
      intro i t hi hPi
      obtain ⟨h1, h2, h3, h4, h5⟩ := hPi
      obtain ⟨v, hv, hQ⟩ := forLoop_inv
        (fun j s => s.2 = blk.drop (w * (3 * i + j)) ++ rest ∧ s.1.rows = n ∧ s.1.cols = 3 ∧
          s.1.WF ∧
          ∀ a b, b < 3 → (a < i ∨ (a = i ∧ b < j)) → s.1.coeff a b = val (3 * a + b))
        3 (fun j s => step i j s) t
        ⟨h1, h2, h3, h4, fun a b hb hab => h5 a b (by omega) hb⟩
        (by
          intro j s hj hQj
          obtain ⟨m, st⟩ := s
          obtain ⟨q1, q2, q3, q4, q5⟩ := hQj
          simp only at q1 q2 q3 q4 q5
          subst q1
          have hb : w * (3 * i + j) + w ≤ blk.length := by
            rw [hlen]
            have e : w * (3 * i + j) + w = w * (3 * i + j + 1) := by
              rw [Nat.mul_add w _ 1, Nat.mul_one]
            rw [e]
            exact Nat.mul_le_mul_left w (by omega)
          refine ⟨_, hstep i j m (3 * i + j) hb, rfl, q2, q3, Mat.set_WF q4 _ _ _, ?_⟩
          intro a b hb3 hab
          have ha : a < m.rows := by omega
          simp only
          rw [Mat.coeff_set q4 _ (by omega) (by omega) ha]
          by_cases hc : a = i ∧ b = j
          · rw [if_pos hc, hc.1, hc.2]
          · rw [if_neg hc]
            exact q5 a b hb3 (by omega))
      refine ⟨v, hv, ?_, hQ.2.1, hQ.2.2.1, hQ.2.2.2.1, ?_⟩
      · rw [hQ.1]
        have e : 3 * i + 3 = 3 * (i + 1) := by omega
        rw [e]
      · intro a b ha hb
        exact hQ.2.2.2.2 a b hb (by omega))
  obtain ⟨m, st⟩ := u
  obtain ⟨p1, p2, p3, p4, p5⟩ := hP
  simp only at p1 p2 p3 p4 p5
  have hst : st = rest := by
    rw [p1, ← hlen, List.drop_length, List.nil_append]
  subst hst
  exact ⟨m, hu, p2, p3, p4, p5⟩

/-- A double loop that updates every coefficient of an `r x c` matrix in place
applies the update to each coefficient once. -/
theorem modify_loop {α : Type} [Inhabited α] (f : α → α) (r c : Nat) (m0 : Mat α)
    (hr : m0.rows = r) (hc : m0.cols = c) (hw : m0.WF) :
    (forPure r (fun i m => forPure c (fun j m => m.set i j (f (m.coeff i j))) m) m0).rows = r ∧
    (forPure r (fun i m => forPure c (fun j m => m.set i j (f (m.coeff i j))) m) m0).cols = c ∧
    (forPure r (fun i m => forPure c (fun j m => m.set i j (f (m.coeff i j))) m) m0).WF ∧
    ∀ i j, i < r → j < c →
      (forPure r (fun i m => forPure c (fun j m => m.set i j (f (m.coeff i j))) m) m0).coeff i j =
        f (m0.coeff i j) := by
  have key := forPure_inv
    (fun i (m : Mat α) => m.rows = r ∧ m.cols = c ∧ m.WF ∧
      ∀ a b, a < r → b < c → m.coeff a b = if a < i then f (m0.coeff a b) else m0.coeff a b)
    r (fun i m => forPure c (fun j m => m.set i j (f (m.coeff i j))) m) m0
    ⟨hr, hc, hw, fun a b _ _ => by simp⟩
    (by
      intro i t hi hPi
      obtain ⟨h2, h3, h4, h5⟩ := hPi
      have inner := forPure_inv
        (fun j (m : Mat α) => m.rows = r ∧ m.cols = c ∧ m.WF ∧
          ∀ a b, a < r → b < c → m.coeff a b =
            if a < i ∨ (a = i ∧ b < j) then f (m0.coeff a b) else m0.coeff a b)
        c (fun j m => m.set i j (f (m.coeff i j))) t
        ⟨h2, h3, h4, fun a b ha hb => by
          rw [h5 a b ha hb]
          by_cases h : a < i
          · rw [if_pos h, if_pos (Or.inl h)]
          · rw [if_neg h, if_neg (by omega)]⟩
        (by
          intro j m hj hQj
          obtain ⟨q2, q3, q4, q5⟩ := hQj
          refine ⟨q2, q3, Mat.set_WF q4 _ _ _, ?_⟩
          intro a b ha hb
          rw [Mat.coeff_set q4 _ (by omega) (by omega) (by omega)]
          by_cases hab : a = i ∧ b = j
          · rw [if_pos hab, if_pos (by omega), q5 i j hi hj, if_neg (by omega), hab.1, hab.2]
          · rw [if_neg hab, q5 a b ha hb]
            by_cases h : a < i ∨ (a = i ∧ b < j)
            · rw [if_pos h, if_pos (by omega)]
            · rw [if_neg h, if_neg (by omega)])
      refine ⟨inner.1, inner.2.1, inner.2.2.1, ?_⟩
      intro a b ha hb
      rw [inner.2.2.2 a b ha hb]
      by_cases h : a < i + 1
      · rw [if_pos h, if_pos (by omega)]
      · rw [if_neg h, if_neg (by omega)])
  refine ⟨key.1, key.2.1, key.2.2.1, ?_⟩
  intro i j hi hj
  rw [key.2.2.2 i j hi hj, if_pos hi]

/-! ## The triangle branch -/

theorem readTriangleFaces_block (nface : Nat) (fblock rest : List Byte)
    (h : fblock.length = 4 * (3 * nface)) :
    ∃ faces, readTriangleFaces nface (fblock ++ rest) = .ok (faces, rest) ∧
      faces.rows = nface ∧ faces.cols = 3 ∧ faces.WF ∧
      ∀ i j, i < nface → j < 3 → faces.coeff i j = int32At fblock (3 * i + j) := by
  unfold readTriangleFaces
  refine fill_loop _ 4 nface fblock rest (int32At fblock) h ?_ (Mat.resize nface 3 0) rfl rfl
    (Mat.resize_WF _ _ _)
  intro i j m k hk
  simp only [readInt32_drop _ _ _ hk]

theorem readTriangleBranch_block (line1 line2 : List Byte) (h1 : (10 : Byte) ∉ line1)
    (h2 : (10 : Byte) ∉ line2) (v0 v1 v2 v3 f0 f1 f2 f3 : Byte) (nvert nface : Nat)
    (hv : beInt32 v0 v1 v2 v3 = (nvert : Int)) (hf : beInt32 f0 f1 f2 f3 = (nface : Int))
    (hrange : nvert * 12 < 2 ^ 31) (vblock fblock extra : List Byte)
    (hvb : vblock.length = 12 * nvert) (hfb : fblock.length = 12 * nface) :
    ∃ verts faces,
      readTriangleBranch (line1 ++ 10 :: (line2 ++ 10 ::
        (v0 :: v1 :: v2 :: v3 :: f0 :: f1 :: f2 :: f3 :: (vblock ++ (fblock ++ extra))))) =
          .ok (verts, faces) ∧
      verts.rows = 3 ∧ verts.cols = nvert ∧
      (∀ i j, i < 3 → j < nvert → verts.coeff i j = swap_floatp (floatAt vblock (i + 3 * j))) ∧
      faces.rows = nface ∧ faces.cols = 3 ∧
      ∀ i j, i < nface → j < 3 → faces.coeff i j = int32At fblock (3 * i + j) := by
  obtain ⟨faces, hfaces, fr, fc, _, fco⟩ :=
    readTriangleFaces_block nface fblock extra (by omega)
  have hraw := readRawFloats_block (nvert * 3) vblock (fblock ++ extra) (by omega)
  have hmod := modify_loop swap_floatp 3 nvert
    (⟨3, nvert, (List.range (nvert * 3)).map (floatAt vblock)⟩ : Mat F32) rfl rfl
    (by simp [Mat.WF, Nat.mul_comm])
  have hneg : ¬ ((nvert : Int) < 0) := by omega
  have hneg2 : ¬ ((nface : Int) < 0) := by omega
  have hr : ¬ ((2 : Int) ^ 31 ≤ (nvert : Int) * 3 * 4) := by
    have : ((nvert * 12 : Nat) : Int) < 2 ^ 31 := by exact_mod_cast hrange
    push_cast at this
    omega
  refine ⟨_, faces, ?_, hmod.1, hmod.2.1, ?_, fr, fc, fco⟩
  · simp only [readTriangleBranch, readLine_line _ _ h1, readLine_line _ _ h2, readInt32, hv, hf,
      hneg, hneg2, hr, if_false, Int.toNat_ofNat, hraw, hfaces]
  · intro i j hi hj
    rw [hmod.2.2.2 i j hi hj]
    have hlt : i + 3 * j < nvert * 3 := by omega
    simp [Mat.coeff, List.getD_eq_getElem?_getD, List.getElem?_range hlt]

/-! ## Post-processing and hemisphere detection -/

theorem containsChars_iff (needle hay : List Char) :
    containsChars needle hay = true ↔ needle <:+: hay := by
  induction hay with
  | nil => simp [containsChars]
  | cons c cs ih =>
    simp only [containsChars, Bool.or_eq_true, ih, List.isPrefixOf_iff_prefix,
      List.infix_cons_iff]

theorem indicesInRange_iff (rows : Nat) (tris : Mat Int) :
    indicesInRange rows tris = true ↔
      ∀ p j, p < tris.rows → j < 3 → 0 ≤ tris.coeff p j ∧ tris.coeff p j < (rows : Int) := by
  simp only [indicesInRange, List.all_eq_true, List.mem_range, decide_eq_true_eq]
  exact ⟨fun h p j hp hj => h p hp j hj, fun h p hp j hj => h p j hp hj⟩

theorem compute_normals_checked_ok {K : Type} [Inhabited K] (A : Arith K) (rr : Mat K)
    (tris : Mat Int) (h : InRange rr tris) :
    compute_normals_checked A rr tris = .ok (compute_normals A rr tris) := by
  unfold compute_normals_checked
  rw [if_pos ((indicesInRange_iff rr.rows tris).mpr h)]

theorem compute_normals_checked_fault {K : Type} [Inhabited K] (A : Arith K) (rr : Mat K)
    (tris : Mat Int) (h : ¬ InRange rr tris) :
    compute_normals_checked A rr tris = .error .eigenAssert := by
  unfold compute_normals_checked
  rw [if_neg (fun hc => h ((indicesInRange_iff rr.rows tris).mp hc))]

theorem compute_normals_checked_inv {K : Type} [Inhabited K] (A : Arith K) (rr : Mat K)
    (tris : Mat Int) (nn : Mat K) (h : compute_normals_checked A rr tris = .ok nn) :
    InRange rr tris ∧ nn = compute_normals A rr tris := by
  by_cases hin : InRange rr tris
  · rw [compute_normals_checked_ok A rr tris hin] at h
    cases h
    exact ⟨hin, rfl⟩
  · rw [compute_normals_checked_fault A rr tris hin] at h
    cases h

/-- The end of `Surface::read` on decoded matrices `verts` (three rows) and
`faces` (three columns) whose face indices are all columns of `verts`. -/
theorem finishRead_ok (ops : FloatOps) (path : String) (p : Surface) (verts : Mat F32)
    (faces : Mat Int) (hv : 3 ≤ verts.rows) (hf : 3 ≤ faces.cols)
    (hin : ∀ i j, i < faces.rows → j < 3 →
      0 ≤ faces.coeff i j ∧ faces.coeff i j < (verts.cols : Int)) :
    ∃ rr tris,
      rr.rows = verts.cols ∧ rr.cols = 3 ∧
      (∀ i j, i < verts.cols → j < 3 → rr.coeff i j = ops.mul (verts.coeff j i) ops.milli) ∧
      tris.rows = faces.rows ∧ tris.cols = 3 ∧
      (∀ i j, i < faces.rows → j < 3 → tris.coeff i j = faces.coeff i j) ∧
      InRange rr tris ∧
      finishRead ops path p verts faces =
        .ok (if QString_contains path "lh." then
              (Exit.loaded, { p with rr := rr, tris := tris,
                                     nn := compute_normals ops.toArith rr tris,
                                     hemi := 0, surf := QString_right path 4 })
            else if QString_contains path "rh." then
              (Exit.loaded, { p with rr := rr, tris := tris,
                                     nn := compute_normals ops.toArith rr tris,
                                     hemi := 1, surf := QString_right path 4 })
            else
              (Exit.hemiUnresolved, { p with rr := rr, tris := tris,
                                             nn := compute_normals ops.toArith rr tris,
                                             hemi := -1 })) := by
  obtain ⟨rr, hrr, r1, r2, _, r4⟩ := Mat.block_ok
    ({ verts.transpose with data := verts.transpose.data.map (fun v => ops.mul v ops.milli) } :
      Mat F32)
    (Nat.le_refl verts.cols) (show 3 ≤ verts.rows from hv)
  obtain ⟨tris, htris, t1, t2, _, t4⟩ := Mat.block_ok faces (Nat.le_refl faces.rows) hf
  have hrange : InRange rr tris := by
    intro i j hi hj
    rw [t1] at hi
    rw [t4 i j hi hj, r1]
    exact hin i j hi hj
  refine ⟨rr, tris, r1, r2, ?_, t1, t2, t4, hrange, ?_⟩
  · intro i j hi hj
    rw [r4 i j hi hj]
    have hj2 : j < verts.rows := by omega
    have hlt : i + verts.transpose.rows * j < verts.transpose.data.length := by
      rw [verts.transpose_WF]
      exact Mat.index_lt hi hj2
    rw [Mat.coeff_mapData _ _ hlt, Mat.coeff_transpose _ hi hj2]
  · simp only [finishRead, Mat.transpose_rows]
    simp only [Mat.transpose_rows] at hrr
    rw [hrr, htris]
    simp only
    rw [compute_normals_checked_ok ops.toArith rr tris hrange]
    simp only
    split
    · rfl
    · split <;> rfl

/-- The end of `Surface::read` when some face index is not a column of
`verts`: the call of `compute_normals` leaves the matrices. -/
theorem finishRead_fault (ops : FloatOps) (path : String) (p : Surface) (verts : Mat F32)
    (faces : Mat Int) (hv : 3 ≤ verts.rows) (hf : 3 ≤ faces.cols) (i j : Nat)
    (hi : i < faces.rows) (hj : j < 3)
    (hout : ¬ (0 ≤ faces.coeff i j ∧ faces.coeff i j < (verts.cols : Int))) :
    finishRead ops path p verts faces = .error .eigenAssert := by
  obtain ⟨rr, hrr, r1, r2, _, r4⟩ := Mat.block_ok
    ({ verts.transpose with data := verts.transpose.data.map (fun v => ops.mul v ops.milli) } :
      Mat F32)
    (Nat.le_refl verts.cols) (show 3 ≤ verts.rows from hv)
  obtain ⟨tris, htris, t1, t2, _, t4⟩ := Mat.block_ok faces (Nat.le_refl faces.rows) hf
  have hrange : ¬ InRange rr tris := by
    intro h
    apply hout
    have := h i j (by rw [t1]; exact hi) hj
    rw [t4 i j hi hj, r1] at this
    exact this
  simp only [finishRead, Mat.transpose_rows]
  simp only [Mat.transpose_rows] at hrr
  rw [hrr, htris]
  simp only
  rw [compute_normals_checked_fault ops.toArith rr tris hrange]

/-- What a returning run of the end of `Surface::read` has established: the
sizes that the two blocks need, face indices within the columns of `verts`,
`rr` and `tris` as decoded, and in-range normals. -/
theorem finishRead_inv (ops : FloatOps) (path : String) (p : Surface) (verts : Mat F32)
    (faces : Mat Int) (e : Exit) (s : Surface)
    (h : finishRead ops path p verts faces = .ok (e, s)) :
    3 ≤ verts.rows ∧ 3 ≤ faces.cols ∧
    s.rr.rows = verts.cols ∧ s.rr.cols = 3 ∧
    (∀ i j, i < verts.cols → j < 3 → s.rr.coeff i j = ops.mul (verts.coeff j i) ops.milli) ∧
    s.tris.rows = faces.rows ∧ s.tris.cols = 3 ∧
    (∀ i j, i < faces.rows → j < 3 → s.tris.coeff i j = faces.coeff i j) ∧
    InRange s.rr s.tris ∧ s.nn = compute_normals ops.toArith s.rr s.tris ∧
    s.curv = p.curv ∧
    ((e = .loaded ∧ (s.hemi = 0 ∨ s.hemi = 1)) ∨
      (e = .hemiUnresolved ∧ s.hemi = -1 ∧ s.surf = p.surf)) := by
  have hv : 3 ≤ verts.rows := by
    by_contra hc
    simp only [finishRead, Mat.block, Mat.transpose_rows, Mat.transpose_cols] at h
    rw [if_neg (fun hh => hc hh.2)] at h
    cases h
  have hf : 3 ≤ faces.cols := by
    by_contra hc
    obtain ⟨rr, hrr, _⟩ := Mat.block_ok
      ({ verts.transpose with data := verts.transpose.data.map (fun v => ops.mul v ops.milli) } :
        Mat F32)
      (Nat.le_refl verts.cols) (show 3 ≤ verts.rows from hv)
    simp only [finishRead, Mat.transpose_rows] at h
    simp only [Mat.transpose_rows] at hrr
    rw [hrr] at h
    simp only [Mat.block] at h
    rw [if_neg (fun hh => hc hh.2)] at h
    cases h
  have hin : ∀ i j, i < faces.rows → j < 3 →
      0 ≤ faces.coeff i j ∧ faces.coeff i j < (verts.cols : Int) := by
    intro i j hi hj
    by_contra hc
    rw [finishRead_fault ops path p verts faces hv hf i j hi hj hc] at h
    cases h
  obtain ⟨rr, tris, r1, r2, r3, t1, t2, t3, hrange, hfin⟩ :=
    finishRead_ok ops path p verts faces hv hf hin
  rw [hfin] at h
  by_cases hl : QString_contains path "lh." = true
  · rw [if_pos hl] at h
    cases h
    exact ⟨hv, hf, r1, r2, r3, t1, t2, t3, hrange, rfl, rfl, Or.inl ⟨rfl, Or.inl rfl⟩⟩
  · rw [if_neg hl] at h
    by_cases hr : QString_contains path "rh." = true
    · rw [if_pos hr] at h
      cases h
      exact ⟨hv, hf, r1, r2, r3, t1, t2, t3, hrange, rfl, rfl, Or.inl ⟨rfl, Or.inr rfl⟩⟩
    · rw [if_neg hr] at h
      cases h
      exact ⟨hv, hf, r1, r2, r3, t1, t2, t3, hrange, rfl, rfl, Or.inr ⟨rfl, rfl, rfl⟩⟩

/-! ## Exits of `Surface::read` -/

theorem finishRead_exit (ops : FloatOps) (path : String) (p : Surface) (verts : Mat F32)
    (faces : Mat Int) (e : Exit) (s : Surface)
    (h : finishRead ops path p verts faces = .ok (e, s)) :
    e = .loaded ∨ e = .hemiUnresolved := by
  rcases (finishRead_inv ops path p verts faces e s h).2.2.2.2.2.2.2.2.2.2.2 with hc | hc
  · exact Or.inl hc.1
  · exact Or.inr hc.1

theorem read_cons3 (ops : FloatOps) (b0 b1 b2 : Byte) (rest : List Byte) (path : String)
    (s0 : Surface) (lc : Bool) :
    read ops (some (b0 :: b1 :: b2 :: rest)) path s0 lc =
      if (b0.val <<< 16 ||| b1.val <<< 8 ||| b2.val) = 16777215 ∨
          (b0.val <<< 16 ||| b1.val <<< 8 ||| b2.val) = 16777213 then
        (readQuadBranch ops (b0.val <<< 16 ||| b1.val <<< 8 ||| b2.val) rest).bind
          (fun vf => finishRead ops path s0.clear vf.1 vf.2)
      else if (b0.val <<< 16 ||| b1.val <<< 8 ||| b2.val) = 16777214 then
        (readTriangleBranch rest).bind (fun vf => finishRead ops path s0.clear vf.1 vf.2)
      else .ok (.badMagic (b0.val <<< 16 ||| b1.val <<< 8 ||| b2.val), s0.clear) := by
  simp only [read, fread3, QUAD_FILE_MAGIC_NUMBER, NEW_QUAD_FILE_MAGIC_NUMBER,
    TRIANGLE_FILE_MAGIC_NUMBER]
  split
  · cases h : readQuadBranch ops (b0.val <<< 16 ||| b1.val <<< 8 ||| b2.val) rest <;>
      simp [Except.bind]
  · split
    · cases h : readTriangleBranch rest <;> simp [Except.bind]
    · rfl

theorem bind_finishRead_ne_badMagic (ops : FloatOps) (path : String) (p : Surface)
    (r : Except Fault (Mat F32 × Mat Int)) (m : Nat) (s : Surface) :
    r.bind (fun vf => finishRead ops path p vf.1 vf.2) ≠ .ok (.badMagic m, s) := by
  intro h
  cases r with
  | error e => simp [Except.bind] at h
  | ok vf =>
    simp only [Except.bind] at h
    rcases finishRead_exit ops path p vf.1 vf.2 _ _ h with h1 | h1 <;> cases h1

/-- C1: a file that can be opened and has at least three bytes is rejected at
the magic-number check (exit `badMagic`, return value `false`, surface still
cleared) exactly when the number formed from its first three bytes is none of
16777213, 16777214, 16777215; on 16777215 and 16777213 the call continues
with the quad branch, on 16777214 with the triangle branch. -/
theorem read_magic_dispatch (ops : FloatOps) (b0 b1 b2 : Byte) (rest : List Byte)
    (path : String) (s0 : Surface) (lc : Bool) :
    (read ops (some (b0 :: b1 :: b2 :: rest)) path s0 lc =
        .ok (.badMagic (b0.val <<< 16 ||| b1.val <<< 8 ||| b2.val), s0.clear) ↔
      ((b0.val <<< 16 ||| b1.val <<< 8 ||| b2.val) ≠ 16777213 ∧
        (b0.val <<< 16 ||| b1.val <<< 8 ||| b2.val) ≠ 16777214 ∧
        (b0.val <<< 16 ||| b1.val <<< 8 ||| b2.val) ≠ 16777215)) ∧
    (Exit.badMagic (b0.val <<< 16 ||| b1.val <<< 8 ||| b2.val)).ret = false ∧
    read ops (some (b0 :: b1 :: b2 :: rest)) path s0 lc =
      (if (b0.val <<< 16 ||| b1.val <<< 8 ||| b2.val) = 16777215 ∨
          (b0.val <<< 16 ||| b1.val <<< 8 ||| b2.val) = 16777213 then
        (readQuadBranch ops (b0.val <<< 16 ||| b1.val <<< 8 ||| b2.val) rest).bind
          (fun vf => finishRead ops path s0.clear vf.1 vf.2)
      else if (b0.val <<< 16 ||| b1.val <<< 8 ||| b2.val) = 16777214 then
        (readTriangleBranch rest).bind (fun vf => finishRead ops path s0.clear vf.1 vf.2)
      else .ok (.badMagic (b0.val <<< 16 ||| b1.val <<< 8 ||| b2.val), s0.clear)) := by
  refine ⟨?_, rfl, read_cons3 ops b0 b1 b2 rest path s0 lc⟩
  rw [read_cons3]
  generalize (b0.val <<< 16 ||| b1.val <<< 8 ||| b2.val) = m
  constructor
  · intro h
    split at h
    · exact absurd h (bind_finishRead_ne_badMagic _ _ _ _ _ _)
    · split at h
      · exact absurd h (bind_finishRead_ne_badMagic _ _ _ _ _ _)
      · omega
  · rintro ⟨h1, h2, h3⟩
    rw [if_neg (by omega), if_neg h2]

theorem magic_triangle :
    ((255 : Byte).val <<< 16 ||| (255 : Byte).val <<< 8 ||| (254 : Byte).val) = 16777214 := by
  decide

theorem magic_quad :
    ((255 : Byte).val <<< 16 ||| (255 : Byte).val <<< 8 ||| (255 : Byte).val) = 16777215 := by
  decide

theorem magic_new_quad :
    ((255 : Byte).val <<< 16 ||| (255 : Byte).val <<< 8 ||| (253 : Byte).val) = 16777213 := by
  decide

/-- What `Surface::read` does on a well-formed triangle file whose face
indices are all indices of vertices. -/
theorem read_triangleFile (ops : FloatOps) (line1 line2 : List Byte)
    (h1 : (10 : Byte) ∉ line1) (h2 : (10 : Byte) ∉ line2)
    (v0 v1 v2 v3 f0 f1 f2 f3 : Byte) (nvert nface : Nat)
    (hv : beInt32 v0 v1 v2 v3 = (nvert : Int)) (hf : beInt32 f0 f1 f2 f3 = (nface : Int))
    (hrange : nvert * 12 < 2 ^ 31) (vblock fblock extra : List Byte)
    (hvb : vblock.length = 12 * nvert) (hfb : fblock.length = 12 * nface)
    (hidx : ∀ k, k < 3 * nface → 0 ≤ int32At fblock k ∧ int32At fblock k < (nvert : Int))
    (path : String) (s0 : Surface) (lc : Bool) :
    ∃ rr tris,
      rr.rows = nvert ∧ rr.cols = 3 ∧
      (∀ i j, i < nvert → j < 3 →
        rr.coeff i j = ops.mul (swap_floatp (floatAt vblock (3 * i + j))) ops.milli) ∧
      tris.rows = nface ∧ tris.cols = 3 ∧
      (∀ i j, i < nface → j < 3 → tris.coeff i j = int32At fblock (3 * i + j)) ∧
      read ops (some (triangleFile line1 line2 v0 v1 v2 v3 f0 f1 f2 f3 vblock fblock extra))
          path s0 lc =
        .ok (if QString_contains path "lh." then
              (Exit.loaded, { s0.clear with rr := rr, tris := tris,
                                            nn := compute_normals ops.toArith rr tris,
                                            hemi := 0, surf := QString_right path 4 })
            else if QString_contains path "rh." then
              (Exit.loaded, { s0.clear with rr := rr, tris := tris,
                                            nn := compute_normals ops.toArith rr tris,
                                            hemi := 1, surf := QString_right path 4 })
            else
              (Exit.hemiUnresolved, { s0.clear with rr := rr, tris := tris,
                                                    nn := compute_normals ops.toArith rr tris,
                                                    hemi := -1 })) := by
  obtain ⟨verts, faces, hb, vr, vc, vco, fr, fc, fco⟩ :=
    readTriangleBranch_block line1 line2 h1 h2 v0 v1 v2 v3 f0 f1 f2 f3 nvert nface hv hf hrange
      vblock fblock extra hvb hfb
  obtain ⟨rr, tris, r1, r2, r3, t1, t2, t3, _, hfin⟩ :=
    finishRead_ok ops path s0.clear verts faces (by omega) (by omega)
      (by
        intro i j hi hj
        rw [fco i j (by omega) hj, vc]
        exact hidx (3 * i + j) (by omega))
  refine ⟨rr, tris, by omega, r2, ?_, by omega, t2, ?_, ?_⟩
  · intro i j hi hj
    rw [r3 i j (by omega) hj, vco j i hj hi, Nat.add_comm]
  · intro i j hi hj
    rw [t3 i j (by omega) hj, fco i j hi hj]
  · rw [triangleFile, read_cons3, magic_triangle, if_neg (by decide), if_pos rfl, hb]
    exact hfin

/-- C2: for a triangle file (magic number 16777214, two text lines) whose
header bytes, read as big-endian signed 32-bit integers, give `nvert` and
`nface`, whose vertex and face blocks have the sizes the header declares, and
whose stored face indices are all indices of vertices (`0 <= index < nvert`),
`Surface::read` returns and leaves a vertex matrix `rr` with exactly `nvert`
rows and a triangle matrix `tris` with exactly `nface` rows. -/
theorem read_triangle_dims (ops : FloatOps) (line1 line2 : List Byte)
    (h1 : (10 : Byte) ∉ line1) (h2 : (10 : Byte) ∉ line2)
    (v0 v1 v2 v3 f0 f1 f2 f3 : Byte) (nvert nface : Nat)
    (hv : beInt32 v0 v1 v2 v3 = (nvert : Int)) (hf : beInt32 f0 f1 f2 f3 = (nface : Int))
    (hrange : nvert * 12 < 2 ^ 31) (vblock fblock extra : List Byte)
    (hvb : vblock.length = 12 * nvert) (hfb : fblock.length = 12 * nface)
    (hidx : ∀ k, k < 3 * nface → 0 ≤ int32At fblock k ∧ int32At fblock k < (nvert : Int))
    (path : String) (s0 : Surface) (lc : Bool) :
    ∃ e s,
      read ops (some (triangleFile line1 line2 v0 v1 v2 v3 f0 f1 f2 f3 vblock fblock extra))
          path s0 lc = .ok (e, s) ∧
      s.rr.rows = nvert ∧ s.rr.cols = 3 ∧ s.tris.rows = nface ∧ s.tris.cols = 3 := by
  obtain ⟨rr, tris, r1, r2, _, t1, t2, _, hread⟩ :=
    read_triangleFile ops line1 line2 h1 h2 v0 v1 v2 v3 f0 f1 f2 f3 nvert nface hv hf hrange
      vblock fblock extra hvb hfb hidx path s0 lc
  by_cases hl : QString_contains path "lh." = true
  · rw [if_pos hl] at hread
    exact ⟨_, _, hread, r1, r2, t1, t2⟩
  · rw [if_neg hl] at hread
    by_cases hr : QString_contains path "rh." = true
    · rw [if_pos hr] at hread
      exact ⟨_, _, hread, r1, r2, t1, t2⟩
    · rw [if_neg hr] at hread
      exact ⟨_, _, hread, r1, r2, t1, t2⟩

theorem read_triangle_dims_witness :
    ∃ e s,
      read sampleOps
          (some (triangleFile [99] [] 0 0 0 1 0 0 0 1 [63, 128, 0, 0, 64, 0, 0, 0, 64, 64, 0, 0]
            [0, 0, 0, 0, 0, 0, 0, 0, 0, 0, 0, 0] []))
          "lh.white" Surface.new false = .ok (e, s) ∧
      s.rr.rows = 1 ∧ s.rr.cols = 3 ∧ s.tris.rows = 1 ∧ s.tris.cols = 3 :=
  read_triangle_dims sampleOps [99] [] (by decide) (by decide) 0 0 0 1 0 0 0 1 1 1
    (by decide) (by decide) (by decide) [63, 128, 0, 0, 64, 0, 0, 0, 64, 64, 0, 0]
    [0, 0, 0, 0, 0, 0, 0, 0, 0, 0, 0, 0] [] (by decide) (by decide) (by decide) "lh.white"
    Surface.new false

/-- C3: for a triangle file as in C2 (blocks of the declared sizes, every
stored face index an index of a vertex), `Surface::read` returns, for all
`i < nvert` and `j < 3` the coordinate `rr(i,j)` is the `(3*i + j)`-th float of
the vertex block (its four file bytes reversed once) multiplied by `0.001f`,
and for all `i < nface` and `j < 3` the index `tris(i,j)` is the `(3*i + j)`-th
big-endian 32-bit integer of the face block. -/
theorem read_triangle_coeffs (ops : FloatOps) (line1 line2 : List Byte)
    (h1 : (10 : Byte) ∉ line1) (h2 : (10 : Byte) ∉ line2)
    (v0 v1 v2 v3 f0 f1 f2 f3 : Byte) (nvert nface : Nat)
    (hv : beInt32 v0 v1 v2 v3 = (nvert : Int)) (hf : beInt32 f0 f1 f2 f3 = (nface : Int))
    (hrange : nvert * 12 < 2 ^ 31) (vblock fblock extra : List Byte)
    (hvb : vblock.length = 12 * nvert) (hfb : fblock.length = 12 * nface)
    (hidx : ∀ k, k < 3 * nface → 0 ≤ int32At fblock k ∧ int32At fblock k < (nvert : Int))
    (path : String) (s0 : Surface) (lc : Bool) :
    ∃ e s,
      read ops (some (triangleFile line1 line2 v0 v1 v2 v3 f0 f1 f2 f3 vblock fblock extra))
          path s0 lc = .ok (e, s) ∧
      (∀ i j, i < nvert → j < 3 →
        s.rr.coeff i j = ops.mul (swap_floatp (floatAt vblock (3 * i + j))) ops.milli) ∧
      (∀ i j, i < nface → j < 3 → s.tris.coeff i j = int32At fblock (3 * i + j)) := by
  obtain ⟨rr, tris, _, _, r3, _, _, t3, hread⟩ :=
    read_triangleFile ops line1 line2 h1 h2 v0 v1 v2 v3 f0 f1 f2 f3 nvert nface hv hf hrange
      vblock fblock extra hvb hfb hidx path s0 lc
  by_cases hl : QString_contains path "lh." = true
  · rw [if_pos hl] at hread
    exact ⟨_, _, hread, r3, t3⟩
  · rw [if_neg hl] at hread
    by_cases hr : QString_contains path "rh." = true
    · rw [if_pos hr] at hread
      exact ⟨_, _, hread, r3, t3⟩
    · rw [if_neg hr] at hread
      exact ⟨_, _, hread, r3, t3⟩

theorem read_triangle_coeffs_witness :
    ∃ e s,
      read sampleOps
          (some (triangleFile [99] [] 0 0 0 1 0 0 0 1 [63, 128, 0, 0, 64, 0, 0, 0, 64, 64, 0, 0]
            [0, 0, 0, 0, 0, 0, 0, 0, 0, 0, 0, 0] [7]))
          "rh.white" Surface.new true = .ok (e, s) ∧
      (∀ i j, i < 1 → j < 3 →
        s.rr.coeff i j = sampleOps.mul
          (swap_floatp (floatAt [63, 128, 0, 0, 64, 0, 0, 0, 64, 64, 0, 0] (3 * i + j)))
          sampleOps.milli) ∧
      (∀ i j, i < 1 → j < 3 →
        s.tris.coeff i j = int32At [0, 0, 0, 0, 0, 0, 0, 0, 0, 0, 0, 0] (3 * i + j)) :=
  read_triangle_coeffs sampleOps [99] [] (by decide) (by decide) 0 0 0 1 0 0 0 1 1 1
    (by decide) (by decide) (by decide) [63, 128, 0, 0, 64, 0, 0, 0, 64, 64, 0, 0]
    [0, 0, 0, 0, 0, 0, 0, 0, 0, 0, 0, 0] [7] (by decide) (by decide) (by decide) "rh.white"
    Surface.new true

/-! ## The quad branch -/

theorem set_three {α : Type} [Inhabited α] (f : Mat α) (hw : f.WF) (hc : f.cols = 3) (a : Nat)
    (ha : a < f.rows) (x0 x1 x2 : α) :
    (((f.set a 0 x0).set a 1 x1).set a 2 x2).WF ∧
    (((f.set a 0 x0).set a 1 x1).set a 2 x2).rows = f.rows ∧
    (((f.set a 0 x0).set a 1 x1).set a 2 x2).cols = 3 ∧
    ∀ i j, i < f.rows →
      (((f.set a 0 x0).set a 1 x1).set a 2 x2).coeff i j =
        if i = a ∧ j = 2 then x2 else if i = a ∧ j = 1 then x1
        else if i = a ∧ j = 0 then x0 else f.coeff i j := by
  have w1 := Mat.set_WF hw a 0 x0
  have w2 := Mat.set_WF w1 a 1 x1
  refine ⟨Mat.set_WF w2 a 2 x2, rfl, hc, ?_⟩
  intro i j hi
  rw [Mat.coeff_set w2 x2 (by simpa using ha) (by simp [hc]) (by simpa using hi),
    Mat.coeff_set w1 x1 (by simpa using ha) (by simp [hc]) (by simpa using hi),
    Mat.coeff_set hw x0 ha (by simp [hc]) hi]

theorem splitQuads_inv (quads : Mat Int) (nquad : Nat) :
    (splitQuads quads nquad).2 = 2 * nquad ∧
    (splitQuads quads nquad).1.rows = 2 * nquad ∧
    (splitQuads quads nquad).1.cols = 3 ∧
    (splitQuads quads nquad).1.WF ∧
    ∀ k, k < nquad →
      (splitQuads quads nquad).1.coeff (2 * k) 0 = quads.coeff k 0 ∧
      (splitQuads quads nquad).1.coeff (2 * k) 1 = quads.coeff k 1 ∧
      (splitQuads quads nquad).1.coeff (2 * k) 2 =
        (if (quads.coeff k 0).tmod 2 = 0 then quads.coeff k 3 else quads.coeff k 2) ∧
      (splitQuads quads nquad).1.coeff (2 * k + 1) 0 =
        (if (quads.coeff k 0).tmod 2 = 0 then quads.coeff k 2 else quads.coeff k 0) ∧
      (splitQuads quads nquad).1.coeff (2 * k + 1) 1 =
        (if (quads.coeff k 0).tmod 2 = 0 then quads.coeff k 3 else quads.coeff k 2) ∧
      (splitQuads quads nquad).1.coeff (2 * k + 1) 2 =
        (if (quads.coeff k 0).tmod 2 = 0 then quads.coeff k 1 else quads.coeff k 3) := by
  unfold splitQuads
  refine forPure_inv
    (fun i (s : Mat Int × Nat) => s.2 = 2 * i ∧ s.1.rows = 2 * nquad ∧ s.1.cols = 3 ∧ s.1.WF ∧
      ∀ k, k < i →
        s.1.coeff (2 * k) 0 = quads.coeff k 0 ∧
        s.1.coeff (2 * k) 1 = quads.coeff k 1 ∧
        s.1.coeff (2 * k) 2 =
          (if (quads.coeff k 0).tmod 2 = 0 then quads.coeff k 3 else quads.coeff k 2) ∧
        s.1.coeff (2 * k + 1) 0 =
          (if (quads.coeff k 0).tmod 2 = 0 then quads.coeff k 2 else quads.coeff k 0) ∧
        s.1.coeff (2 * k + 1) 1 =
          (if (quads.coeff k 0).tmod 2 = 0 then quads.coeff k 3 else quads.coeff k 2) ∧
        s.1.coeff (2 * k + 1) 2 =
          (if (quads.coeff k 0).tmod 2 = 0 then quads.coeff k 1 else quads.coeff k 3))
    nquad _ _ ⟨rfl, rfl, rfl, Mat.resize_WF _ _ _, fun k hk => absurd hk (Nat.not_lt_zero k)⟩ ?_
  intro i t hi hInv
  obtain ⟨f, n⟩ := t
  obtain ⟨hn, hR, hC, hW, hrows⟩ := hInv
  simp only at hn hR hC hW hrows
  subst hn
  by_cases he : (quads.coeff i 0).tmod 2 = 0
  · simp only [he, if_true]
    have A := set_three f hW hC (2 * i) (by omega) (quads.coeff i 0) (quads.coeff i 1)
      (quads.coeff i 3)
    have B := set_three _ A.1 A.2.2.1 (2 * i + 1) (by rw [A.2.1]; omega) (quads.coeff i 2)
      (quads.coeff i 3) (quads.coeff i 1)
    refine ⟨by omega, by rw [B.2.1, A.2.1, hR], B.2.2.1, B.1, ?_⟩
    intro k hk
    have b1 : 2 * k < f.rows := by omega
    have b2 : 2 * k + 1 < f.rows := by omega
    rw [B.2.2.2 _ _ (by rw [A.2.1]; exact b1), B.2.2.2 _ _ (by rw [A.2.1]; exact b1),
      B.2.2.2 _ _ (by rw [A.2.1]; exact b1), B.2.2.2 _ _ (by rw [A.2.1]; exact b2),
      B.2.2.2 _ _ (by rw [A.2.1]; exact b2), B.2.2.2 _ _ (by rw [A.2.1]; exact b2),
      A.2.2.2 _ _ b1, A.2.2.2 _ _ b1, A.2.2.2 _ _ b1, A.2.2.2 _ _ b2, A.2.2.2 _ _ b2,
      A.2.2.2 _ _ b2]
    by_cases hki : k = i
    · subst hki
      simp [he]
    · have hlt : k < i := by omega
      have e1 : ¬ (2 * k = 2 * i + 1) := by omega
      have e2 : ¬ (2 * k = 2 * i) := by omega
      have e3 : ¬ (2 * k + 1 = 2 * i) := by omega
      have e4 : ¬ (k = i) := hki
      simp only [e1, e2, e3, e4, false_and, if_false, Nat.add_right_cancel_iff,
        Nat.mul_right_inj, mul_eq_mul_left_iff]
      simpa using hrows k hlt
  · simp only [he, if_false]
    have A := set_three f hW hC (2 * i) (by omega) (quads.coeff i 0) (quads.coeff i 1)
      (quads.coeff i 2)
    have B := set_three _ A.1 A.2.2.1 (2 * i + 1) (by rw [A.2.1]; omega) (quads.coeff i 0)
      (quads.coeff i 2) (quads.coeff i 3)
    refine ⟨by omega, by rw [B.2.1, A.2.1, hR], B.2.2.1, B.1, ?_⟩
    intro k hk
    have b1 : 2 * k < f.rows := by omega
    have b2 : 2 * k + 1 < f.rows := by omega
    rw [B.2.2.2 _ _ (by rw [A.2.1]; exact b1), B.2.2.2 _ _ (by rw [A.2.1]; exact b1),
      B.2.2.2 _ _ (by rw [A.2.1]; exact b1), B.2.2.2 _ _ (by rw [A.2.1]; exact b2),
      B.2.2.2 _ _ (by rw [A.2.1]; exact b2), B.2.2.2 _ _ (by rw [A.2.1]; exact b2),
      A.2.2.2 _ _ b1, A.2.2.2 _ _ b1, A.2.2.2 _ _ b1, A.2.2.2 _ _ b2, A.2.2.2 _ _ b2,
      A.2.2.2 _ _ b2]
    by_cases hki : k = i
    · subst hki
      simp [he]
    · have hlt : k < i := by omega
      have e1 : ¬ (2 * k = 2 * i + 1) := by omega
      have e2 : ¬ (2 * k = 2 * i) := by omega
      have e3 : ¬ (2 * k + 1 = 2 * i) := by omega
      have e4 : ¬ (k = i) := hki
      simp only [e1, e2, e3, e4, false_and, if_false, Nat.add_right_cancel_iff,
        Nat.mul_right_inj, mul_eq_mul_left_iff]
      simpa using hrows k hlt

theorem readQuadVertices_old (ops : FloatOps) (nvert : Nat) (vblock rest : List Byte)
    (h : vblock.length = 6 * nvert) :
    ∃ verts, readQuadVertices ops 16777215 nvert (vblock ++ rest) = .ok (verts, rest) ∧
      verts.rows = nvert ∧ verts.cols = 3 ∧
      ∀ i j, i < nvert → j < 3 →
        verts.coeff i j = ops.div (ops.ofInt (int16At vblock (3 * i + j))) (ops.ofInt 100) := by
  obtain ⟨m, hm, r, c, _, co⟩ := fill_loop
    (fun i j (s : Mat F32 × List Byte) =>
      match readInt16 s.2 with
      | .error e => .error e
      | .ok (iVal, st1) =>
        .ok (s.1.set i j (ops.div (ops.ofInt iVal) (ops.ofInt 100)), st1))
    2 nvert vblock rest (fun k => ops.div (ops.ofInt (int16At vblock k)) (ops.ofInt 100))
    (by omega)
    (by
      intro i j m k hk
      simp only [readInt16_drop _ _ _ hk])
    (Mat.resize nvert 3 default) rfl rfl (Mat.resize_WF _ _ _)
  refine ⟨m, ?_, r, c, co⟩
  simp only [readQuadVertices, QUAD_FILE_MAGIC_NUMBER, if_true]
  exact hm

theorem readQuadVertices_new (ops : FloatOps) (nvert : Nat) (vblock rest : List Byte)
    (h : vblock.length = 12 * nvert) :
    ∃ verts, readQuadVertices ops 16777213 nvert (vblock ++ rest) = .ok (verts, rest) ∧
      verts.rows = nvert ∧ verts.cols = 3 ∧
      ∀ i j, i < nvert → j < 3 →
        verts.coeff i j = swap_floatp (floatAt vblock (i + nvert * j)) := by
  have hraw := readRawFloats_block (nvert * 3) vblock rest (by omega)
  have hmod := modify_loop swap_floatp nvert 3
    (⟨nvert, 3, (List.range (nvert * 3)).map (floatAt vblock)⟩ : Mat F32) rfl rfl
    (by simp [Mat.WF])
  refine ⟨_, ?_, hmod.1, hmod.2.1, ?_⟩
  · simp only [readQuadVertices, QUAD_FILE_MAGIC_NUMBER, hraw]
    rfl
  · intro i j hi hj
    rw [hmod.2.2.2 i j hi hj]
    have hlt : i + nvert * j < nvert * 3 := Mat.index_lt hi hj
    simp [Mat.coeff, List.getD_eq_getElem?_getD, List.getElem?_range hlt]

theorem reshapeQuads_dims (flat : List Int) (nquad : Nat) :
    (reshapeQuads flat nquad).rows = nquad ∧ (reshapeQuads flat nquad).cols = 4 := by
  unfold reshapeQuads
  simp only [Mat.transpose_rows, Mat.transpose_cols]
  have key := forPure_inv
    (fun _ (s : Mat Int × Nat) => s.1.rows = 4 ∧ s.1.cols = nquad)
    1
    (fun j s =>
      forPure flat.length
        (fun i s => (s.1.set i j ((⟨flat.length, 1, flat⟩ : Mat Int).coeff s.2 0), s.2 + 1)) s)
    (Mat.resize 4 nquad 0, 0) ⟨rfl, rfl⟩
    (by
      intro j t _ ht
      exact forPure_inv (fun _ (s : Mat Int × Nat) => s.1.rows = 4 ∧ s.1.cols = nquad)
        flat.length _ t ht (fun i u _ hu => hu))
  exact ⟨key.2, key.1⟩

theorem reshapeQuads_coeff (flat : List Int) (nquad : Nat) (h : flat.length = 4 * nquad) :
    ∀ k c, k < nquad → c < 4 → (reshapeQuads flat nquad).coeff k c = flat.getD (4 * k + c) 0 := by
  have key := forPure_inv
    (fun i (s : Mat Int × Nat) => s.2 = i ∧ s.1.rows = 4 ∧ s.1.cols = nquad ∧
      s.1.data.length = 4 * nquad ∧ ∀ k, k < i → s.1.data.getD k 0 = flat.getD k 0)
    flat.length
    (fun i s => (s.1.set i 0 ((⟨flat.length, 1, flat⟩ : Mat Int).coeff s.2 0), s.2 + 1))
    (Mat.resize 4 nquad 0, 0)
    ⟨rfl, rfl, rfl, by simp [Mat.resize], fun k hk => absurd hk (Nat.not_lt_zero k)⟩
    (by
      intro i t hi hP
      obtain ⟨m, n⟩ := t
      obtain ⟨p1, p2, p3, p4, p5⟩ := hP
      simp only at p1 p2 p3 p4 p5
      subst p1
      refine ⟨rfl, p2, p3, by simp [Mat.set, p4], ?_⟩
      intro k hk
      have hlt : n < m.data.length := by omega
      simp only [Mat.set, Mat.coeff, p2, Nat.mul_zero, Nat.add_zero,
        List.getD_eq_getElem?_getD, List.getElem?_set]
      by_cases hkn : n = k
      · subst hkn
        simp [hlt]
      · rw [if_neg hkn]
        have := p5 k (by omega)
        simpa [List.getD_eq_getElem?_getD] using this)
  have hbody : reshapeQuads flat nquad =
      (forPure flat.length
        (fun i s => (s.1.set i 0 ((⟨flat.length, 1, flat⟩ : Mat Int).coeff s.2 0), s.2 + 1))
        (Mat.resize 4 nquad 0, 0)).1.transpose := rfl
  rw [hbody]
  generalize forPure flat.length
    (fun i s => (s.1.set i 0 ((⟨flat.length, 1, flat⟩ : Mat Int).coeff s.2 0), s.2 + 1))
    (Mat.resize 4 nquad 0, 0) = t at key
  obtain ⟨m, n⟩ := t
  obtain ⟨_, q2, q3, q4, q5⟩ := key
  simp only at q2 q3 q4 q5
  intro k c hk hc
  rw [Mat.coeff_transpose _ (by rw [q3]; exact hk) (by rw [q2]; exact hc)]
  simp only [Mat.coeff, q2]
  rw [Nat.add_comm c (4 * k)]
  exact q5 (4 * k + c) (by omega)

/-- Every entry of the triangles made by the face-splitting loop is an entry
of a quad. -/
theorem splitQuads_entries (quads : Mat Int) (nquad : Nat) (P : Int → Prop)
    (h : ∀ k c, k < nquad → c < 4 → P (quads.coeff k c)) :
    ∀ i j, i < 2 * nquad → j < 3 → P ((splitQuads quads nquad).1.coeff i j) := by
  obtain ⟨_, _, _, _, hrows⟩ := splitQuads_inv quads nquad
  intro i j hi hj
  obtain ⟨c0, c1, c2, c3, c4, c5⟩ := hrows (i / 2) (by omega)
  have q0 := h (i / 2) 0 (by omega) (by decide)
  have q1 := h (i / 2) 1 (by omega) (by decide)
  have q2 := h (i / 2) 2 (by omega) (by decide)
  have q3 := h (i / 2) 3 (by omega) (by decide)
  rcases Nat.mod_two_eq_zero_or_one i with hm | hm
  · have e : i = 2 * (i / 2) := by omega
    rw [e]
    interval_cases j
    · rw [c0]; exact q0
    · rw [c1]; exact q1
    · rw [c2]; split
      · exact q3
      · exact q2
  · have e : i = 2 * (i / 2) + 1 := by omega
    rw [e]
    interval_cases j
    · rw [c3]; split
      · exact q2
      · exact q0
    · rw [c4]; split
      · exact q3
      · exact q2
    · rw [c5]; split
      · exact q1
      · exact q3

/-- The quad branch of `Surface::read` on the bytes of a quad file after the
magic number: the vertex matrix with `nvert` rows and the triangles split from
the reshaped quads. -/
theorem readQuadBranch_block (ops : FloatOps) (m2 : Byte) (hm2 : m2 = 255 ∨ m2 = 253)
    (v0 v1 v2 q0 q1 q2 : Byte) (nvert nquad : Nat)
    (hv : (v0.val <<< 16 ||| v1.val <<< 8 ||| v2.val) = nvert)
    (hq : (q0.val <<< 16 ||| q1.val <<< 8 ||| q2.val) = nquad)
    (vblock qblock extra : List Byte)
    (hvb : vblock.length = (if m2 = 255 then 6 else 12) * nvert)
    (hqb : qblock.length = 12 * nquad) (path : String) (s0 : Surface) (lc : Bool) :
    ∃ verts,
      verts.rows = nvert ∧ verts.cols = 3 ∧
      (∀ i j, i < nvert → j < 3 →
        verts.coeff i j =
          if m2 = 255 then ops.div (ops.ofInt (int16At vblock (3 * i + j))) (ops.ofInt 100)
          else swap_floatp (floatAt vblock (i + nvert * j))) ∧
      read ops (some (quadFile m2 v0 v1 v2 q0 q1 q2 vblock qblock extra)) path s0 lc =
        finishRead ops path s0.clear verts
          (splitQuads
            (reshapeQuads ((List.range (nquad * 4)).map (fun k => (uint24At qblock k : Int)))
              nquad) nquad).1 := by
  have hmany := fread3_many_block (nquad * 4) qblock extra (by omega)
  rcases hm2 with hm | hm
  · subst hm
    simp only [if_true] at hvb
    obtain ⟨verts, hverts, vr, vc, vco⟩ :=
      readQuadVertices_old ops nvert vblock (qblock ++ extra) hvb
    refine ⟨verts, vr, vc, ?_, ?_⟩
    · intro i j hi hj
      rw [vco i j hi hj, if_pos rfl]
    · rw [quadFile, read_cons3, magic_quad, if_pos (Or.inl rfl)]
      simp only [readQuadBranch, fread3, hv, hq, hverts, hmany, Except.bind]
  · subst hm
    simp only [show ¬ ((253 : Byte) = 255) by decide, if_false] at hvb
    obtain ⟨verts, hverts, vr, vc, vco⟩ :=
      readQuadVertices_new ops nvert vblock (qblock ++ extra) hvb
    refine ⟨verts, vr, vc, ?_, ?_⟩
    · intro i j hi hj
      rw [vco i j hi hj, if_neg (show ¬ ((253 : Byte) = 255) by decide)]
    · rw [quadFile, read_cons3, magic_new_quad, if_pos (Or.inr rfl)]
      simp only [readQuadBranch, fread3, hv, hq, hverts, hmany, Except.bind]

/-- The entries of the reshaped quads of a quad block are its three-byte
values. -/
theorem reshaped_block_entries (qblock : List Byte) (nquad : Nat) (P : Int → Prop)
    (h : ∀ k, k < 4 * nquad → P (uint24At qblock k : Int)) :
    ∀ k c, k < nquad → c < 4 →
      P ((reshapeQuads ((List.range (nquad * 4)).map (fun k => (uint24At qblock k : Int)))
        nquad).coeff k c) := by
  intro k c hk hc
  have hlen : ((List.range (nquad * 4)).map (fun k => (uint24At qblock k : Int))).length =
      4 * nquad := by
    simp [Nat.mul_comm]
  rw [reshapeQuads_coeff _ nquad hlen k c hk hc]
  have hlt : 4 * k + c < nquad * 4 := by omega
  simp only [List.getD_eq_getElem?_getD, List.getElem?_map, List.getElem?_range hlt,
    Option.map_some', Option.getD_some]
  exact h (4 * k + c) (by omega)

/-- What `Surface::read` does on a quad file with at least three vertices
whose vertex indices are all below 3, the number of rows of `rr`. -/
theorem read_quadFile (ops : FloatOps) (m2 : Byte) (hm2 : m2 = 255 ∨ m2 = 253)
    (v0 v1 v2 q0 q1 q2 : Byte) (nvert nquad : Nat)
    (hv : (v0.val <<< 16 ||| v1.val <<< 8 ||| v2.val) = nvert)
    (hq : (q0.val <<< 16 ||| q1.val <<< 8 ||| q2.val) = nquad) (h3 : 3 ≤ nvert)
    (vblock qblock extra : List Byte)
    (hvb : vblock.length = (if m2 = 255 then 6 else 12) * nvert)
    (hqb : qblock.length = 12 * nquad)
    (hidx : ∀ k, k < 4 * nquad → uint24At qblock k < 3)
    (path : String) (s0 : Surface) (lc : Bool) :
    ∃ rr tris,
      rr.rows = 3 ∧ rr.cols = 3 ∧
      (∀ i j, i < 3 → j < 3 →
        rr.coeff i j =
          if m2 = 255 then
            ops.mul (ops.div (ops.ofInt (int16At vblock (3 * j + i))) (ops.ofInt 100)) ops.milli
          else ops.mul (swap_floatp (floatAt vblock (j + nvert * i))) ops.milli) ∧
      tris.rows = 2 * nquad ∧ tris.cols = 3 ∧
      (∀ i j, i < 2 * nquad → j < 3 →
        tris.coeff i j =
          (splitQuads
            (reshapeQuads ((List.range (nquad * 4)).map (fun k => (uint24At qblock k : Int)))
              nquad) nquad).1.coeff i j) ∧
      read ops (some (quadFile m2 v0 v1 v2 q0 q1 q2 vblock qblock extra)) path s0 lc =
        .ok (if QString_contains path "lh." then
              (Exit.loaded, { s0.clear with rr := rr, tris := tris,
                                            nn := compute_normals ops.toArith rr tris,
                                            hemi := 0, surf := QString_right path 4 })
            else if QString_contains path "rh." then
              (Exit.loaded, { s0.clear with rr := rr, tris := tris,
                                            nn := compute_normals ops.toArith rr tris,
                                            hemi := 1, surf := QString_right path 4 })
            else
              (Exit.hemiUnresolved, { s0.clear with rr := rr, tris := tris,
                                                    nn := compute_normals ops.toArith rr tris,
                                                    hemi := -1 })) := by
  obtain ⟨verts, vr, vc, vco, hread⟩ :=
    readQuadBranch_block ops m2 hm2 v0 v1 v2 q0 q1 q2 nvert nquad hv hq vblock qblock extra hvb
      hqb path s0 lc
  have hsp := splitQuads_inv
    (reshapeQuads ((List.range (nquad * 4)).map (fun k => (uint24At qblock k : Int))) nquad) nquad
  have hent := splitQuads_entries
    (reshapeQuads ((List.range (nquad * 4)).map (fun k => (uint24At qblock k : Int))) nquad) nquad
    (fun x => 0 ≤ x ∧ x < 3)
    (reshaped_block_entries qblock nquad (fun x => 0 ≤ x ∧ x < 3)
      (fun k hk => ⟨Int.ofNat_nonneg _, by
        have := hidx k hk
        omega⟩))
  obtain ⟨rr, tris, r1, r2, r3, t1, t2, t3, _, hfin⟩ :=
    finishRead_ok ops path s0.clear verts
      (splitQuads
        (reshapeQuads ((List.range (nquad * 4)).map (fun k => (uint24At qblock k : Int)))
          nquad) nquad).1 (by omega) (by omega)
      (by
        intro i j hi hj
        rw [vc]
        exact hent i j (by omega) hj)
  refine ⟨rr, tris, by omega, r2, ?_, by omega, t2, ?_, ?_⟩
  · intro i j hi hj
    rw [r3 i j (by omega) hj, vco j i (by omega) hi]
    split <;> rfl
  · intro i j hi hj
    exact t3 i j (by omega) hj
  · rw [hread]
    exact hfin

theorem tmod_two_eq_zero_iff_even (x : Int) : x.tmod 2 = 0 ↔ Even x := by
  rw [even_iff_two_dvd]
  exact ⟨Int.dvd_of_tmod_eq_zero, Int.tmod_eq_zero_of_dvd⟩

/-- C4 (what the code does): on the old-quad file with 4 vertices
`(1,2,3), (4,5,6), (7,8,9), (10,11,12)` (raw 16-bit values) and the quad
`(0,1,2,1)`, `Surface::read` returns with a vertex matrix of 3 rows, not 4,
and `rr(0,1)` is computed from the raw value 4 (the first coordinate of
vertex 1), not from the raw value 2; the fourth vertex is absent. -/
theorem read_old_quad_four_vertices (ops : FloatOps) :
    ∃ s,
      read ops
          (some (quadFile 255 0 0 4 0 0 1
            [0, 1, 0, 2, 0, 3, 0, 4, 0, 5, 0, 6, 0, 7, 0, 8, 0, 9, 0, 10, 0, 11, 0, 12]
            [0, 0, 0, 0, 0, 1, 0, 0, 2, 0, 0, 1] []))
          "lh.orig" Surface.new false = .ok (Exit.loaded, s) ∧
      s.rr.rows = 3 ∧ s.rr.cols = 3 ∧
      s.rr.coeff 0 1 = ops.mul (ops.div (ops.ofInt 4) (ops.ofInt 100)) ops.milli ∧
      s.rr.coeff 1 0 = ops.mul (ops.div (ops.ofInt 2) (ops.ofInt 100)) ops.milli := by
  obtain ⟨rr, tris, r1, r2, r3, _, _, _, hread⟩ :=
    read_quadFile ops 255 (Or.inl rfl) 0 0 4 0 0 1 4 1 (by decide) (by decide) (by decide)
      [0, 1, 0, 2, 0, 3, 0, 4, 0, 5, 0, 6, 0, 7, 0, 8, 0, 9, 0, 10, 0, 11, 0, 12]
      [0, 0, 0, 0, 0, 1, 0, 0, 2, 0, 0, 1] [] (by decide) (by decide) (by decide) "lh.orig"
      Surface.new false
  rw [if_pos (by decide)] at hread
  refine ⟨_, hread, r1, r2, ?_, ?_⟩
  · show rr.coeff 0 1 = _
    rw [r3 0 1 (by decide) (by decide), if_pos rfl]
    rfl
  · show rr.coeff 1 0 = _
    rw [r3 1 0 (by decide) (by decide), if_pos rfl]
    rfl

/-- C5 (what the code does): on the new-quad file with 4 vertices whose
twelve floats are `0.0, 1.0, ..., 11.0` in file order (float `k` of the block
is the number `k`, stored with its most significant byte first) and the quad
`(0,1,2,1)`, `Surface::read` returns with a vertex matrix of 3 rows, not 4,
and `rr(1,0)` is computed from float 4 of the block (`4.0`, file bytes
`40 80 00 00`), not from float 3 (`3.0`, file bytes `40 40 00 00`). -/
theorem read_new_quad_four_vertices (ops : FloatOps) :
    ∃ s,
      read ops
          (some (quadFile 253 0 0 4 0 0 1
            [0, 0, 0, 0, 63, 128, 0, 0, 64, 0, 0, 0, 64, 64, 0, 0, 64, 128, 0, 0,
             64, 160, 0, 0, 64, 192, 0, 0, 64, 224, 0, 0, 65, 0, 0, 0, 65, 16, 0, 0,
             65, 32, 0, 0, 65, 48, 0, 0]
            [0, 0, 0, 0, 0, 1, 0, 0, 2, 0, 0, 1] []))
          "lh.orig" Surface.new false = .ok (Exit.loaded, s) ∧
      s.rr.rows = 3 ∧ s.rr.cols = 3 ∧
      s.rr.coeff 1 0 = ops.mul (swap_floatp ⟨64, 128, 0, 0⟩) ops.milli ∧
      s.rr.coeff 0 1 = ops.mul (swap_floatp ⟨63, 128, 0, 0⟩) ops.milli := by
  obtain ⟨rr, tris, r1, r2, r3, _, _, _, hread⟩ :=
    read_quadFile ops 253 (Or.inr rfl) 0 0 4 0 0 1 4 1 (by decide) (by decide) (by decide)
      [0, 0, 0, 0, 63, 128, 0, 0, 64, 0, 0, 0, 64, 64, 0, 0, 64, 128, 0, 0,
       64, 160, 0, 0, 64, 192, 0, 0, 64, 224, 0, 0, 65, 0, 0, 0, 65, 16, 0, 0,
       65, 32, 0, 0, 65, 48, 0, 0]
      [0, 0, 0, 0, 0, 1, 0, 0, 2, 0, 0, 1] [] (by decide) (by decide) (by decide) "lh.orig"
      Surface.new false
  rw [if_pos (by decide)] at hread
  refine ⟨_, hread, r1, r2, ?_, ?_⟩
  · show rr.coeff 1 0 = _
    rw [r3 1 0 (by decide) (by decide), if_neg (by decide)]
    rfl
  · show rr.coeff 0 1 = _
    rw [r3 0 1 (by decide) (by decide), if_neg (by decide)]
    rfl

/-- C6: for every quad `(v0,v1,v2,v3)` in row `k` of the quad matrix, the
face-splitting loop leaves in rows `2k` and `2k+1` of `faces` the triangles
`(v0,v1,v3)` and `(v2,v3,v1)` when `v0` is even, and `(v0,v1,v2)` and
`(v0,v2,v3)` when `v0` is odd; the loop ends with `nface = 2 * nquad`, two
rows per quad. -/
theorem splitQuads_triangles (quads : Mat Int) (nquad k : Nat) (hk : k < nquad) :
    (splitQuads quads nquad).2 = 2 * nquad ∧
    ((splitQuads quads nquad).1.coeff (2 * k) 0, (splitQuads quads nquad).1.coeff (2 * k) 1,
        (splitQuads quads nquad).1.coeff (2 * k) 2) =
      (if Even (quads.coeff k 0) then (quads.coeff k 0, quads.coeff k 1, quads.coeff k 3)
        else (quads.coeff k 0, quads.coeff k 1, quads.coeff k 2)) ∧
    ((splitQuads quads nquad).1.coeff (2 * k + 1) 0,
        (splitQuads quads nquad).1.coeff (2 * k + 1) 1,
        (splitQuads quads nquad).1.coeff (2 * k + 1) 2) =
      (if Even (quads.coeff k 0) then (quads.coeff k 2, quads.coeff k 3, quads.coeff k 1)
        else (quads.coeff k 0, quads.coeff k 2, quads.coeff k 3)) := by
  obtain ⟨hn, _, _, _, hrows⟩ := splitQuads_inv quads nquad
  obtain ⟨c0, c1, c2, c3, c4, c5⟩ := hrows k hk
  rw [c0, c1, c2, c3, c4, c5]
  refine ⟨hn, ?_, ?_⟩
  · by_cases he : Even (quads.coeff k 0)
    · rw [if_pos he, if_pos ((tmod_two_eq_zero_iff_even _).mpr he)]
    · rw [if_neg he, if_neg (fun h => he ((tmod_two_eq_zero_iff_even _).mp h))]
  · by_cases he : Even (quads.coeff k 0)
    · simp only [if_pos he, if_pos ((tmod_two_eq_zero_iff_even _).mpr he)]
    · simp only [if_neg he, if_neg (fun h => he ((tmod_two_eq_zero_iff_even _).mp h))]

theorem splitQuads_triangles_witness :
    (splitQuads ⟨2, 4, [4, 7, 5, 8, 6, 9, 7, 10]⟩ 2).2 = 2 * 2 ∧
    ((splitQuads ⟨2, 4, [4, 7, 5, 8, 6, 9, 7, 10]⟩ 2).1.coeff (2 * 1) 0,
        (splitQuads ⟨2, 4, [4, 7, 5, 8, 6, 9, 7, 10]⟩ 2).1.coeff (2 * 1) 1,
        (splitQuads ⟨2, 4, [4, 7, 5, 8, 6, 9, 7, 10]⟩ 2).1.coeff (2 * 1) 2) =
      (if Even (Mat.coeff (⟨2, 4, [4, 7, 5, 8, 6, 9, 7, 10]⟩ : Mat Int) 1 0) then
        (Mat.coeff (⟨2, 4, [4, 7, 5, 8, 6, 9, 7, 10]⟩ : Mat Int) 1 0,
          Mat.coeff (⟨2, 4, [4, 7, 5, 8, 6, 9, 7, 10]⟩ : Mat Int) 1 1,
          Mat.coeff (⟨2, 4, [4, 7, 5, 8, 6, 9, 7, 10]⟩ : Mat Int) 1 3)
      else
        (Mat.coeff (⟨2, 4, [4, 7, 5, 8, 6, 9, 7, 10]⟩ : Mat Int) 1 0,
          Mat.coeff (⟨2, 4, [4, 7, 5, 8, 6, 9, 7, 10]⟩ : Mat Int) 1 1,
          Mat.coeff (⟨2, 4, [4, 7, 5, 8, 6, 9, 7, 10]⟩ : Mat Int) 1 2)) ∧
    ((splitQuads ⟨2, 4, [4, 7, 5, 8, 6, 9, 7, 10]⟩ 2).1.coeff (2 * 1 + 1) 0,
        (splitQuads ⟨2, 4, [4, 7, 5, 8, 6, 9, 7, 10]⟩ 2).1.coeff (2 * 1 + 1) 1,
        (splitQuads ⟨2, 4, [4, 7, 5, 8, 6, 9, 7, 10]⟩ 2).1.coeff (2 * 1 + 1) 2) =
      (if Even (Mat.coeff (⟨2, 4, [4, 7, 5, 8, 6, 9, 7, 10]⟩ : Mat Int) 1 0) then
        (Mat.coeff (⟨2, 4, [4, 7, 5, 8, 6, 9, 7, 10]⟩ : Mat Int) 1 2,
          Mat.coeff (⟨2, 4, [4, 7, 5, 8, 6, 9, 7, 10]⟩ : Mat Int) 1 3,
          Mat.coeff (⟨2, 4, [4, 7, 5, 8, 6, 9, 7, 10]⟩ : Mat Int) 1 1)
      else
        (Mat.coeff (⟨2, 4, [4, 7, 5, 8, 6, 9, 7, 10]⟩ : Mat Int) 1 0,
          Mat.coeff (⟨2, 4, [4, 7, 5, 8, 6, 9, 7, 10]⟩ : Mat Int) 1 2,
          Mat.coeff (⟨2, 4, [4, 7, 5, 8, 6, 9, 7, 10]⟩ : Mat Int) 1 3)) :=
  splitQuads_triangles ⟨2, 4, [4, 7, 5, 8, 6, 9, 7, 10]⟩ 2 1 (by decide)

/-- C7 (what the code does): on the old-quad file with 8 vertices and the 2
quads `(0,1,2,3)` and `(4,5,6,7)` the quad branch decodes 8 vertices and
splits the quads into the `2 * 2` triangles `(0,1,3), (2,3,1), (4,5,7),
(6,7,5)`, but `Surface::read` does not return: the transposed `8 x 3` vertex
matrix gives `rr` three rows, the triangles hold the indices 3 to 7, and the
call of `compute_normals` leaves `rr` and `nn`. No triangle matrix is
delivered. -/
theorem read_quad_eight_vertices (ops : FloatOps) (path : String) (s0 : Surface) (lc : Bool) :
    ∃ verts faces,
      read ops
          (some (quadFile 255 0 0 8 0 0 2
            [0, 1, 0, 2, 0, 3, 0, 4, 0, 5, 0, 6, 0, 7, 0, 8, 0, 9, 0, 10, 0, 11, 0, 12,
             0, 13, 0, 14, 0, 15, 0, 16, 0, 17, 0, 18, 0, 19, 0, 20, 0, 21, 0, 22, 0, 23, 0, 24]
            [0, 0, 0, 0, 0, 1, 0, 0, 2, 0, 0, 3, 0, 0, 4, 0, 0, 5, 0, 0, 6, 0, 0, 7] []))
          path s0 lc = finishRead ops path s0.clear verts faces ∧
      verts.rows = 8 ∧ verts.cols = 3 ∧ faces.rows = 2 * 2 ∧ faces.cols = 3 ∧
      faces.row3 0 = (0, 1, 3) ∧ faces.row3 1 = (2, 3, 1) ∧
      faces.row3 2 = (4, 5, 7) ∧ faces.row3 3 = (6, 7, 5) ∧
      finishRead ops path s0.clear verts faces = .error .eigenAssert ∧
      read ops
          (some (quadFile 255 0 0 8 0 0 2
            [0, 1, 0, 2, 0, 3, 0, 4, 0, 5, 0, 6, 0, 7, 0, 8, 0, 9, 0, 10, 0, 11, 0, 12,
             0, 13, 0, 14, 0, 15, 0, 16, 0, 17, 0, 18, 0, 19, 0, 20, 0, 21, 0, 22, 0, 23, 0, 24]
            [0, 0, 0, 0, 0, 1, 0, 0, 2, 0, 0, 3, 0, 0, 4, 0, 0, 5, 0, 0, 6, 0, 0, 7] []))
          path s0 lc = .error .eigenAssert := by
  obtain ⟨verts, vr, vc, _, hread⟩ :=
    readQuadBranch_block ops 255 (Or.inl rfl) 0 0 8 0 0 2 8 2 (by decide) (by decide)
      [0, 1, 0, 2, 0, 3, 0, 4, 0, 5, 0, 6, 0, 7, 0, 8, 0, 9, 0, 10, 0, 11, 0, 12,
       0, 13, 0, 14, 0, 15, 0, 16, 0, 17, 0, 18, 0, 19, 0, 20, 0, 21, 0, 22, 0, 23, 0, 24]
      [0, 0, 0, 0, 0, 1, 0, 0, 2, 0, 0, 3, 0, 0, 4, 0, 0, 5, 0, 0, 6, 0, 0, 7] []
      (by decide) (by decide) path s0 lc
  have hfault := finishRead_fault ops path s0.clear verts
    (splitQuads
      (reshapeQuads ((List.range (2 * 4)).map
        (fun k => (uint24At
          [0, 0, 0, 0, 0, 1, 0, 0, 2, 0, 0, 3, 0, 0, 4, 0, 0, 5, 0, 0, 6, 0, 0, 7] k : Int)))
        2) 2).1
    (by omega) (by decide) 0 2 (by decide) (by decide)
    (by
      rw [vc]
      decide)
  exact ⟨verts, _, hread, vr, vc, by decide, by decide, by decide, by decide, by decide,
    by decide, hfault, hread.trans hfault⟩

/-! ## Exits and the hemisphere check -/

theorem finishRead_cases (ops : FloatOps) (path : String) (p : Surface) (verts : Mat F32)
    (faces : Mat Int) (e : Exit) (s : Surface)
    (h : finishRead ops path p verts faces = .ok (e, s)) :
    s.nn = compute_normals ops.toArith s.rr s.tris ∧
    ((e = .loaded ∧ (s.hemi = 0 ∨ s.hemi = 1)) ∨
      (e = .hemiUnresolved ∧ s.hemi = -1 ∧ s.surf = p.surf)) := by
  obtain ⟨_, _, _, _, _, _, _, _, _, hnn, _, hc⟩ := finishRead_inv ops path p verts faces e s h
  exact ⟨hnn, hc⟩

theorem read_ok_cases (ops : FloatOps) (file : Option (List Byte)) (path : String)
    (s0 : Surface) (lc : Bool) (e : Exit) (s : Surface)
    (h : read ops file path s0 lc = .ok (e, s)) :
    (e = .openFailed ∧ s = s0.clear) ∨ (∃ m, e = .badMagic m ∧ s = s0.clear) ∨
      ∃ verts faces, finishRead ops path s0.clear verts faces = .ok (e, s) := by
  unfold read at h
  simp only at h
  split at h
  · cases h; exact Or.inl ⟨rfl, rfl⟩
  · split at h
    · cases h
    · split at h
      · split at h
        · cases h
        · exact Or.inr (Or.inr ⟨_, _, h⟩)
      · split at h
        · split at h
          · cases h
          · exact Or.inr (Or.inr ⟨_, _, h⟩)
        · cases h; exact Or.inr (Or.inl ⟨_, rfl, rfl⟩)

/-- The exits of a returning run of `Surface::read`, with the matrices that
the triangle or quad branch has decoded. -/
theorem read_decoded (ops : FloatOps) (file : Option (List Byte)) (path : String)
    (s0 : Surface) (lc : Bool) (e : Exit) (s : Surface)
    (h : read ops file path s0 lc = .ok (e, s)) :
    (e = .openFailed ∧ s = s0.clear) ∨ (∃ m, e = .badMagic m ∧ s = s0.clear) ∨
      ∃ bytes magic rest verts faces,
        file = some bytes ∧ fread3 bytes = .ok (magic, rest) ∧
        (if magic = TRIANGLE_FILE_MAGIC_NUMBER then readTriangleBranch rest
          else readQuadBranch ops magic rest) = .ok (verts, faces) ∧
        finishRead ops path s0.clear verts faces = .ok (e, s) := by
  cases file with
  | none =>
    simp only [read] at h
    cases h
    exact Or.inl ⟨rfl, rfl⟩
  | some bytes =>
    simp only [read] at h
    cases hf : fread3 bytes with
    | error err =>
      rw [hf] at h
      cases h
    | ok ms =>
      obtain ⟨magic, rest⟩ := ms
      rw [hf] at h
      simp only at h
      by_cases hq : magic = QUAD_FILE_MAGIC_NUMBER ∨ magic = NEW_QUAD_FILE_MAGIC_NUMBER
      · rw [if_pos hq] at h
        have hnt : ¬ magic = TRIANGLE_FILE_MAGIC_NUMBER := by
          rcases hq with hq | hq <;> rw [hq] <;> decide
        cases hb : readQuadBranch ops magic rest with
        | error err =>
          rw [hb] at h
          cases h
        | ok vf =>
          obtain ⟨verts, faces⟩ := vf
          rw [hb] at h
          refine Or.inr (Or.inr ⟨bytes, magic, rest, verts, faces, rfl, hf, ?_, h⟩)
          rw [if_neg hnt, hb]
      · rw [if_neg hq] at h
        by_cases ht : magic = TRIANGLE_FILE_MAGIC_NUMBER
        · rw [if_pos ht] at h
          cases hb : readTriangleBranch rest with
          | error err =>
            rw [hb] at h
            cases h
          | ok vf =>
            obtain ⟨verts, faces⟩ := vf
            rw [hb] at h
            refine Or.inr (Or.inr ⟨bytes, magic, rest, verts, faces, rfl, hf, ?_, h⟩)
            rw [if_pos ht, hb]
        · rw [if_neg ht] at h
          cases h
          exact Or.inr (Or.inl ⟨_, rfl, rfl⟩)

theorem read_valid (ops : FloatOps) (bytes : List Byte) (hvalid : ValidMeshFile bytes)
    (path : String) (s0 : Surface) (lc : Bool) :
    ∃ rr tris,
      read ops (some bytes) path s0 lc =
        .ok (if QString_contains path "lh." then
              (Exit.loaded, { s0.clear with rr := rr, tris := tris,
                                            nn := compute_normals ops.toArith rr tris,
                                            hemi := 0, surf := QString_right path 4 })
            else if QString_contains path "rh." then
              (Exit.loaded, { s0.clear with rr := rr, tris := tris,
                                            nn := compute_normals ops.toArith rr tris,
                                            hemi := 1, surf := QString_right path 4 })
            else
              (Exit.hemiUnresolved, { s0.clear with rr := rr, tris := tris,
                                                    nn := compute_normals ops.toArith rr tris,
                                                    hemi := -1 })) := by
  rcases hvalid with ht | hq
  · obtain ⟨line1, line2, v0, v1, v2, v3, f0, f1, f2, f3, nvert, nface, vblock, fblock, extra,
      h1, h2, hv, hf, hrange, hvb, hfb, hidx, rfl⟩ := ht
    obtain ⟨rr, tris, _, _, _, _, _, _, hread⟩ :=
      read_triangleFile ops line1 line2 h1 h2 v0 v1 v2 v3 f0 f1 f2 f3 nvert nface hv hf hrange
        vblock fblock extra hvb hfb hidx path s0 lc
    exact ⟨rr, tris, hread⟩
  · obtain ⟨m2, v0, v1, v2, q0, q1, q2, nvert, nquad, vblock, qblock, extra, hm2, hv, hq, h3,
      hvb, hqb, hidx, rfl⟩ := hq
    obtain ⟨rr, tris, _, _, _, _, _, _, hread⟩ :=
      read_quadFile ops m2 hm2 v0 v1 v2 q0 q1 q2 nvert nquad hv hq h3 vblock qblock extra hvb
        hqb hidx path s0 lc
    exact ⟨rr, tris, hread⟩

theorem QString_contains_iff (path sub : String) :
    QString_contains path sub = true ↔ sub.data <:+: path.data :=
  containsChars_iff sub.data path.data

/-- C8 (counterexample): on a well-formed triangle file with one vertex and
one triangle whose path `white` names no hemisphere, `Surface::read` returns
`false` and yet leaves matrices `rr`, `tris` and `nn` of one row each. -/
theorem read_unresolved_hemisphere_keeps_mesh :
    ∃ s,
      read sampleOps
          (some (triangleFile [99] [] 0 0 0 1 0 0 0 1 [63, 128, 0, 0, 64, 0, 0, 0, 64, 64, 0, 0]
            [0, 0, 0, 0, 0, 0, 0, 0, 0, 0, 0, 0] []))
          "white" Surface.new false = .ok (Exit.hemiUnresolved, s) ∧
      Exit.hemiUnresolved.ret = false ∧
      ¬ (s.rr.rows = 0 ∧ s.tris.rows = 0 ∧ s.nn.rows = 0) ∧
      s.rr.rows = 1 ∧ s.tris.rows = 1 ∧ s.nn.rows = 1 :=
  ⟨_, rfl, rfl, by decide, rfl, rfl, rfl⟩

/-- C8 (amended): whenever `Surface::read` returns `false`, either the call
ended at the open failure or at the bad magic number and the surface is in the
empty state (it is the cleared surface; `rr`, `tris` and `nn` have zero rows),
or it ended at the unresolved hemisphere; then `hemi = -1`, the kind `surf` is
still empty, and the surface holds the mesh decoded from the file: with
`verts` and `faces` the matrices that the triangle or quad branch has decoded
from the bytes after the magic number, `rr` is the transposed `verts` scaled
by `0.001f` (first three columns), `tris` is `faces`, and
`nn = compute_normals(rr, tris)`. -/
theorem read_false_state (ops : FloatOps) (file : Option (List Byte)) (path : String)
    (s0 : Surface) (lc : Bool) (e : Exit) (s : Surface)
    (h : read ops file path s0 lc = .ok (e, s)) (hret : e.ret = false) :
    ((e = .openFailed ∨ ∃ m, e = .badMagic m) ∧ s = s0.clear ∧
        s.rr.rows = 0 ∧ s.tris.rows = 0 ∧ s.nn.rows = 0) ∨
      (e = .hemiUnresolved ∧ s.hemi = -1 ∧ s.surf = "" ∧
        ∃ bytes magic rest verts faces,
          file = some bytes ∧ fread3 bytes = .ok (magic, rest) ∧
          (if magic = TRIANGLE_FILE_MAGIC_NUMBER then readTriangleBranch rest
            else readQuadBranch ops magic rest) = .ok (verts, faces) ∧
          s.rr.rows = verts.cols ∧ s.rr.cols = 3 ∧
          (∀ i j, i < verts.cols → j < 3 →
            s.rr.coeff i j = ops.mul (verts.coeff j i) ops.milli) ∧
          s.tris.rows = faces.rows ∧ s.tris.cols = 3 ∧
          (∀ i j, i < faces.rows → j < 3 → s.tris.coeff i j = faces.coeff i j) ∧
          s.nn = compute_normals ops.toArith s.rr s.tris) := by
  rcases read_decoded ops file path s0 lc e s h with
    ⟨h1, h2⟩ | ⟨m, h1, h2⟩ | ⟨bytes, magic, rest, verts, faces, hfile, hmagic, hdec, hf⟩
  · subst h2
    exact Or.inl ⟨Or.inl h1, rfl, rfl, rfl, rfl⟩
  · subst h2
    exact Or.inl ⟨Or.inr ⟨m, h1⟩, rfl, rfl, rfl, rfl⟩
  · obtain ⟨_, _, r1, r2, r3, t1, t2, t3, _, hnn, _, hc⟩ :=
      finishRead_inv ops path s0.clear verts faces e s hf
    rcases hc with hc | hc
    · rw [hc.1] at hret
      cases hret
    · exact Or.inr ⟨hc.1, hc.2.1, hc.2.2, bytes, magic, rest, verts, faces, hfile, hmagic,
        hdec, r1, r2, r3, t1, t2, t3, hnn⟩

theorem read_false_state_witness :
    ∃ s,
      read sampleOps
          (some (triangleFile [99] [] 0 0 0 1 0 0 0 1 [63, 128, 0, 0, 64, 0, 0, 0, 64, 64, 0, 0]
            [0, 0, 0, 0, 0, 0, 0, 0, 0, 0, 0, 0] []))
          "white" Surface.new false = .ok (Exit.hemiUnresolved, s) ∧
      s.rr.rows = 1 ∧ s.tris.rows = 1 ∧
      (((Exit.hemiUnresolved = .openFailed ∨ ∃ m, Exit.hemiUnresolved = .badMagic m) ∧
          s = Surface.new.clear ∧ s.rr.rows = 0 ∧ s.tris.rows = 0 ∧ s.nn.rows = 0) ∨
        (Exit.hemiUnresolved = .hemiUnresolved ∧ s.hemi = -1 ∧ s.surf = "" ∧
          ∃ bytes magic rest verts faces,
            some (triangleFile [99] [] 0 0 0 1 0 0 0 1
                [63, 128, 0, 0, 64, 0, 0, 0, 64, 64, 0, 0]
                [0, 0, 0, 0, 0, 0, 0, 0, 0, 0, 0, 0] []) = some bytes ∧
            fread3 bytes = .ok (magic, rest) ∧
            (if magic = TRIANGLE_FILE_MAGIC_NUMBER then readTriangleBranch rest
              else readQuadBranch sampleOps magic rest) = .ok (verts, faces) ∧
            s.rr.rows = verts.cols ∧ s.rr.cols = 3 ∧
            (∀ i j, i < verts.cols → j < 3 →
              s.rr.coeff i j = sampleOps.mul (verts.coeff j i) sampleOps.milli) ∧
            s.tris.rows = faces.rows ∧ s.tris.cols = 3 ∧
            (∀ i j, i < faces.rows → j < 3 → s.tris.coeff i j = faces.coeff i j) ∧
            s.nn = compute_normals sampleOps.toArith s.rr s.tris)) :=
  ⟨_, rfl, rfl, rfl,
    read_false_state sampleOps
      (some (triangleFile [99] [] 0 0 0 1 0 0 0 1 [63, 128, 0, 0, 64, 0, 0, 0, 64, 64, 0, 0]
        [0, 0, 0, 0, 0, 0, 0, 0, 0, 0, 0, 0] []))
      "white" Surface.new false Exit.hemiUnresolved _ rfl rfl⟩

/-- On every mesh file on which the decode completes (`ValidMeshFile`: blocks
of the declared sizes, every face index a row index of the vertex matrix),
`Surface::read` returns; it ends at the unresolved hemisphere, returning
`false` with `hemi = -1`, exactly when the path contains neither `lh.` nor
`rh.`, and it passes the hemisphere check, returning `true`, exactly when the
path contains at least one of them. -/
theorem hemisphere_check_valid (ops : FloatOps) (bytes : List Byte)
    (hvalid : ValidMeshFile bytes) (path : String) (s0 : Surface) (lc : Bool) :
    ∃ e s,
      read ops (some bytes) path s0 lc = .ok (e, s) ∧
      ((e = .hemiUnresolved ∧ e.ret = false ∧ s.hemi = -1) ↔
        (¬ "lh.".data <:+: path.data ∧ ¬ "rh.".data <:+: path.data)) ∧
      ((e = .loaded ∧ e.ret = true) ↔
        ("lh.".data <:+: path.data ∨ "rh.".data <:+: path.data)) := by
  obtain ⟨rr, tris, hread⟩ := read_valid ops bytes hvalid path s0 lc
  rw [← QString_contains_iff, ← QString_contains_iff]
  by_cases hl : QString_contains path "lh." = true
  · rw [if_pos hl] at hread
    refine ⟨_, _, hread, ?_, ?_⟩
    · simp [hl]
    · simp [hl, Exit.ret]
  · rw [if_neg hl] at hread
    by_cases hr : QString_contains path "rh." = true
    · rw [if_pos hr] at hread
      refine ⟨_, _, hread, ?_, ?_⟩
      · simp [hr]
      · simp [hr, Exit.ret]
    · rw [if_neg hr] at hread
      refine ⟨_, _, hread, ?_, ?_⟩
      · simp [hl, hr, Exit.ret]
      · simp [hl, hr]

/-- On the old-quad file with 8 vertices and the quads `(0,1,2,3)`,
`(4,5,6,7)`, `Surface::read` does not return, whatever the path is: `rr` has
three rows, the triangles hold the indices 3 to 7, and the call of
`compute_normals` leaves `rr` and `nn` before the hemisphere test. -/
theorem eightVertexQuadFile_fault (ops : FloatOps) (path : String) (s0 : Surface)
    (lc : Bool) : read ops (some eightVertexQuadFile) path s0 lc = .error .eigenAssert := by
  obtain ⟨verts, vr, vc, _, hread⟩ :=
    readQuadBranch_block ops 255 (Or.inl rfl) 0 0 8 0 0 2 8 2 (by decide) (by decide)
      [0, 1, 0, 2, 0, 3, 0, 4, 0, 5, 0, 6, 0, 7, 0, 8, 0, 9, 0, 10, 0, 11, 0, 12,
       0, 13, 0, 14, 0, 15, 0, 16, 0, 17, 0, 18, 0, 19, 0, 20, 0, 21, 0, 22, 0, 23, 0, 24]
      [0, 0, 0, 0, 0, 1, 0, 0, 2, 0, 0, 3, 0, 0, 4, 0, 0, 5, 0, 0, 6, 0, 0, 7] []
      (by decide) (by decide) path s0 lc
  have hfile : eightVertexQuadFile = quadFile 255 0 0 8 0 0 2
      [0, 1, 0, 2, 0, 3, 0, 4, 0, 5, 0, 6, 0, 7, 0, 8, 0, 9, 0, 10, 0, 11, 0, 12,
       0, 13, 0, 14, 0, 15, 0, 16, 0, 17, 0, 18, 0, 19, 0, 20, 0, 21, 0, 22, 0, 23, 0, 24]
      [0, 0, 0, 0, 0, 1, 0, 0, 2, 0, 0, 3, 0, 0, 4, 0, 0, 5, 0, 0, 6, 0, 0, 7] [] := rfl
  rw [hfile, hread]
  exact finishRead_fault ops path s0.clear verts _ (by omega) (by decide) 0 2 (by decide)
    (by decide)
    (by
      rw [vc]
      decide)

/-- C9 (what the code does): the path `white` contains neither `lh.` nor
`rh.`. On the old-quad file with 8 vertices and the quads `(0,1,2,3)`,
`(4,5,6,7)` `Surface::read` does not return `false` with `hemi = -1`: it does
not return, the run leaves `rr` in `compute_normals` (line 320) before the
hemisphere test (line 323). On a triangle file with the same path it returns
`false` at the hemisphere test with `hemi = -1`. -/
theorem read_no_hemisphere_quad_file (ops : FloatOps) (s0 : Surface) (lc : Bool) :
    ¬ "lh.".data <:+: "white".data ∧ ¬ "rh.".data <:+: "white".data ∧
    read ops (some eightVertexQuadFile) "white" s0 lc = .error .eigenAssert ∧
    ∃ s,
      read ops
          (some (triangleFile [99] [] 0 0 0 1 0 0 0 1 [63, 128, 0, 0, 64, 0, 0, 0, 64, 64, 0, 0]
            [0, 0, 0, 0, 0, 0, 0, 0, 0, 0, 0, 0] []))
          "white" s0 lc = .ok (Exit.hemiUnresolved, s) ∧
      Exit.hemiUnresolved.ret = false ∧ s.hemi = -1 := by
  have hl : ¬ QString_contains "white" "lh." = true := by decide
  have hr : ¬ QString_contains "white" "rh." = true := by decide
  refine ⟨fun h => hl ((QString_contains_iff "white" "lh.").mpr h),
    fun h => hr ((QString_contains_iff "white" "rh.").mpr h),
    eightVertexQuadFile_fault ops "white" s0 lc, ?_⟩
  obtain ⟨rr, tris, _, _, _, _, _, _, hread⟩ :=
    read_triangleFile ops [99] [] (by decide) (by decide) 0 0 0 1 0 0 0 1 1 1
      (by decide) (by decide) (by decide) [63, 128, 0, 0, 64, 0, 0, 0, 64, 64, 0, 0]
      [0, 0, 0, 0, 0, 0, 0, 0, 0, 0, 0, 0] [] (by decide) (by decide) (by decide) "white" s0 lc
  rw [if_neg hl, if_neg hr] at hread
  exact ⟨_, hread, rfl, rfl⟩

/-- For every path that contains `lh.` at some position and every mesh file
on which the decode completes (`ValidMeshFile`: blocks of the declared sizes,
every face index a row index of the vertex matrix), `Surface::read` returns
`true` with `hemi = 0`. -/
theorem left_hemisphere_valid (ops : FloatOps) (bytes : List Byte)
    (hvalid : ValidMeshFile bytes) (path : String) (hl : "lh.".data <:+: path.data)
    (s0 : Surface) (lc : Bool) :
    ∃ s, read ops (some bytes) path s0 lc = .ok (Exit.loaded, s) ∧
      Exit.loaded.ret = true ∧ s.hemi = 0 := by
  obtain ⟨rr, tris, hread⟩ := read_valid ops bytes hvalid path s0 lc
  rw [if_pos ((QString_contains_iff path "lh.").mpr hl)] at hread
  exact ⟨_, hread, rfl, rfl⟩

/-- C10 (what the code does): the path `lh.orig` contains `lh.`. On the
old-quad file with 8 vertices and the quads `(0,1,2,3)`, `(4,5,6,7)`
`Surface::read` does not succeed with `hemi = 0`: it does not return, the run
leaves `rr` in `compute_normals` (line 320) before the hemisphere test (line
323). On a triangle file with the same path it returns `true` with
`hemi = 0`. -/
theorem read_left_hemisphere_quad_file (ops : FloatOps) (s0 : Surface) (lc : Bool) :
    "lh.".data <:+: "lh.orig".data ∧
    read ops (some eightVertexQuadFile) "lh.orig" s0 lc = .error .eigenAssert ∧
    ∃ s,
      read ops
          (some (triangleFile [99] [] 0 0 0 1 0 0 0 1 [63, 128, 0, 0, 64, 0, 0, 0, 64, 64, 0, 0]
            [0, 0, 0, 0, 0, 0, 0, 0, 0, 0, 0, 0] []))
          "lh.orig" s0 lc = .ok (Exit.loaded, s) ∧
      Exit.loaded.ret = true ∧ s.hemi = 0 := by
  refine ⟨⟨[], "orig".data, rfl⟩, eightVertexQuadFile_fault ops "lh.orig" s0 lc, ?_⟩
  obtain ⟨rr, tris, _, _, _, _, _, _, hread⟩ :=
    read_triangleFile ops [99] [] (by decide) (by decide) 0 0 0 1 0 0 0 1 1 1
      (by decide) (by decide) (by decide) [63, 128, 0, 0, 64, 0, 0, 0, 64, 64, 0, 0]
      [0, 0, 0, 0, 0, 0, 0, 0, 0, 0, 0, 0] [] (by decide) (by decide) (by decide) "lh.orig"
      s0 lc
  rw [if_pos (by decide)] at hread
  exact ⟨_, hread, rfl, rfl⟩

/-! ## Hemisphere Right, index range, initial state, quad reshaping -/

/-- C11 (counterexample): the path `lh.sub/rh.white` contains `rh.`, and on a
well-formed triangle file `Surface::read` returns `true` with `hemi = 0`, not
1, because the path also contains `lh.`, which is tested first. -/
theorem read_rh_path_with_lh :
    ∃ s,
      read sampleOps
          (some (triangleFile [99] [] 0 0 0 1 0 0 0 1 [63, 128, 0, 0, 64, 0, 0, 0, 64, 64, 0, 0]
            [0, 0, 0, 0, 0, 0, 0, 0, 0, 0, 0, 0] []))
          "lh.sub/rh.white" Surface.new false = .ok (Exit.loaded, s) ∧
      "rh.".data <:+: "lh.sub/rh.white".data ∧ s.hemi = 0 ∧ s.hemi ≠ 1 :=
  ⟨_, rfl, ⟨"lh.sub/".data, "white".data, rfl⟩, rfl, by decide⟩

/-- C11 (amended): for every path that contains `rh.` and does not contain
`lh.`, and every mesh file on which the decode completes (`ValidMeshFile`:
blocks of the declared sizes, every face index a row index of the vertex
matrix), `Surface::read` returns `true` with `hemi = 1`. -/
theorem read_right_hemisphere (ops : FloatOps) (bytes : List Byte)
    (hvalid : ValidMeshFile bytes) (path : String) (hr : "rh.".data <:+: path.data)
    (hl : ¬ "lh.".data <:+: path.data) (s0 : Surface) (lc : Bool) :
    ∃ s, read ops (some bytes) path s0 lc = .ok (Exit.loaded, s) ∧
      Exit.loaded.ret = true ∧ s.hemi = 1 := by
  obtain ⟨rr, tris, hread⟩ := read_valid ops bytes hvalid path s0 lc
  rw [if_neg (fun h => hl ((QString_contains_iff path "lh.").mp h)),
    if_pos ((QString_contains_iff path "rh.").mpr hr)] at hread
  exact ⟨_, hread, rfl, rfl⟩

theorem read_right_hemisphere_witness :
    ∃ s,
      read sampleOps
          (some (triangleFile [99] [] 0 0 0 1 0 0 0 1 [63, 128, 0, 0, 64, 0, 0, 0, 64, 64, 0, 0]
            [0, 0, 0, 0, 0, 0, 0, 0, 0, 0, 0, 0] []))
          "rh.white" Surface.new false = .ok (Exit.loaded, s) ∧
      Exit.loaded.ret = true ∧ s.hemi = 1 :=
  read_right_hemisphere sampleOps
    (triangleFile [99] [] 0 0 0 1 0 0 0 1 [63, 128, 0, 0, 64, 0, 0, 0, 64, 64, 0, 0]
      [0, 0, 0, 0, 0, 0, 0, 0, 0, 0, 0, 0] [])
    (Or.inl ⟨[99], [], 0, 0, 0, 1, 0, 0, 0, 1, 1, 1, [63, 128, 0, 0, 64, 0, 0, 0, 64, 64, 0, 0],
      [0, 0, 0, 0, 0, 0, 0, 0, 0, 0, 0, 0], [], by decide, by decide, by decide, by decide,
      by decide, by decide, by decide, by decide, rfl⟩)
    "rh.white" ⟨[], "white".data, rfl⟩
    (fun h => by
      have hc := (QString_contains_iff "rh.white" "lh.").mpr h
      revert hc
      decide)
    Surface.new false

/-- C18 (what the code does): on the old-quad file with 4 vertices and the
quad `(0,1,2,3)`, whose indices are all indices of vertices, the quad branch
makes the triangles `(0,1,3)` and `(2,3,1)`, while the transposed `4 x 3`
vertex matrix gives `rr` three rows. The index 3 is not a row of `rr`, and the
call of `compute_normals` looks up row 3 of `rr` and of `nn`: a lookup out of
range during the decode, at which the run leaves defined behaviour. -/
theorem read_quad_index_outside_rr (ops : FloatOps) (path : String) (s0 : Surface)
    (lc : Bool) :
    ∃ verts faces,
      read ops
          (some (quadFile 255 0 0 4 0 0 1
            [0, 1, 0, 2, 0, 3, 0, 4, 0, 5, 0, 6, 0, 7, 0, 8, 0, 9, 0, 10, 0, 11, 0, 12]
            [0, 0, 0, 0, 0, 1, 0, 0, 2, 0, 0, 3] []))
          path s0 lc = finishRead ops path s0.clear verts faces ∧
      verts.rows = 4 ∧ verts.transpose.rows = 3 ∧
      faces.row3 0 = (0, 1, 3) ∧ faces.row3 1 = (2, 3, 1) ∧
      ¬ (faces.coeff 0 2 < (verts.transpose.rows : Int)) ∧
      read ops
          (some (quadFile 255 0 0 4 0 0 1
            [0, 1, 0, 2, 0, 3, 0, 4, 0, 5, 0, 6, 0, 7, 0, 8, 0, 9, 0, 10, 0, 11, 0, 12]
            [0, 0, 0, 0, 0, 1, 0, 0, 2, 0, 0, 3] []))
          path s0 lc = .error .eigenAssert := by
  obtain ⟨verts, vr, vc, _, hread⟩ :=
    readQuadBranch_block ops 255 (Or.inl rfl) 0 0 4 0 0 1 4 1 (by decide) (by decide)
      [0, 1, 0, 2, 0, 3, 0, 4, 0, 5, 0, 6, 0, 7, 0, 8, 0, 9, 0, 10, 0, 11, 0, 12]
      [0, 0, 0, 0, 0, 1, 0, 0, 2, 0, 0, 3] [] (by decide) (by decide) path s0 lc
  have hfault := finishRead_fault ops path s0.clear verts
    (splitQuads
      (reshapeQuads ((List.range (1 * 4)).map
        (fun k => (uint24At [0, 0, 0, 0, 0, 1, 0, 0, 2, 0, 0, 3] k : Int))) 1) 1).1
    (by omega) (by decide) 0 2 (by decide) (by decide)
    (by
      rw [vc]
      decide)
  refine ⟨verts, _, hread, vr, vc, by decide, by decide, ?_, hread.trans hfault⟩
  rw [Mat.transpose_rows, vc]
  decide

/-- C19: `Surface::clear` leaves the empty state (empty file name and kind,
`hemi = -1`, `rr`, `tris`, `nn` with 0 rows, empty `curv`) whatever the surface
held, and the outcome of `Surface::read`, return value and final surface, is
the same for any two surfaces passed in. -/
theorem read_independent_of_initial_surface :
    (∀ s : Surface,
      s.clear.m_fileName = "" ∧ s.clear.surf = "" ∧ s.clear.hemi = -1 ∧
      s.clear.rr.rows = 0 ∧ s.clear.tris.rows = 0 ∧ s.clear.nn.rows = 0 ∧ s.clear.curv = []) ∧
    ∀ (ops : FloatOps) (file : Option (List Byte)) (path : String) (s1 s2 : Surface)
      (lc : Bool), read ops file path s1 lc = read ops file path s2 lc :=
  ⟨fun _ => ⟨rfl, rfl, rfl, rfl, rfl, rfl, rfl⟩, fun _ _ _ _ _ _ => rfl⟩

/-- C20: for a quad block of `12 * nquad` bytes, `fread3_many` returns the
flat buffer `f` of its `4 * nquad` three-byte big-endian values in file order,
and the reshaped quad matrix has `nquad` rows, 4 columns and row `k` equal to
`(f[4k], f[4k+1], f[4k+2], f[4k+3])`. -/
theorem read_quads_reshaped (qblock rest : List Byte) (nquad : Nat)
    (hq : qblock.length = 12 * nquad) :
    ∃ f,
      fread3_many (nquad * 4) (qblock ++ rest) = .ok (f, rest) ∧ f.length = 4 * nquad ∧
      (∀ i, i < 4 * nquad → f.getD i 0 = (uint24At qblock i : Int)) ∧
      (reshapeQuads f nquad).rows = nquad ∧ (reshapeQuads f nquad).cols = 4 ∧
      ∀ k, k < nquad →
        ((reshapeQuads f nquad).coeff k 0, (reshapeQuads f nquad).coeff k 1,
            (reshapeQuads f nquad).coeff k 2, (reshapeQuads f nquad).coeff k 3) =
          (f.getD (4 * k) 0, f.getD (4 * k + 1) 0, f.getD (4 * k + 2) 0, f.getD (4 * k + 3) 0) := by
  have hlen : ((List.range (nquad * 4)).map (fun k => (uint24At qblock k : Int))).length =
      4 * nquad := by simp [Nat.mul_comm]
  refine ⟨_, fread3_many_block (nquad * 4) qblock rest (by omega), hlen, ?_,
    (reshapeQuads_dims _ nquad).1, (reshapeQuads_dims _ nquad).2, ?_⟩
  · intro i hi
    have hi2 : i < nquad * 4 := by omega
    simp [List.getD_eq_getElem?_getD, List.getElem?_range hi2]
  · intro k hk
    have hc := reshapeQuads_coeff _ nquad hlen k
    rw [hc 0 hk (by decide), hc 1 hk (by decide), hc 2 hk (by decide), hc 3 hk (by decide)]
    rfl

theorem read_quads_reshaped_witness :
    ∃ f,
      fread3_many (2 * 4)
          ([0, 0, 4, 0, 0, 5, 0, 0, 6, 0, 0, 7, 0, 0, 7, 0, 0, 8, 0, 0, 9, 0, 1, 0] ++ [42]) =
        .ok (f, [42]) ∧ f.length = 4 * 2 ∧
      (∀ i, i < 4 * 2 → f.getD i 0 =
        (uint24At [0, 0, 4, 0, 0, 5, 0, 0, 6, 0, 0, 7, 0, 0, 7, 0, 0, 8, 0, 0, 9, 0, 1, 0] i : Int)) ∧
      (reshapeQuads f 2).rows = 2 ∧ (reshapeQuads f 2).cols = 4 ∧
      ∀ k, k < 2 →
        ((reshapeQuads f 2).coeff k 0, (reshapeQuads f 2).coeff k 1,
            (reshapeQuads f 2).coeff k 2, (reshapeQuads f 2).coeff k 3) =
          (f.getD (4 * k) 0, f.getD (4 * k + 1) 0, f.getD (4 * k + 2) 0, f.getD (4 * k + 3) 0) :=
  read_quads_reshaped [0, 0, 4, 0, 0, 5, 0, 0, 6, 0, 0, 7, 0, 0, 7, 0, 0, 8, 0, 0, 9, 0, 1, 0]
    [42] 2 (by decide)

/-! ## Curvature files -/

/-- A loop over `i < n` whose body reads one cell of `w` bytes from the stream
and stores it at position `i` of a vector fills the vector with the cells of
the block in file order and consumes exactly the block. -/
theorem fill_vector {α : Type}
    (step : Nat → List α × List Byte → Except Fault (List α × List Byte))
    (w n : Nat) (blk rest : List Byte) (val : Nat → α) (hlen : blk.length = w * n)
    (hstep : ∀ i v k, w * k + w ≤ blk.length →
      step i (v, blk.drop (w * k) ++ rest) = .ok (v.set i (val k), blk.drop (w * (k + 1)) ++ rest))
    (v0 : List α) (h0 : v0.length = n) :
    forLoop n step (v0, blk ++ rest) = .ok ((List.range n).map val, rest) := by
  obtain ⟨u, hu, hP⟩ := forLoop_inv
    (fun i s => s.2 = blk.drop (w * i) ++ rest ∧ s.1.length = n ∧
      ∀ k, k < i → s.1[k]? = some (val k))
    n step (v0, blk ++ rest)
    ⟨by simp, h0, fun k hk => absurd hk (Nat.not_lt_zero k)⟩
    (by
      intro i t hi hPi
      obtain ⟨v, st⟩ := t
      obtain ⟨p1, p2, p3⟩ := hPi
      simp only at p1 p2 p3
      subst p1
      have hb : w * i + w ≤ blk.length := by
        rw [hlen]
        have e : w * i + w = w * (i + 1) := by rw [Nat.mul_add w _ 1, Nat.mul_one]
        rw [e]
        exact Nat.mul_le_mul_left w (by omega)
      refine ⟨_, hstep i v i hb, rfl, by simp [p2], ?_⟩
      intro k hk
      simp only [List.getElem?_set]
      by_cases hki : i = k
      · subst hki
        simp [p2, hi]
      · rw [if_neg hki]
        exact p3 k (by omega))
  obtain ⟨v, st⟩ := u
  obtain ⟨p1, p2, p3⟩ := hP
  simp only at p1 p2 p3
  have hst : st = rest := by rw [p1, ← hlen, List.drop_length, List.nil_append]
  have hv : v = (List.range n).map val := by
    apply List.ext_getElem?
    intro k
    by_cases hk : k < n
    · rw [p3 k hk]
      simp [List.getElem?_range hk]
    · rw [List.getElem?_eq_none (by omega), List.getElem?_eq_none (by simp; omega)]
  rw [hu, hst, hv]

/-- A loop that updates every entry of a vector in place applies the update
to each entry once. -/
theorem modify_vector {α : Type} [Inhabited α] (f : α → α) (v : List α) :
    forPure v.length (fun i (l : List α) => l.set i (f (l.getD i default))) v = v.map f := by
  have key := forPure_inv
    (fun i (l : List α) => l.length = v.length ∧
      ∀ k, l[k]? = if k < i then (v[k]?).map f else v[k]?)
    v.length (fun i (l : List α) => l.set i (f (l.getD i default))) v
    ⟨rfl, fun k => by simp⟩
    (by
      intro i l hi hP
      obtain ⟨p1, p2⟩ := hP
      refine ⟨by simp [p1], ?_⟩
      intro k
      simp only [List.getElem?_set, List.getD_eq_getElem?_getD]
      by_cases hki : i = k
      · subst hki
        have h1 : l[i]? = v[i]? := by rw [p2 i, if_neg (by omega)]
        simp [p1, hi, h1, List.getElem?_eq_getElem hi]
      · rw [if_neg hki, p2 k]
        by_cases hk : k < i
        · rw [if_pos hk, if_pos (by omega)]
        · rw [if_neg hk, if_neg (by omega)])
  apply List.ext_getElem?
  intro k
  rw [key.2 k, List.getElem?_map]
  by_cases hk : k < v.length
  · rw [if_pos hk]
  · rw [if_neg hk, List.getElem?_eq_none (by omega)]
    rfl

theorem read_curv_legacy_eq {K : Type} [Inhabited K] (ops : CurvOps K)
    (n0 n1 n2 f0 f1 f2 : Byte) (vnum : Nat)
    (hn : (n0.val <<< 16 ||| n1.val <<< 8 ||| n2.val) = vnum) (hne : vnum ≠ 16777215)
    (vblock extra : List Byte) (hvb : vblock.length = 2 * vnum) :
    read_curv ops (some (legacyCurvFile n0 n1 n2 f0 f1 f2 vblock extra)) =
      .ok ((List.range vnum).map
        (fun i => ops.div (ops.ofInt (int16At vblock i)) (ops.ofInt 100))) := by
  have hloop := fill_vector
    (fun i (s : List K × List Byte) =>
      match readInt16 s.2 with
      | .error e => .error e
      | .ok (iVal, st2) => .ok (s.1.set i (ops.div (ops.ofInt iVal) (ops.ofInt 100)), st2))
    2 vnum vblock extra (fun k => ops.div (ops.ofInt (int16At vblock k)) (ops.ofInt 100)) hvb
    (by
      intro i v k hk
      simp only [readInt16_drop _ _ _ hk])
    (List.replicate vnum default) (by simp)
  simp only [read_curv, legacyCurvFile, fread3, hn, NEW_VERSION_MAGIC_NUMBER, if_neg hne]
  rw [hloop]

theorem read_curv_new_gen {K : Type} [Inhabited K] (ops : CurvOps K)
    (m0 m1 m2 n0 n1 n2 f0 f1 f2 p0 p1 p2 : Byte) (vnum : Nat)
    (hm : (m0.val <<< 16 ||| m1.val <<< 8 ||| m2.val) = 16777215)
    (hn : (n0.val <<< 16 ||| n1.val <<< 8 ||| n2.val) = vnum)
    (vblock extra : List Byte) (hvb : vblock.length = 4 * vnum) :
    read_curv ops
        (some (m0 :: m1 :: m2 :: n0 :: n1 :: n2 :: f0 :: f1 :: f2 :: p0 :: p1 :: p2 ::
          (vblock ++ extra))) =
      .ok ((List.range vnum).map (fun i => ops.ofMem (swap_floatp (floatAt vblock i)))) := by
  have hraw := readRawFloats_block vnum vblock extra hvb
  have hmod := modify_vector swap_floatp ((List.range vnum).map (floatAt vblock))
  simp only [List.length_map, List.length_range] at hmod
  have hm2 : (m0.val <<< 16 ||| m1.val <<< 8 ||| m2.val) = NEW_VERSION_MAGIC_NUMBER := hm
  simp only [read_curv, fread3, if_pos hm2, hn, hraw, hmod, List.map_map]
  rfl

theorem read_curv_new_eq {K : Type} [Inhabited K] (ops : CurvOps K)
    (n0 n1 n2 f0 f1 f2 p0 p1 p2 : Byte) (vnum : Nat)
    (hn : (n0.val <<< 16 ||| n1.val <<< 8 ||| n2.val) = vnum)
    (vblock extra : List Byte) (hvb : vblock.length = 4 * vnum) :
    read_curv ops (some (newCurvFile n0 n1 n2 f0 f1 f2 p0 p1 p2 vblock extra)) =
      .ok ((List.range vnum).map (fun i => ops.ofMem (swap_floatp (floatAt vblock i)))) :=
  read_curv_new_gen ops 255 255 255 n0 n1 n2 f0 f1 f2 p0 p1 p2 vnum magic_quad hn vblock extra
    hvb

/-- C15: for every legacy curvature file (first three-byte value `vnum`
different from 16777215, followed by the three-byte `fnum` and `vnum` 16-bit
values), `read_curv` returns exactly `vnum` values, value `i` being the `i`-th
big-endian signed 16-bit integer of the block, converted and divided by 100;
with exact rational arithmetic, `vnum = 3` and the raw values 100, 200, -50
give `[1, 2, -1/2]`. -/
theorem read_curv_legacy {K : Type} [Inhabited K] (ops : CurvOps K)
    (n0 n1 n2 f0 f1 f2 : Byte) (vnum : Nat)
    (hn : (n0.val <<< 16 ||| n1.val <<< 8 ||| n2.val) = vnum) (hne : vnum ≠ 16777215)
    (vblock extra : List Byte) (hvb : vblock.length = 2 * vnum) :
    (∃ vals, read_curv ops (some (legacyCurvFile n0 n1 n2 f0 f1 f2 vblock extra)) = .ok vals ∧
      vals.length = vnum ∧
      ∀ i, i < vnum →
        vals[i]? = some (ops.div (ops.ofInt (int16At vblock i)) (ops.ofInt 100))) ∧
    ∀ ofMem : F32 → ℚ,
      read_curv (⟨ofMem, fun i => (i : ℚ), fun a b => a / b⟩ : CurvOps ℚ)
          (some (legacyCurvFile 0 0 3 0 0 0 [0, 100, 0, 200, 255, 206] [])) =
        .ok [1, 2, -1 / 2] := by
  constructor
  · refine ⟨_, read_curv_legacy_eq ops n0 n1 n2 f0 f1 f2 vnum hn hne vblock extra hvb,
      by simp, ?_⟩
    intro i hi
    simp [List.getElem?_range hi]
  · intro ofMem
    rw [read_curv_legacy_eq _ 0 0 3 0 0 0 3 (by decide) (by decide) _ [] (by decide)]
    have e0 : int16At [0, 100, 0, 200, 255, 206] 0 = 100 := by decide
    have e1 : int16At [0, 100, 0, 200, 255, 206] 1 = 200 := by decide
    have e2 : int16At [0, 100, 0, 200, 255, 206] 2 = -50 := by decide
    simp only [List.range_succ, List.range_zero, List.nil_append, List.cons_append,
      List.map_cons, List.map_nil, e0, e1, e2]
    norm_num

theorem read_curv_legacy_witness :
    (∃ vals,
      read_curv (CurvOps.ofFloatOps sampleOps)
          (some (legacyCurvFile 0 0 2 0 0 7 [0, 100, 255, 206] [9])) = .ok vals ∧
      vals.length = 2 ∧
      ∀ i, i < 2 →
        vals[i]? = some ((CurvOps.ofFloatOps sampleOps).div
          ((CurvOps.ofFloatOps sampleOps).ofInt (int16At [0, 100, 255, 206] i))
          ((CurvOps.ofFloatOps sampleOps).ofInt 100))) ∧
    ∀ ofMem : F32 → ℚ,
      read_curv (⟨ofMem, fun i => (i : ℚ), fun a b => a / b⟩ : CurvOps ℚ)
          (some (legacyCurvFile 0 0 3 0 0 0 [0, 100, 0, 200, 255, 206] [])) =
        .ok [1, 2, -1 / 2] :=
  read_curv_legacy (CurvOps.ofFloatOps sampleOps) 0 0 2 0 0 7 2 (by decide) (by decide)
    [0, 100, 255, 206] [9] (by decide)

/-- C16: for every curvature file whose first three-byte value is 16777215,
`read_curv` takes the number of values `vnum` from the second three-byte
value, passes over two further three-byte fields, and returns exactly `vnum`
values, value `i` being the `i`-th four-byte float of the block that follows,
its bytes reversed once. -/
theorem read_curv_new {K : Type} [Inhabited K] (ops : CurvOps K)
    (n0 n1 n2 f0 f1 f2 p0 p1 p2 : Byte) (vnum : Nat)
    (hn : (n0.val <<< 16 ||| n1.val <<< 8 ||| n2.val) = vnum)
    (vblock extra : List Byte) (hvb : vblock.length = 4 * vnum) :
    ∃ vals,
      read_curv ops (some (newCurvFile n0 n1 n2 f0 f1 f2 p0 p1 p2 vblock extra)) = .ok vals ∧
      vals.length = vnum ∧
      ∀ i, i < vnum → vals[i]? = some (ops.ofMem (swap_floatp (floatAt vblock i))) := by
  refine ⟨_, read_curv_new_eq ops n0 n1 n2 f0 f1 f2 p0 p1 p2 vnum hn vblock extra hvb,
    by simp, ?_⟩
  intro i hi
  simp [List.getElem?_range hi]

theorem read_curv_new_witness :
    ∃ vals,
      read_curv (CurvOps.ofFloatOps sampleOps)
          (some (newCurvFile 0 0 2 0 0 9 0 0 1 [63, 128, 0, 0, 191, 0, 0, 0] [5, 5])) = .ok vals ∧
      vals.length = 2 ∧
      ∀ i, i < 2 →
        vals[i]? = some ((CurvOps.ofFloatOps sampleOps).ofMem
          (swap_floatp (floatAt [63, 128, 0, 0, 191, 0, 0, 0] i))) :=
  read_curv_new (CurvOps.ofFloatOps sampleOps) 0 0 2 0 0 9 0 0 1 2 (by decide)
    [63, 128, 0, 0, 191, 0, 0, 0] [5, 5] (by decide)

/-- C17 (counterexample): the result of `read_curv` for a file that cannot be
opened is the one it returns after decoding the openable legacy file
`00 00 00 00 00 00`, which declares zero vertices: the empty vector. -/
theorem read_curv_open_failure_like_empty_file :
    read_curv (CurvOps.ofFloatOps sampleOps) none = .ok [] ∧
    read_curv (CurvOps.ofFloatOps sampleOps) (some (legacyCurvFile 0 0 0 0 0 0 [] [])) =
      read_curv (CurvOps.ofFloatOps sampleOps) none :=
  ⟨rfl, rfl⟩

/-- C17 (amended): when the curvature file cannot be opened `read_curv`
returns the empty vector; for a well-formed curvature file that declares `n`
values it returns `n` values, so the two outcomes coincide exactly when the
file declares zero values. -/
theorem read_curv_open_failure {K : Type} [Inhabited K] (ops : CurvOps K) (bytes : List Byte)
    (n : Nat) (hvalid : ValidCurvFile bytes n) :
    read_curv ops none = .ok [] ∧
    ∃ vals, read_curv ops (some bytes) = .ok vals ∧ vals.length = n ∧
      (read_curv ops (some bytes) = read_curv ops none ↔ n = 0) := by
  have hnone : read_curv ops none = .ok [] := rfl
  have key : ∀ vals : List K, vals.length = n → read_curv ops (some bytes) = .ok vals →
      (read_curv ops (some bytes) = read_curv ops none ↔ n = 0) := by
    intro vals hl hr
    rw [hr, hnone]
    constructor
    · intro h
      cases h
      exact hl.symm
    · intro h
      rw [h] at hl
      rw [List.length_eq_zero.mp hl]
  refine ⟨hnone, ?_⟩
  rcases hvalid with ⟨n0, n1, n2, f0, f1, f2, vblock, extra, hn, hne, hvb, rfl⟩ |
    ⟨n0, n1, n2, f0, f1, f2, p0, p1, p2, vblock, extra, hn, hvb, rfl⟩
  · have hr := read_curv_legacy_eq ops n0 n1 n2 f0 f1 f2 n hn hne vblock extra hvb
    exact ⟨_, hr, by simp, key _ (by simp) hr⟩
  · have hr := read_curv_new_eq ops n0 n1 n2 f0 f1 f2 p0 p1 p2 n hn vblock extra hvb
    exact ⟨_, hr, by simp, key _ (by simp) hr⟩

theorem read_curv_open_failure_witness :
    read_curv (CurvOps.ofFloatOps sampleOps) none = .ok [] ∧
    ∃ vals,
      read_curv (CurvOps.ofFloatOps sampleOps)
          (some (newCurvFile 0 0 1 0 0 0 0 0 1 [63, 128, 0, 0] [])) = .ok vals ∧
      vals.length = 1 ∧
      (read_curv (CurvOps.ofFloatOps sampleOps)
          (some (newCurvFile 0 0 1 0 0 0 0 0 1 [63, 128, 0, 0] [])) =
        read_curv (CurvOps.ofFloatOps sampleOps) none ↔ 1 = 0) :=
  read_curv_open_failure (CurvOps.ofFloatOps sampleOps)
    (newCurvFile 0 0 1 0 0 0 0 0 1 [63, 128, 0, 0] []) 1
    (Or.inr ⟨0, 0, 1, 0, 0, 0, 0, 0, 1, [63, 128, 0, 0], [], by decide, by decide, rfl⟩)

/-! ## Normals -/

theorem assigned_normals_eq {K : Type} [Inhabited K] (A : Arith K) (rr : Mat K)
    (tris : Mat Int) :
    compute_normals A rr tris =
      normalizeRows A (rowNorms A (assigned_normals A rr tris)) (assigned_normals A rr tris) :=
  rfl

namespace Mat

variable {α : Type}

theorem setRow_spec [Inhabited α] (m : Mat α) (hw : m.WF) (i : Nat) (hi : i < m.rows)
    (src : Nat → α) :
    (m.setRow i src).rows = m.rows ∧ (m.setRow i src).cols = m.cols ∧ (m.setRow i src).WF ∧
    ∀ a b, a < m.rows → b < m.cols →
      (m.setRow i src).coeff a b = if a = i then src b else m.coeff a b := by
  have key := forPure_inv
    (fun j (t : Mat α) => t.rows = m.rows ∧ t.cols = m.cols ∧ t.WF ∧
      ∀ a b, a < m.rows → b < m.cols →
        t.coeff a b = if a = i ∧ b < j then src b else m.coeff a b)
    m.cols (fun j acc => acc.set i j (src j)) m
    ⟨rfl, rfl, hw, fun a b _ _ => by simp⟩
    (by
      intro j t hj hP
      obtain ⟨p1, p2, p3, p4⟩ := hP
      refine ⟨p1, p2, set_WF p3 _ _ _, ?_⟩
      intro a b ha hb
      rw [coeff_set p3 _ (by omega) (by omega) (by omega), p4 a b ha hb]
      by_cases h1 : a = i ∧ b = j
      · rw [if_pos h1, if_pos (by omega), h1.2]
      · rw [if_neg h1]
        by_cases h2 : a = i ∧ b < j
        · rw [if_pos h2, if_pos (by omega)]
        · rw [if_neg h2, if_neg (by omega)])
  refine ⟨key.1, key.2.1, key.2.2.1, ?_⟩
  intro a b ha hb
  rw [show m.setRow i src = forPure m.cols (fun j acc => acc.set i j (src j)) m from rfl,
    key.2.2.2 a b ha hb]
  by_cases h : a = i
  · rw [if_pos h, if_pos ⟨h, hb⟩]
  · rw [if_neg h, if_neg (fun h2 => h h2.1)]

theorem setCol_spec [Inhabited α] (m : Mat α) (hw : m.WF) (j : Nat) (hj : j < m.cols)
    (src : Nat → α) :
    (m.setCol j src).rows = m.rows ∧ (m.setCol j src).cols = m.cols ∧ (m.setCol j src).WF ∧
    ∀ a b, a < m.rows → b < m.cols →
      (m.setCol j src).coeff a b = if b = j then src a else m.coeff a b := by
  have key := forPure_inv
    (fun i (t : Mat α) => t.rows = m.rows ∧ t.cols = m.cols ∧ t.WF ∧
      ∀ a b, a < m.rows → b < m.cols →
        t.coeff a b = if b = j ∧ a < i then src a else m.coeff a b)
    m.rows (fun i acc => acc.set i j (src i)) m
    ⟨rfl, rfl, hw, fun a b _ _ => by simp⟩
    (by
      intro i t hi hP
      obtain ⟨p1, p2, p3, p4⟩ := hP
      refine ⟨p1, p2, set_WF p3 _ _ _, ?_⟩
      intro a b ha hb
      rw [coeff_set p3 _ (by omega) (by omega) (by omega), p4 a b ha hb]
      by_cases h1 : a = i ∧ b = j
      · rw [if_pos h1, if_pos (by omega), h1.1]
      · rw [if_neg h1]
        by_cases h2 : b = j ∧ a < i
        · rw [if_pos h2, if_pos (by omega)]
        · rw [if_neg h2, if_neg (by omega)])
  refine ⟨key.1, key.2.1, key.2.2.1, ?_⟩
  intro a b ha hb
  rw [show m.setCol j src = forPure m.rows (fun i acc => acc.set i j (src i)) m from rfl,
    key.2.2.2 a b ha hb]
  by_cases h : b = j
  · rw [if_pos h, if_pos ⟨h, ha⟩]
  · rw [if_neg h, if_neg (fun h2 => h h2.1)]

theorem zipWith_spec [Inhabited α] (f : α → α → α) (a b : Mat α) (ha : a.WF) (hb : b.WF)
    (hr : b.rows = a.rows) (hc : b.cols = a.cols) :
    (zipWith f a b).rows = a.rows ∧ (zipWith f a b).cols = a.cols ∧ (zipWith f a b).WF ∧
    ∀ i j, i < a.rows → j < a.cols →
      (zipWith f a b).coeff i j = f (a.coeff i j) (b.coeff i j) := by
  have hbl : b.data.length = a.rows * a.cols := by rw [hb, hr, hc]
  refine ⟨rfl, rfl, ?_, ?_⟩
  · have hal : a.data.length = a.rows * a.cols := ha
    simp [WF, zipWith, hal, hbl]
  · intro i j hi hj
    have hlt : i + a.rows * j < a.rows * a.cols := index_lt hi hj
    have h1 : i + a.rows * j < a.data.length := by rw [ha]; exact hlt
    have h2 : i + a.rows * j < b.data.length := by rw [hbl]; exact hlt
    simp [coeff, zipWith, hr, List.getD_eq_getElem?_getD, List.getElem?_zipWith,
      List.getElem?_eq_getElem h1, List.getElem?_eq_getElem h2]

/-- A loop that assigns row `i` from `src i` for every `i` fills the matrix. -/
theorem gather_rows [Inhabited α] (n : Nat) (src : Nat → Nat → α) (d : α) :
    (forPure n (fun i m => m.setRow i (src i)) (resize n 3 d)).rows = n ∧
    (forPure n (fun i m => m.setRow i (src i)) (resize n 3 d)).cols = 3 ∧
    (forPure n (fun i m => m.setRow i (src i)) (resize n 3 d)).WF ∧
    ∀ i c, i < n → c < 3 →
      (forPure n (fun i m => m.setRow i (src i)) (resize n 3 d)).coeff i c = src i c := by
  have key := forPure_inv
    (fun k (t : Mat α) => t.rows = n ∧ t.cols = 3 ∧ t.WF ∧
      ∀ i c, i < k → c < 3 → t.coeff i c = src i c)
    n (fun i m => m.setRow i (src i)) (resize n 3 d)
    ⟨rfl, rfl, resize_WF _ _ _, fun i c hi => absurd hi (Nat.not_lt_zero i)⟩
    (by
      intro k t hk hP
      obtain ⟨p1, p2, p3, p4⟩ := hP
      obtain ⟨s1, s2, s3, s4⟩ := setRow_spec t p3 k (by omega) (src k)
      refine ⟨s1.trans p1, s2.trans p2, s3, ?_⟩
      intro i c hi hc
      show (t.setRow k (src k)).coeff i c = src i c
      rw [s4 i c (by omega) (by omega)]
      by_cases h : i = k
      · rw [if_pos h, h]
      · rw [if_neg h]
        exact p4 i c (by omega) hc)
  exact key

end Mat

theorem rowNorms_spec {K : Type} [Inhabited K] (A : Arith K) (m : Mat K) (hw : m.WF)
    (hc : m.cols = 3) :
    (rowNorms A m).length = m.rows ∧
    ∀ i, i < m.rows → (rowNorms A m).getD i default = norm3 A (m.row3 i) := by
  obtain ⟨z1, _, _, z4⟩ := Mat.zipWith_spec A.mul m m hw hw rfl rfl
  constructor
  · simp [rowNorms, z1]
  · intro i hi
    have hi2 : i < (Mat.zipWith A.mul m m).rows := by rw [z1]; exact hi
    simp only [rowNorms, List.getD_eq_getElem?_getD, List.getElem?_map,
      List.getElem?_range hi2, Option.map_some', Option.getD_some, norm3, Mat.row3]
    rw [z4 i 0 hi (by omega), z4 i 1 hi (by omega), z4 i 2 hi (by omega)]

theorem normalizeRows_spec {K : Type} [Inhabited K] (A : Arith K) (norms : List K) (m : Mat K)
    (hw : m.WF) (hlen : norms.length = m.rows) :
    (normalizeRows A norms m).rows = m.rows ∧ (normalizeRows A norms m).cols = m.cols ∧
    (normalizeRows A norms m).WF ∧
    ∀ i c, i < m.rows → c < m.cols →
      (normalizeRows A norms m).coeff i c =
        if A.nonzero (norms.getD i default) = true then
          A.div (m.coeff i c) (norms.getD i default)
        else m.coeff i c := by
  have key := forPure_inv
    (fun k (t : Mat K) => t.rows = m.rows ∧ t.cols = m.cols ∧ t.WF ∧
      ∀ i c, i < m.rows → c < m.cols →
        t.coeff i c =
          if i < k ∧ A.nonzero (norms.getD i default) = true then
            A.div (m.coeff i c) (norms.getD i default)
          else m.coeff i c)
    norms.length
    (fun i acc =>
      if A.nonzero (norms.getD i default) then
        acc.setRow i (fun c => A.div (acc.coeff i c) (norms.getD i default))
      else acc)
    m ⟨rfl, rfl, hw, fun i c _ _ => by simp⟩
    (by
      intro k t hk hP
      obtain ⟨p1, p2, p3, p4⟩ := hP
      by_cases hz : A.nonzero (norms.getD k default) = true
      · simp only [hz, if_true]
        obtain ⟨s1, s2, s3, s4⟩ := Mat.setRow_spec t p3 k (by omega)
          (fun c => A.div (t.coeff k c) (norms.getD k default))
        refine ⟨s1.trans p1, s2.trans p2, s3, ?_⟩
        intro i c hi hc
        rw [s4 i c (by omega) (by omega)]
        by_cases h : i = k
        · subst h
          rw [if_pos rfl, if_pos ⟨by omega, hz⟩, p4 i c hi hc, if_neg (fun h => by omega)]
        · rw [if_neg h, p4 i c hi hc]
          by_cases h2 : i < k ∧ A.nonzero (norms.getD i default) = true
          · rw [if_pos h2, if_pos ⟨by omega, h2.2⟩]
          · rw [if_neg h2, if_neg (fun h3 => h2 ⟨by omega, h3.2⟩)]
      · simp only [hz]
        refine ⟨p1, p2, p3, ?_⟩
        intro i c hi hc
        show t.coeff i c = _
        rw [p4 i c hi hc]
        by_cases h2 : i < k ∧ A.nonzero (norms.getD i default) = true
        · rw [if_pos h2, if_pos ⟨by omega, h2.2⟩]
        · rw [if_neg h2, if_neg]
          rintro ⟨h3, h4⟩
          by_cases h : i = k
          · subst h
            exact hz h4
          · exact h2 ⟨by omega, h4⟩)
  refine ⟨key.1, key.2.1, key.2.2.1, ?_⟩
  intro i c hi hc
  rw [show normalizeRows A norms m = forPure norms.length
      (fun i acc =>
        if A.nonzero (norms.getD i default) then
          acc.setRow i (fun c => A.div (acc.coeff i c) (norms.getD i default))
        else acc) m from rfl,
    key.2.2.2 i c hi hc]
  by_cases hz : A.nonzero (norms.getD i default) = true
  · rw [if_pos hz, if_pos ⟨by omega, hz⟩]
  · rw [if_neg hz, if_neg (fun h => hz h.2)]

/-- Normalising the rows of a matrix by its own row norms normalises each
row. -/
theorem norm_stage {K : Type} [Inhabited K] (A : Arith K) (m : Mat K) (hw : m.WF)
    (hc : m.cols = 3) :
    (normalizeRows A (rowNorms A m) m).rows = m.rows ∧
    (normalizeRows A (rowNorms A m) m).cols = 3 ∧
    (normalizeRows A (rowNorms A m) m).WF ∧
    ∀ p, p < m.rows → (normalizeRows A (rowNorms A m) m).row3 p = normalize3 A (m.row3 p) := by
  obtain ⟨n1, n2⟩ := rowNorms_spec A m hw hc
  obtain ⟨s1, s2, s3, s4⟩ := normalizeRows_spec A (rowNorms A m) m hw n1
  refine ⟨s1, s2.trans hc, s3, ?_⟩
  intro p hp
  simp only [Mat.row3]
  rw [s4 p 0 hp (by omega), s4 p 1 hp (by omega), s4 p 2 hp (by omega), n2 p hp]
  simp only [normalize3, Mat.row3]
  by_cases hz : A.nonzero (norm3 A (m.coeff p 0, m.coeff p 1, m.coeff p 2)) = true
  · simp only [hz, if_true]
  · simp only [hz]
    rfl

theorem cross_stage {K : Type} [Inhabited K] (n c : Nat) (hc : c = 3) (d : K)
    (f0 f1 f2 : Nat → K) :
    ((((Mat.resize n c d).setCol 0 f0).setCol 1 f1).setCol 2 f2).rows = n ∧
    ((((Mat.resize n c d).setCol 0 f0).setCol 1 f1).setCol 2 f2).cols = 3 ∧
    ((((Mat.resize n c d).setCol 0 f0).setCol 1 f1).setCol 2 f2).WF ∧
    ∀ p, p < n →
      ((((Mat.resize n c d).setCol 0 f0).setCol 1 f1).setCol 2 f2).row3 p =
        (f0 p, f1 p, f2 p) := by
  subst hc
  have h0 : (Mat.resize n 3 d).cols = 3 := rfl
  have hn0 : (Mat.resize n 3 d).rows = n := rfl
  obtain ⟨a1, a2, a3, a4⟩ := Mat.setCol_spec (Mat.resize n 3 d) (Mat.resize_WF _ _ _) 0
    (by omega) f0
  have hr1 : ((Mat.resize n 3 d).setCol 0 f0).rows = n := a1
  have hc1 : ((Mat.resize n 3 d).setCol 0 f0).cols = 3 := a2
  obtain ⟨b1, b2, b3, b4⟩ := Mat.setCol_spec _ a3 1 (by omega) f1
  have hr2 : (((Mat.resize n 3 d).setCol 0 f0).setCol 1 f1).rows = n := b1.trans hr1
  have hc2 : (((Mat.resize n 3 d).setCol 0 f0).setCol 1 f1).cols = 3 := b2.trans hc1
  obtain ⟨c1, c2, c3, c4⟩ := Mat.setCol_spec _ b3 2 (by omega) f2
  refine ⟨c1.trans hr2, c2.trans hc2, c3, ?_⟩
  intro p hp
  simp only [Mat.row3]
  rw [c4 p 0 (by omega) (by omega), c4 p 1 (by omega) (by omega), c4 p 2 (by omega) (by omega),
    b4 p 0 (by omega) (by omega), b4 p 1 (by omega) (by omega),
    a4 p 0 (by omega) (by omega)]
  simp

theorem cross_norm {K : Type} [Inhabited K] (A : Arith K) (x y : Mat K) (n : Nat)
    (hxr : x.rows = n) (hyc : y.cols = 3) :
    (normalizeRows A
      (rowNorms A ((((Mat.resize x.rows y.cols default).setCol 0
        (fun i => A.sub (A.mul (x.coeff i 1) (y.coeff i 2)) (A.mul (x.coeff i 2) (y.coeff i 1)))).setCol 1
        (fun i => A.sub (A.mul (x.coeff i 2) (y.coeff i 0)) (A.mul (x.coeff i 0) (y.coeff i 2)))).setCol 2
        (fun i => A.sub (A.mul (x.coeff i 0) (y.coeff i 1)) (A.mul (x.coeff i 1) (y.coeff i 0)))))
      ((((Mat.resize x.rows y.cols default).setCol 0
        (fun i => A.sub (A.mul (x.coeff i 1) (y.coeff i 2)) (A.mul (x.coeff i 2) (y.coeff i 1)))).setCol 1
        (fun i => A.sub (A.mul (x.coeff i 2) (y.coeff i 0)) (A.mul (x.coeff i 0) (y.coeff i 2)))).setCol 2
        (fun i => A.sub (A.mul (x.coeff i 0) (y.coeff i 1)) (A.mul (x.coeff i 1) (y.coeff i 0))))).rows
      = n ∧
    (normalizeRows A
      (rowNorms A ((((Mat.resize x.rows y.cols default).setCol 0
        (fun i => A.sub (A.mul (x.coeff i 1) (y.coeff i 2)) (A.mul (x.coeff i 2) (y.coeff i 1)))).setCol 1
        (fun i => A.sub (A.mul (x.coeff i 2) (y.coeff i 0)) (A.mul (x.coeff i 0) (y.coeff i 2)))).setCol 2
        (fun i => A.sub (A.mul (x.coeff i 0) (y.coeff i 1)) (A.mul (x.coeff i 1) (y.coeff i 0)))))
      ((((Mat.resize x.rows y.cols default).setCol 0
        (fun i => A.sub (A.mul (x.coeff i 1) (y.coeff i 2)) (A.mul (x.coeff i 2) (y.coeff i 1)))).setCol 1
        (fun i => A.sub (A.mul (x.coeff i 2) (y.coeff i 0)) (A.mul (x.coeff i 0) (y.coeff i 2)))).setCol 2
        (fun i => A.sub (A.mul (x.coeff i 0) (y.coeff i 1)) (A.mul (x.coeff i 1) (y.coeff i 0))))).cols
      = 3 ∧
    (normalizeRows A
      (rowNorms A ((((Mat.resize x.rows y.cols default).setCol 0
        (fun i => A.sub (A.mul (x.coeff i 1) (y.coeff i 2)) (A.mul (x.coeff i 2) (y.coeff i 1)))).setCol 1
        (fun i => A.sub (A.mul (x.coeff i 2) (y.coeff i 0)) (A.mul (x.coeff i 0) (y.coeff i 2)))).setCol 2
        (fun i => A.sub (A.mul (x.coeff i 0) (y.coeff i 1)) (A.mul (x.coeff i 1) (y.coeff i 0)))))
      ((((Mat.resize x.rows y.cols default).setCol 0
        (fun i => A.sub (A.mul (x.coeff i 1) (y.coeff i 2)) (A.mul (x.coeff i 2) (y.coeff i 1)))).setCol 1
        (fun i => A.sub (A.mul (x.coeff i 2) (y.coeff i 0)) (A.mul (x.coeff i 0) (y.coeff i 2)))).setCol 2
        (fun i => A.sub (A.mul (x.coeff i 0) (y.coeff i 1)) (A.mul (x.coeff i 1) (y.coeff i 0))))).WF ∧
    ∀ p, p < n →
      (normalizeRows A
        (rowNorms A ((((Mat.resize x.rows y.cols default).setCol 0
          (fun i => A.sub (A.mul (x.coeff i 1) (y.coeff i 2)) (A.mul (x.coeff i 2) (y.coeff i 1)))).setCol 1
          (fun i => A.sub (A.mul (x.coeff i 2) (y.coeff i 0)) (A.mul (x.coeff i 0) (y.coeff i 2)))).setCol 2
          (fun i => A.sub (A.mul (x.coeff i 0) (y.coeff i 1)) (A.mul (x.coeff i 1) (y.coeff i 0)))))
        ((((Mat.resize x.rows y.cols default).setCol 0
          (fun i => A.sub (A.mul (x.coeff i 1) (y.coeff i 2)) (A.mul (x.coeff i 2) (y.coeff i 1)))).setCol 1
          (fun i => A.sub (A.mul (x.coeff i 2) (y.coeff i 0)) (A.mul (x.coeff i 0) (y.coeff i 2)))).setCol 2
          (fun i => A.sub (A.mul (x.coeff i 0) (y.coeff i 1)) (A.mul (x.coeff i 1) (y.coeff i 0))))).row3 p
        = normalize3 A
            (A.sub (A.mul (x.coeff p 1) (y.coeff p 2)) (A.mul (x.coeff p 2) (y.coeff p 1)),
              A.sub (A.mul (x.coeff p 2) (y.coeff p 0)) (A.mul (x.coeff p 0) (y.coeff p 2)),
              A.sub (A.mul (x.coeff p 0) (y.coeff p 1)) (A.mul (x.coeff p 1) (y.coeff p 0))) := by
  obtain ⟨c1, c2, c3, c4⟩ := cross_stage x.rows y.cols hyc (default : K)
    (fun i => A.sub (A.mul (x.coeff i 1) (y.coeff i 2)) (A.mul (x.coeff i 2) (y.coeff i 1)))
    (fun i => A.sub (A.mul (x.coeff i 2) (y.coeff i 0)) (A.mul (x.coeff i 0) (y.coeff i 2)))
    (fun i => A.sub (A.mul (x.coeff i 0) (y.coeff i 1)) (A.mul (x.coeff i 1) (y.coeff i 0)))
  obtain ⟨n1, n2, n3, n4⟩ := norm_stage A _ c3 c2
  refine ⟨n1.trans (c1.trans hxr), n2, n3, ?_⟩
  intro p hp
  rw [n4 p (by rw [c1, hxr]; exact hp), c4 p (by rw [hxr]; exact hp)]

theorem triangle_normals_spec {K : Type} [Inhabited K] (A : Arith K) (rr : Mat K)
    (tris : Mat Int) :
    (triangle_normals A rr tris).rows = tris.rows ∧ (triangle_normals A rr tris).cols = 3 ∧
    (triangle_normals A rr tris).WF ∧
    ∀ p, p < tris.rows →
      (triangle_normals A rr tris).row3 p =
        normalize3 A
          (faceCross A rr (tris.coeff p 0).toNat (tris.coeff p 1).toNat
            (tris.coeff p 2).toNat) := by
  obtain ⟨g1r, g1c, g1w, g1⟩ := Mat.gather_rows tris.rows
    (fun i c => rr.coeff (tris.coeff i 0).toNat c) (default : K)
  obtain ⟨g2r, g2c, g2w, g2⟩ := Mat.gather_rows tris.rows
    (fun i c => rr.coeff (tris.coeff i 1).toNat c) (default : K)
  obtain ⟨g3r, g3c, g3w, g3⟩ := Mat.gather_rows tris.rows
    (fun i c => rr.coeff (tris.coeff i 2).toNat c) (default : K)
  obtain ⟨x1, x2, x3, x4⟩ := Mat.zipWith_spec A.sub _ _ g2w g1w (g1r.trans g2r.symm)
    (g1c.trans g2c.symm)
  obtain ⟨y1, y2, y3, y4⟩ := Mat.zipWith_spec A.sub _ _ g3w g1w (g1r.trans g3r.symm)
    (g1c.trans g3c.symm)
  obtain ⟨n1, n2, n3, n4⟩ := cross_norm A _ _ tris.rows (x1.trans g2r) (y2.trans g3c)
  refine ⟨n1, n2, n3, ?_⟩
  intro p hp
  have e : (triangle_normals A rr tris).row3 p = _ := n4 p hp
  rw [e]
  have hp2 : p < (forPure tris.rows
      (fun i m => m.setRow i (fun c => rr.coeff (tris.coeff i 1).toNat c))
      (Mat.resize tris.rows 3 (default : K))).rows := by rw [g2r]; exact hp
  have hp3 : p < (forPure tris.rows
      (fun i m => m.setRow i (fun c => rr.coeff (tris.coeff i 2).toNat c))
      (Mat.resize tris.rows 3 (default : K))).rows := by rw [g3r]; exact hp
  rw [x4 p 0 hp2 (by rw [g2c]; decide), x4 p 1 hp2 (by rw [g2c]; decide),
    x4 p 2 hp2 (by rw [g2c]; decide), y4 p 0 hp3 (by rw [g3c]; decide),
    y4 p 1 hp3 (by rw [g3c]; decide), y4 p 2 hp3 (by rw [g3c]; decide),
    g1 p 0 hp (by decide), g1 p 1 hp (by decide), g1 p 2 hp (by decide),
    g2 p 0 hp (by decide), g2 p 1 hp (by decide), g2 p 2 hp (by decide),
    g3 p 0 hp (by decide), g3 p 1 hp (by decide), g3 p 2 hp (by decide)]
  rfl

theorem lastTriangle_lt (tris : Mat Int) (v n p : Nat) (h : lastTriangle tris v n = some p) :
    p < n ∧ (tris.coeff p 0 = (v : Int) ∨ tris.coeff p 1 = (v : Int) ∨ tris.coeff p 2 = (v : Int)) ∧
      ∀ q, p < q → q < n →
        ¬ (tris.coeff q 0 = (v : Int) ∨ tris.coeff q 1 = (v : Int) ∨ tris.coeff q 2 = (v : Int)) := by
  induction n with
  | zero => simp [lastTriangle] at h
  | succ k ih =>
    simp only [lastTriangle] at h
    split at h
    · next hc =>
      cases h
      exact ⟨Nat.lt_succ_self _, hc, fun q h1 h2 => by omega⟩
    · next hc =>
      obtain ⟨h1, h2, h3⟩ := ih h
      refine ⟨by omega, h2, ?_⟩
      intro q hq1 hq2
      by_cases hqk : q = k
      · subst hqk
        exact hc
      · exact h3 q hq1 (by omega)

theorem lastTriangle_none (tris : Mat Int) (v n : Nat) (h : lastTriangle tris v n = none) :
    ∀ q, q < n →
      ¬ (tris.coeff q 0 = (v : Int) ∨ tris.coeff q 1 = (v : Int) ∨ tris.coeff q 2 = (v : Int)) := by
  induction n with
  | zero => intro q hq; omega
  | succ k ih =>
    simp only [lastTriangle] at h
    split at h
    · cases h
    · next hc =>
      intro q hq
      by_cases hqk : q = k
      · subst hqk
        exact hc
      · exact ih h q (by omega)

theorem assigned_normals_spec {K : Type} [Inhabited K] (A : Arith K) (rr : Mat K)
    (tris : Mat Int) (hin : InRange rr tris) :
    (assigned_normals A rr tris).rows = rr.rows ∧ (assigned_normals A rr tris).cols = 3 ∧
    (assigned_normals A rr tris).WF ∧
    ∀ v c, v < rr.rows → c < 3 →
      (assigned_normals A rr tris).coeff v c =
        match lastTriangle tris v tris.rows with
        | none => A.zero
        | some p => (triangle_normals A rr tris).coeff p c := by
  unfold assigned_normals
  refine forPure_inv
    (fun k (t : Mat K) => t.rows = rr.rows ∧ t.cols = 3 ∧ t.WF ∧
      ∀ v c, v < rr.rows → c < 3 →
        t.coeff v c =
          match lastTriangle tris v k with
          | none => A.zero
          | some p => (triangle_normals A rr tris).coeff p c)
    tris.rows _ _
    ⟨rfl, rfl, Mat.resize_WF _ _ _, fun v c hv hc => by
      simp only [lastTriangle]
      exact Mat.coeff_resize _ _ _ hv hc⟩ ?_
  intro k t hk hP
  obtain ⟨p1, p2, p3, p4⟩ := hP
  obtain ⟨i0a, i0b⟩ := hin k 0 hk (by decide)
  obtain ⟨i1a, i1b⟩ := hin k 1 hk (by decide)
  obtain ⟨i2a, i2b⟩ := hin k 2 hk (by decide)
  obtain ⟨a1, a2, a3, a4⟩ := Mat.setRow_spec t p3 (tris.coeff k 0).toNat (by omega)
    (fun c => (triangle_normals A rr tris).coeff k c)
  obtain ⟨b1, b2, b3, b4⟩ := Mat.setRow_spec _ a3 (tris.coeff k 1).toNat (by omega)
    (fun c => (triangle_normals A rr tris).coeff k c)
  obtain ⟨c1, c2, c3, c4⟩ := Mat.setRow_spec _ b3 (tris.coeff k 2).toNat (by omega)
    (fun c => (triangle_normals A rr tris).coeff k c)
  simp only [forPure]
  refine ⟨by omega, by omega, c3, ?_⟩
  intro v c hv hc
  rw [c4 v c (by omega) (by omega), b4 v c (by omega) (by omega), a4 v c (by omega) (by omega),
    p4 v c hv hc]
  simp only [lastTriangle]
  by_cases h2 : v = (tris.coeff k 2).toNat
  · rw [if_pos h2, if_pos (Or.inr (Or.inr (by omega)))]
  · rw [if_neg h2]
    by_cases h1 : v = (tris.coeff k 1).toNat
    · rw [if_pos h1, if_pos (Or.inr (Or.inl (by omega)))]
    · rw [if_neg h1]
      by_cases h0 : v = (tris.coeff k 0).toNat
      · rw [if_pos h0, if_pos (Or.inl (by omega))]
      · rw [if_neg h0, if_neg (by omega)]

theorem compute_normals_row {K : Type} [Inhabited K] (A : Arith K) (rr : Mat K)
    (tris : Mat Int) (hin : InRange rr tris) :
    (compute_normals A rr tris).rows = rr.rows ∧ (compute_normals A rr tris).cols = 3 ∧
    ∀ v, v < rr.rows →
      (compute_normals A rr tris).row3 v = normalize3 A (lastNormal A rr tris v) := by
  obtain ⟨a1, a2, a3, a4⟩ := assigned_normals_spec A rr tris hin
  obtain ⟨t1, _, _, t4⟩ := triangle_normals_spec A rr tris
  obtain ⟨n1, n2, _, n4⟩ := norm_stage A (assigned_normals A rr tris) a3 a2
  rw [assigned_normals_eq]
  refine ⟨n1.trans a1, n2, ?_⟩
  intro v hv
  rw [n4 v (by rw [a1]; exact hv)]
  congr 1
  simp only [Mat.row3, lastNormal]
  rw [a4 v 0 hv (by decide), a4 v 1 hv (by decide), a4 v 2 hv (by decide)]
  cases h : lastTriangle tris v tris.rows with
  | none => rfl
  | some p =>
    have hp := (lastTriangle_lt tris v tris.rows p h).1
    have := t4 p hp
    simp only [Mat.row3] at this
    simpa using this

/-! ### Exact arithmetic -/

theorem norm3_exact (A : Arith ℝ) (hA : ExactArith A) (n : ℝ × ℝ × ℝ) :
    norm3 A n = Real.sqrt (n.1 * n.1 + n.2.1 * n.2.1 + n.2.2 * n.2.2) := by
  simp only [norm3, hA.sqrt_eq, hA.add_eq, hA.mul_eq]

theorem normalize3_of_nonzero {K : Type} (A : Arith K) (n : K × K × K)
    (h : A.nonzero (norm3 A n) = true) :
    normalize3 A n =
      (A.div n.1 (norm3 A n), A.div n.2.1 (norm3 A n), A.div n.2.2 (norm3 A n)) := by
  simp only [normalize3, h, if_true]

theorem normalize3_of_zero {K : Type} (A : Arith K) (n : K × K × K)
    (h : ¬ A.nonzero (norm3 A n) = true) : normalize3 A n = n := by
  simp only [normalize3, h]
  rfl

theorem sq_sum_eq_zero (a b c : ℝ) (h : a * a + b * b + c * c = 0) : a = 0 ∧ b = 0 ∧ c = 0 := by
  have ha := mul_self_nonneg a
  have hb := mul_self_nonneg b
  have hc := mul_self_nonneg c
  refine ⟨?_, ?_, ?_⟩
  · exact mul_self_eq_zero.mp (by linarith)
  · exact mul_self_eq_zero.mp (by linarith)
  · exact mul_self_eq_zero.mp (by linarith)

theorem normalize3_exact (A : Arith ℝ) (hA : ExactArith A) (n : ℝ × ℝ × ℝ) :
    (norm3 A n ≠ 0 ∧
        normalize3 A n = (n.1 / norm3 A n, n.2.1 / norm3 A n, n.2.2 / norm3 A n) ∧
        norm3 A (normalize3 A n) = 1) ∨
      (norm3 A n = 0 ∧ n = (0, 0, 0) ∧ normalize3 A n = (0, 0, 0)) := by
  obtain ⟨a, b, c⟩ := n
  have hS : 0 ≤ a * a + b * b + c * c :=
    add_nonneg (add_nonneg (mul_self_nonneg a) (mul_self_nonneg b)) (mul_self_nonneg c)
  have hnorm : norm3 A (a, b, c) = Real.sqrt (a * a + b * b + c * c) :=
    norm3_exact A hA (a, b, c)
  by_cases hz : norm3 A (a, b, c) = 0
  · right
    have h0 : a * a + b * b + c * c = 0 := by
      rw [hnorm] at hz
      exact le_antisymm (Real.sqrt_eq_zero'.mp hz) hS
    obtain ⟨h1, h2, h3⟩ := sq_sum_eq_zero a b c h0
    have hnz : ¬ (A.nonzero (norm3 A (a, b, c)) = true) := by
      rw [hA.nonzero_iff]
      exact fun h => h hz
    refine ⟨hz, by rw [h1, h2, h3], ?_⟩
    rw [normalize3_of_zero A _ hnz, h1, h2, h3]
  · left
    have hnz : A.nonzero (norm3 A (a, b, c)) = true := (hA.nonzero_iff _).mpr hz
    have hu : normalize3 A (a, b, c) =
        (a / norm3 A (a, b, c), b / norm3 A (a, b, c), c / norm3 A (a, b, c)) := by
      rw [normalize3_of_nonzero A _ hnz]
      simp only [hA.div_eq]
    refine ⟨hz, hu, ?_⟩
    rw [hu, norm3_exact A hA]
    have hsq : norm3 A (a, b, c) * norm3 A (a, b, c) = a * a + b * b + c * c := by
      rw [hnorm]
      exact Real.mul_self_sqrt hS
    generalize norm3 A (a, b, c) = l at hz hsq
    have : a / l * (a / l) + b / l * (b / l) + c / l * (c / l) = 1 := by
      field_simp
      linarith
    simp only [this, Real.sqrt_one]

theorem normalize3_zero (A : Arith ℝ) (hA : ExactArith A) :
    normalize3 A ((0 : ℝ), (0 : ℝ), (0 : ℝ)) = (0, 0, 0) := by
  rcases normalize3_exact A hA (0, 0, 0) with ⟨h, _, _⟩ | ⟨_, _, h⟩
  · exfalso
    apply h
    rw [norm3_exact A hA]
    simp
  · exact h

/-- Over exact arithmetic normalising a normalised vector changes nothing. -/
theorem normalize3_idem (A : Arith ℝ) (hA : ExactArith A) (n : ℝ × ℝ × ℝ) :
    normalize3 A (normalize3 A n) = normalize3 A n := by
  rcases normalize3_exact A hA n with ⟨_, _, h1⟩ | ⟨_, _, h0⟩
  · have hnz : A.nonzero (norm3 A (normalize3 A n)) = true := by
      rw [hA.nonzero_iff, h1]
      exact one_ne_zero
    have e := normalize3_of_nonzero A (normalize3 A n) hnz
    rw [e, h1]
    simp only [hA.div_eq, div_one]
  · rw [h0]
    exact normalize3_zero A hA

theorem lastNormal_exact (A : Arith ℝ) (hA : ExactArith A) (rr : Mat ℝ) (tris : Mat Int)
    (v : Nat) : normalize3 A (lastNormal A rr tris v) = lastNormal A rr tris v := by
  unfold lastNormal
  cases lastTriangle tris v tris.rows with
  | none =>
    simp only [hA.zero_eq]
    exact normalize3_zero A hA
  | some p => exact normalize3_idem A hA _

theorem fieldArith_exact :
    ExactArith (fieldArith Real.sqrt (fun x => decide (x ≠ 0))) :=
  { zero_eq := rfl
    add_eq := fun _ _ => rfl
    sub_eq := fun _ _ => rfl
    mul_eq := fun _ _ => rfl
    div_eq := fun _ _ => rfl
    sqrt_eq := fun _ => rfl
    nonzero_iff := fun x => by simp [fieldArith] }

theorem squareTriangles_inRange : InRange (scaledSquare ℝ) squareTriangles := by
  intro p j hp hj
  have hp2 : p < 2 := hp
  have hr : ((scaledSquare ℝ).rows : Int) = 4 := rfl
  rw [hr]
  interval_cases p <;> interval_cases j <;> decide

/-- C12: over exact real arithmetic, for in-range triangles, the output normal
of every vertex `v` is the normalised cross product `(rr[b]-rr[a]) x
(rr[c]-rr[a])` of the triangle `(a,b,c)` with the highest index among the
rows of `tris` that contain `v`, and the zero vector when no row contains `v`
(`lastNormal`); `lastTriangle` is that highest index. -/
theorem compute_normals_last_triangle (A : Arith ℝ) (hA : ExactArith A) (rr : Mat ℝ)
    (tris : Mat Int) (hin : InRange rr tris) (v : Nat) (hv : v < rr.rows) :
    (compute_normals A rr tris).row3 v = lastNormal A rr tris v ∧
    (∀ p, lastTriangle tris v tris.rows = some p ↔
      (p < tris.rows ∧
        (tris.coeff p 0 = (v : Int) ∨ tris.coeff p 1 = (v : Int) ∨ tris.coeff p 2 = (v : Int)) ∧
        ∀ q, p < q → q < tris.rows →
          ¬ (tris.coeff q 0 = (v : Int) ∨ tris.coeff q 1 = (v : Int) ∨
            tris.coeff q 2 = (v : Int)))) ∧
    (lastTriangle tris v tris.rows = none ↔
      ∀ q, q < tris.rows →
        ¬ (tris.coeff q 0 = (v : Int) ∨ tris.coeff q 1 = (v : Int) ∨
          tris.coeff q 2 = (v : Int))) := by
  refine ⟨?_, ?_, ?_⟩
  · rw [(compute_normals_row A rr tris hin).2.2 v hv]
    exact lastNormal_exact A hA rr tris v
  · intro p
    constructor
    · exact lastTriangle_lt tris v tris.rows p
    · rintro ⟨h1, h2, h3⟩
      cases h : lastTriangle tris v tris.rows with
      | none => exact absurd h2 (lastTriangle_none tris v tris.rows h p h1)
      | some q =>
        obtain ⟨q1, q2, q3⟩ := lastTriangle_lt tris v tris.rows q h
        rcases Nat.lt_trichotomy p q with hlt | heq | hgt
        · exact absurd q2 (h3 q hlt q1)
        · rw [heq]
        · exact absurd h2 (q3 p hgt h1)
  · constructor
    · exact lastTriangle_none tris v tris.rows
    · intro hnone
      cases h : lastTriangle tris v tris.rows with
      | none => rfl
      | some q =>
        obtain ⟨q1, q2, _⟩ := lastTriangle_lt tris v tris.rows q h
        exact absurd q2 (hnone q q1)

theorem compute_normals_last_triangle_witness :
    (compute_normals (fieldArith Real.sqrt (fun x => decide (x ≠ 0))) (scaledSquare ℝ)
        squareTriangles).row3 0 =
      lastNormal (fieldArith Real.sqrt (fun x => decide (x ≠ 0))) (scaledSquare ℝ)
        squareTriangles 0 ∧
    (∀ p, lastTriangle squareTriangles 0 squareTriangles.rows = some p ↔
      (p < squareTriangles.rows ∧
        (squareTriangles.coeff p 0 = ((0 : Nat) : Int) ∨
          squareTriangles.coeff p 1 = ((0 : Nat) : Int) ∨
          squareTriangles.coeff p 2 = ((0 : Nat) : Int)) ∧
        ∀ q, p < q → q < squareTriangles.rows →
          ¬ (squareTriangles.coeff q 0 = ((0 : Nat) : Int) ∨
            squareTriangles.coeff q 1 = ((0 : Nat) : Int) ∨
            squareTriangles.coeff q 2 = ((0 : Nat) : Int)))) ∧
    (lastTriangle squareTriangles 0 squareTriangles.rows = none ↔
      ∀ q, q < squareTriangles.rows →
        ¬ (squareTriangles.coeff q 0 = ((0 : Nat) : Int) ∨
          squareTriangles.coeff q 1 = ((0 : Nat) : Int) ∨
          squareTriangles.coeff q 2 = ((0 : Nat) : Int))) :=
  compute_normals_last_triangle (fieldArith Real.sqrt (fun x => decide (x ≠ 0)))
    fieldArith_exact (scaledSquare ℝ) squareTriangles squareTriangles_inRange 0 (by decide)

/-- C13: over exact real arithmetic, for in-range triangles, the output of
`compute_normals` has as many rows as the vertex matrix, and every row has
Euclidean length exactly 1 or is the zero vector. -/
theorem compute_normals_unit_or_zero (A : Arith ℝ) (hA : ExactArith A) (rr : Mat ℝ)
    (tris : Mat Int) (hin : InRange rr tris) :
    (compute_normals A rr tris).rows = rr.rows ∧
    ∀ v, v < rr.rows →
      Real.sqrt ((compute_normals A rr tris).coeff v 0 * (compute_normals A rr tris).coeff v 0 +
          (compute_normals A rr tris).coeff v 1 * (compute_normals A rr tris).coeff v 1 +
          (compute_normals A rr tris).coeff v 2 * (compute_normals A rr tris).coeff v 2) = 1 ∨
        (compute_normals A rr tris).row3 v = (0, 0, 0) := by
  obtain ⟨h1, _, h3⟩ := compute_normals_row A rr tris hin
  refine ⟨h1, ?_⟩
  intro v hv
  have hrow := h3 v hv
  rw [lastNormal_exact A hA] at hrow
  have hn : Real.sqrt ((compute_normals A rr tris).coeff v 0 *
        (compute_normals A rr tris).coeff v 0 +
      (compute_normals A rr tris).coeff v 1 * (compute_normals A rr tris).coeff v 1 +
      (compute_normals A rr tris).coeff v 2 * (compute_normals A rr tris).coeff v 2) =
      norm3 A ((compute_normals A rr tris).row3 v) := by
    rw [norm3_exact A hA]
    rfl
  rw [hn, hrow]
  unfold lastNormal
  cases lastTriangle tris v tris.rows with
  | none =>
    right
    simp only [hA.zero_eq]
  | some p =>
    simp only
    rcases normalize3_exact A hA
      (faceCross A rr (tris.coeff p 0).toNat (tris.coeff p 1).toNat (tris.coeff p 2).toNat) with
      ⟨_, _, h⟩ | ⟨_, _, h⟩
    · exact Or.inl h
    · exact Or.inr h

theorem compute_normals_unit_or_zero_witness :
    (compute_normals (fieldArith Real.sqrt (fun x => decide (x ≠ 0))) (scaledSquare ℝ)
        squareTriangles).rows = (scaledSquare ℝ).rows ∧
    ∀ v, v < (scaledSquare ℝ).rows →
      Real.sqrt
          ((compute_normals (fieldArith Real.sqrt (fun x => decide (x ≠ 0))) (scaledSquare ℝ)
              squareTriangles).coeff v 0 *
            (compute_normals (fieldArith Real.sqrt (fun x => decide (x ≠ 0))) (scaledSquare ℝ)
              squareTriangles).coeff v 0 +
          (compute_normals (fieldArith Real.sqrt (fun x => decide (x ≠ 0))) (scaledSquare ℝ)
              squareTriangles).coeff v 1 *
            (compute_normals (fieldArith Real.sqrt (fun x => decide (x ≠ 0))) (scaledSquare ℝ)
              squareTriangles).coeff v 1 +
          (compute_normals (fieldArith Real.sqrt (fun x => decide (x ≠ 0))) (scaledSquare ℝ)
              squareTriangles).coeff v 2 *
            (compute_normals (fieldArith Real.sqrt (fun x => decide (x ≠ 0))) (scaledSquare ℝ)
              squareTriangles).coeff v 2) = 1 ∨
        (compute_normals (fieldArith Real.sqrt (fun x => decide (x ≠ 0))) (scaledSquare ℝ)
          squareTriangles).row3 v = (0, 0, 0) :=
  compute_normals_unit_or_zero (fieldArith Real.sqrt (fun x => decide (x ≠ 0)))
    fieldArith_exact (scaledSquare ℝ) squareTriangles squareTriangles_inRange

theorem normalize3_axis (A : Arith ℝ) (hA : ExactArith A) (z : ℝ) :
    (0 < z → normalize3 A (0, 0, z) = (0, 0, 1)) ∧
    (z < 0 → normalize3 A (0, 0, z) = (0, 0, -1)) := by
  have hnorm : norm3 A ((0 : ℝ), (0 : ℝ), z) = |z| := by
    rw [norm3_exact A hA]
    simp only [mul_zero, zero_add]
    exact Real.sqrt_mul_self_eq_abs z
  constructor
  · intro hz
    have hne : norm3 A ((0 : ℝ), (0 : ℝ), z) ≠ 0 := by
      rw [hnorm]
      exact abs_ne_zero.mpr (ne_of_gt hz)
    rw [normalize3_of_nonzero A _ ((hA.nonzero_iff _).mpr hne), hnorm, abs_of_pos hz]
    simp only [hA.div_eq, zero_div, div_self (ne_of_gt hz)]
  · intro hz
    have hne : norm3 A ((0 : ℝ), (0 : ℝ), z) ≠ 0 := by
      rw [hnorm]
      exact abs_ne_zero.mpr (ne_of_lt hz)
    rw [normalize3_of_nonzero A _ ((hA.nonzero_iff _).mpr hne), hnorm, abs_of_neg hz]
    simp only [hA.div_eq, zero_div, div_neg, div_self (ne_of_lt hz), neg_zero]

/-- Over exact real arithmetic, for a mesh with in-range triangles whose
vertices all have `z = 0` and whose triangles all have a non-zero cross
product, every vertex that some triangle contains gets the normal `(0,0,1)`
or `(0,0,-1)`. -/
theorem planar_normals_exact (A : Arith ℝ) (hA : ExactArith A) (rr : Mat ℝ) (tris : Mat Int)
    (hin : InRange rr tris) (hz : ∀ i, i < rr.rows → rr.coeff i 2 = 0)
    (hnd : ∀ p, p < tris.rows →
      faceCross A rr (tris.coeff p 0).toNat (tris.coeff p 1).toNat (tris.coeff p 2).toNat ≠
        (0, 0, 0))
    (v : Nat) (hv : v < rr.rows) (p : Nat) (hp : p < tris.rows)
    (href : tris.coeff p 0 = (v : Int) ∨ tris.coeff p 1 = (v : Int) ∨ tris.coeff p 2 = (v : Int)) :
    (compute_normals A rr tris).row3 v = (0, 0, 1) ∨
      (compute_normals A rr tris).row3 v = (0, 0, -1) := by
  rw [(compute_normals_row A rr tris hin).2.2 v hv, lastNormal_exact A hA]
  unfold lastNormal
  cases h : lastTriangle tris v tris.rows with
  | none => exact absurd href (lastTriangle_none tris v tris.rows h p hp)
  | some q =>
    simp only
    obtain ⟨hq, _, _⟩ := lastTriangle_lt tris v tris.rows q h
    obtain ⟨a0, a1⟩ := hin q 0 hq (by decide)
    obtain ⟨b0, b1⟩ := hin q 1 hq (by decide)
    obtain ⟨c0, c1⟩ := hin q 2 hq (by decide)
    have za := hz (tris.coeff q 0).toNat (by omega)
    have zb := hz (tris.coeff q 1).toNat (by omega)
    have zc := hz (tris.coeff q 2).toNat (by omega)
    have hne := hnd q hq
    have hcross : faceCross A rr (tris.coeff q 0).toNat (tris.coeff q 1).toNat
        (tris.coeff q 2).toNat =
        (0, 0, (faceCross A rr (tris.coeff q 0).toNat (tris.coeff q 1).toNat
          (tris.coeff q 2).toNat).2.2) := by
      simp only [faceCross, hA.sub_eq, hA.mul_eq, za, zb, zc, sub_self, mul_zero, zero_mul]
    rw [hcross] at hne ⊢
    generalize (faceCross A rr (tris.coeff q 0).toNat (tris.coeff q 1).toNat
      (tris.coeff q 2).toNat).2.2 = nz at hne
    have hnz : nz ≠ 0 := fun h0 => hne (by rw [h0])
    rcases lt_or_gt_of_ne hnz with hneg | hpos
    · exact Or.inr ((normalize3_axis A hA nz).2 hneg)
    · exact Or.inl ((normalize3_axis A hA nz).1 hpos)

/-! ## Curvature flag, hemisphere field and kind -/

theorem finishRead_curv (ops : FloatOps) (path : String) (p : Surface) (verts : Mat F32)
    (faces : Mat Int) (e : Exit) (s : Surface)
    (h : finishRead ops path p verts faces = .ok (e, s)) :
    s.curv = p.curv ∧ (e = .hemiUnresolved ∨ e = .loaded) := by
  obtain ⟨_, _, _, _, _, _, _, _, _, _, hcurv, hc⟩ := finishRead_inv ops path p verts faces e s h
  rcases hc with hc | hc
  · exact ⟨hcurv, Or.inr hc.1⟩
  · exact ⟨hcurv, Or.inl hc.1⟩

/-- C23: the outcome of `Surface::read`, return value and final surface, is
the same for `p_bLoadCurvature = true` and `p_bLoadCurvature = false`, and
after every call that returns the curvature vector `curv` of the surface has
length 0. -/
theorem read_ignores_curvature_flag (ops : FloatOps) (file : Option (List Byte))
    (path : String) (s0 : Surface) (lc : Bool) (e : Exit) (s : Surface)
    (h : read ops file path s0 lc = .ok (e, s)) :
    read ops file path s0 true = read ops file path s0 false ∧
    read ops file path s0 true = .ok (e, s) ∧ read ops file path s0 false = .ok (e, s) ∧
    s.curv.length = 0 := by
  have hflag : ∀ b1 b2 : Bool, read ops file path s0 b1 = read ops file path s0 b2 :=
    fun _ _ => rfl
  refine ⟨hflag _ _, (hflag true lc).trans h, (hflag false lc).trans h, ?_⟩
  rcases read_ok_cases ops file path s0 lc e s h with ⟨_, h2⟩ | ⟨m, _, h2⟩ | ⟨verts, faces, hf⟩
  · rw [h2]; rfl
  · rw [h2]; rfl
  · rw [(finishRead_curv ops path s0.clear verts faces e s hf).1]; rfl

theorem read_ignores_curvature_flag_witness :
    read sampleOps (some [1, 2, 3, 4]) "lh.white" Surface.new true =
      read sampleOps (some [1, 2, 3, 4]) "lh.white" Surface.new false ∧
    read sampleOps (some [1, 2, 3, 4]) "lh.white" Surface.new true =
      .ok (Exit.badMagic 66051, Surface.new.clear) ∧
    read sampleOps (some [1, 2, 3, 4]) "lh.white" Surface.new false =
      .ok (Exit.badMagic 66051, Surface.new.clear) ∧
    Surface.new.clear.curv.length = 0 :=
  read_ignores_curvature_flag sampleOps (some [1, 2, 3, 4]) "lh.white" Surface.new true
    (Exit.badMagic 66051) Surface.new.clear rfl

/-- C24: after every call of `Surface::read` that returns, `hemi` is -1, 0 or
1, the return value is `true` exactly when `hemi` is 0 or 1, and the kind
`surf` is empty unless the return value is `true`. -/
theorem read_hemi_and_kind (ops : FloatOps) (file : Option (List Byte)) (path : String)
    (s0 : Surface) (lc : Bool) (e : Exit) (s : Surface)
    (h : read ops file path s0 lc = .ok (e, s)) :
    (s.hemi = -1 ∨ s.hemi = 0 ∨ s.hemi = 1) ∧
    (e.ret = true ↔ (s.hemi = 0 ∨ s.hemi = 1)) ∧
    (e.ret = true ∨ s.surf = "") := by
  rcases read_ok_cases ops file path s0 lc e s h with ⟨h1, h2⟩ | ⟨m, h1, h2⟩ | ⟨verts, faces, hf⟩
  · subst h1; subst h2
    exact ⟨Or.inl rfl, by simp [Exit.ret, Surface.clear], Or.inr rfl⟩
  · subst h1; subst h2
    exact ⟨Or.inl rfl, by simp [Exit.ret, Surface.clear], Or.inr rfl⟩
  · obtain ⟨_, hc | hc⟩ := finishRead_cases ops path s0.clear verts faces e s hf
    · obtain ⟨he, hh⟩ := hc
      subst he
      refine ⟨Or.inr hh, ?_, Or.inl rfl⟩
      simp only [Exit.ret, true_iff]
      exact hh
    · obtain ⟨he, hh, hs⟩ := hc
      subst he
      refine ⟨Or.inl hh, ?_, Or.inr (hs.trans rfl)⟩
      rw [hh]
      simp [Exit.ret]

theorem read_hemi_and_kind_witness :
    ((Surface.new.clear).hemi = -1 ∨ (Surface.new.clear).hemi = 0 ∨
      (Surface.new.clear).hemi = 1) ∧
    (Exit.openFailed.ret = true ↔
      ((Surface.new.clear).hemi = 0 ∨ (Surface.new.clear).hemi = 1)) ∧
    (Exit.openFailed.ret = true ∨ (Surface.new.clear).surf = "") :=
  read_hemi_and_kind sampleOps none "rh.white" Surface.new false Exit.openFailed
    Surface.new.clear rfl

/-! ## Zero normals and the second normalisation -/

/-- Two well-formed matrices of the same size with the same coefficients are
equal. -/
theorem Mat.ext_coeff {α : Type} [Inhabited α] (a b : Mat α) (ha : a.WF) (hb : b.WF)
    (hr : a.rows = b.rows) (hc : a.cols = b.cols)
    (h : ∀ i j, i < a.rows → j < a.cols → a.coeff i j = b.coeff i j) : a = b := by
  obtain ⟨ar, ac, ad⟩ := a
  obtain ⟨br, bc, bd⟩ := b
  simp only at hr hc
  subst hr; subst hc
  have hal : ad.length = ar * ac := ha
  have hbl : bd.length = ar * ac := hb
  have hd : ad = bd := by
    apply List.ext_getElem (by rw [hal, hbl])
    intro k h1 h2
    have hk : k < ar * ac := by rw [← hal]; exact h1
    have hpos : 0 < ar := by
      rcases Nat.eq_zero_or_pos ar with h0 | h0
      · rw [h0, Nat.zero_mul] at hk
        omega
      · exact h0
    have hi : k % ar < ar := Nat.mod_lt _ hpos
    have hj : k / ar < ac := by
      rw [Nat.div_lt_iff_lt_mul hpos, Nat.mul_comm]
      exact hk
    have hidx : k % ar + ar * (k / ar) = k := Nat.mod_add_div k ar
    have e := h (k % ar) (k / ar) hi hj
    simp only [Mat.coeff, hidx, List.getD_eq_getElem?_getD, List.getElem?_eq_getElem h1,
      List.getElem?_eq_getElem h2, Option.getD_some] at e
    exact e
  rw [hd]

theorem assigned_normals_row {K : Type} [Inhabited K] (A : Arith K) (rr : Mat K)
    (tris : Mat Int) (hin : InRange rr tris) (v : Nat) (hv : v < rr.rows) :
    (assigned_normals A rr tris).row3 v = lastNormal A rr tris v := by
  obtain ⟨_, _, _, a4⟩ := assigned_normals_spec A rr tris hin
  obtain ⟨_, _, _, t4⟩ := triangle_normals_spec A rr tris
  simp only [Mat.row3, lastNormal]
  rw [a4 v 0 hv (by decide), a4 v 1 hv (by decide), a4 v 2 hv (by decide)]
  cases h : lastTriangle tris v tris.rows with
  | none => rfl
  | some p =>
    have hp := (lastTriangle_lt tris v tris.rows p h).1
    have := t4 p hp
    simp only [Mat.row3] at this
    simpa using this

theorem lastTriangle_unique (tris : Mat Int) (v n p q : Nat)
    (h : lastTriangle tris v n = some q) (hp : p < n)
    (hc : tris.coeff p 0 = (v : Int) ∨ tris.coeff p 1 = (v : Int) ∨ tris.coeff p 2 = (v : Int))
    (hmax : ∀ r, p < r → r < n →
      ¬ (tris.coeff r 0 = (v : Int) ∨ tris.coeff r 1 = (v : Int) ∨ tris.coeff r 2 = (v : Int))) :
    p = q := by
  obtain ⟨q1, q2, q3⟩ := lastTriangle_lt tris v n q h
  rcases Nat.lt_trichotomy p q with hlt | heq | hgt
  · exact absurd q2 (hmax q hlt q1)
  · exact heq
  · exact absurd hc (q3 p hgt hp)

/-- Over exact arithmetic the normalised vector is zero exactly when the
vector is. -/
theorem normalize3_eq_zero_iff (A : Arith ℝ) (hA : ExactArith A) (n : ℝ × ℝ × ℝ) :
    normalize3 A n = (0, 0, 0) ↔ n = (0, 0, 0) := by
  rcases normalize3_exact A hA n with ⟨h1, _, h3⟩ | ⟨_, h2, h3⟩
  · constructor
    · intro h
      exfalso
      rw [h, norm3_exact A hA] at h3
      simp at h3
    · intro h
      exfalso
      apply h1
      rw [h, norm3_exact A hA]
      simp
  · exact ⟨fun _ => h2, fun _ => h3⟩

/-- C21: over exact real arithmetic, for in-range triangles, `compute_normals`
returns a matrix with one row per vertex, and the normal of a vertex `v` is
the zero vector exactly when no row of `tris` contains `v` or the row with the
highest index that contains `v` has the raw cross product zero. The function
has no failure exit: a triangle with cross product zero is left undivided. -/
theorem compute_normals_zero_iff (A : Arith ℝ) (hA : ExactArith A) (rr : Mat ℝ)
    (tris : Mat Int) (hin : InRange rr tris) (v : Nat) (hv : v < rr.rows) :
    (compute_normals A rr tris).rows = rr.rows ∧ (compute_normals A rr tris).cols = 3 ∧
    ((compute_normals A rr tris).row3 v = (0, 0, 0) ↔
      ((∀ q, q < tris.rows →
          ¬ (tris.coeff q 0 = (v : Int) ∨ tris.coeff q 1 = (v : Int) ∨
            tris.coeff q 2 = (v : Int))) ∨
        ∃ p, p < tris.rows ∧
          (tris.coeff p 0 = (v : Int) ∨ tris.coeff p 1 = (v : Int) ∨
            tris.coeff p 2 = (v : Int)) ∧
          (∀ q, p < q → q < tris.rows →
            ¬ (tris.coeff q 0 = (v : Int) ∨ tris.coeff q 1 = (v : Int) ∨
              tris.coeff q 2 = (v : Int))) ∧
          faceCross A rr (tris.coeff p 0).toNat (tris.coeff p 1).toNat
            (tris.coeff p 2).toNat = (0, 0, 0))) := by
  obtain ⟨h1, h2, h3⟩ := compute_normals_row A rr tris hin
  refine ⟨h1, h2, ?_⟩
  rw [h3 v hv, lastNormal_exact A hA]
  unfold lastNormal
  cases h : lastTriangle tris v tris.rows with
  | none =>
    simp only [hA.zero_eq, true_iff]
    exact Or.inl (lastTriangle_none tris v tris.rows h)
  | some p =>
    simp only
    rw [normalize3_eq_zero_iff A hA]
    obtain ⟨p1, p2, p3⟩ := lastTriangle_lt tris v tris.rows p h
    constructor
    · intro hz
      exact Or.inr ⟨p, p1, p2, p3, hz⟩
    · rintro (hnone | ⟨q, q1, q2, q3, hz⟩)
      · exact absurd p2 (hnone p p1)
      · have e := lastTriangle_unique tris v tris.rows q p h q1 q2 q3
        rw [← e]
        exact hz

theorem compute_normals_zero_iff_witness :
    (compute_normals (fieldArith Real.sqrt (fun x => decide (x ≠ 0))) (scaledSquare ℝ)
        squareTriangles).rows = (scaledSquare ℝ).rows ∧
    (compute_normals (fieldArith Real.sqrt (fun x => decide (x ≠ 0))) (scaledSquare ℝ)
        squareTriangles).cols = 3 ∧
    ((compute_normals (fieldArith Real.sqrt (fun x => decide (x ≠ 0))) (scaledSquare ℝ)
        squareTriangles).row3 1 = (0, 0, 0) ↔
      ((∀ q, q < squareTriangles.rows →
          ¬ (squareTriangles.coeff q 0 = ((1 : Nat) : Int) ∨
            squareTriangles.coeff q 1 = ((1 : Nat) : Int) ∨
            squareTriangles.coeff q 2 = ((1 : Nat) : Int))) ∨
        ∃ p, p < squareTriangles.rows ∧
          (squareTriangles.coeff p 0 = ((1 : Nat) : Int) ∨
            squareTriangles.coeff p 1 = ((1 : Nat) : Int) ∨
            squareTriangles.coeff p 2 = ((1 : Nat) : Int)) ∧
          (∀ q, p < q → q < squareTriangles.rows →
            ¬ (squareTriangles.coeff q 0 = ((1 : Nat) : Int) ∨
              squareTriangles.coeff q 1 = ((1 : Nat) : Int) ∨
              squareTriangles.coeff q 2 = ((1 : Nat) : Int))) ∧
          faceCross (fieldArith Real.sqrt (fun x => decide (x ≠ 0))) (scaledSquare ℝ)
            (squareTriangles.coeff p 0).toNat (squareTriangles.coeff p 1).toNat
            (squareTriangles.coeff p 2).toNat = (0, 0, 0))) :=
  compute_normals_zero_iff (fieldArith Real.sqrt (fun x => decide (x ≠ 0))) fieldArith_exact
    (scaledSquare ℝ) squareTriangles squareTriangles_inRange 1 (by decide)

/-- C27: over exact real arithmetic, for in-range triangles, the second
normalisation pass of `compute_normals` returns the matrix it is given, and
`compute_normals` equals `assigned_normals`, the same function without the
final normalisation. -/
theorem compute_normals_second_pass_identity (A : Arith ℝ) (hA : ExactArith A) (rr : Mat ℝ)
    (tris : Mat Int) (hin : InRange rr tris) :
    normalizeRows A (rowNorms A (assigned_normals A rr tris)) (assigned_normals A rr tris) =
      assigned_normals A rr tris ∧
    compute_normals A rr tris = assigned_normals A rr tris := by
  obtain ⟨a1, a2, a3, _⟩ := assigned_normals_spec A rr tris hin
  obtain ⟨n1, n2, n3, n4⟩ := norm_stage A (assigned_normals A rr tris) a3 a2
  have key : normalizeRows A (rowNorms A (assigned_normals A rr tris))
      (assigned_normals A rr tris) = assigned_normals A rr tris := by
    apply Mat.ext_coeff _ _ n3 a3 n1 (n2.trans a2.symm)
    intro i j hi hj
    rw [n1] at hi
    rw [n2] at hj
    have hrow := n4 i hi
    rw [a1] at hi
    rw [assigned_normals_row A rr tris hin i hi, lastNormal_exact A hA,
      ← assigned_normals_row A rr tris hin i hi] at hrow
    simp only [Mat.row3, Prod.mk.injEq] at hrow
    interval_cases j
    · exact hrow.1
    · exact hrow.2.1
    · exact hrow.2.2
  exact ⟨key, (assigned_normals_eq A rr tris).trans key⟩

theorem compute_normals_second_pass_identity_witness :
    normalizeRows (fieldArith Real.sqrt (fun x => decide (x ≠ 0)))
        (rowNorms (fieldArith Real.sqrt (fun x => decide (x ≠ 0)))
          (assigned_normals (fieldArith Real.sqrt (fun x => decide (x ≠ 0))) (scaledSquare ℝ)
            squareTriangles))
        (assigned_normals (fieldArith Real.sqrt (fun x => decide (x ≠ 0))) (scaledSquare ℝ)
          squareTriangles) =
      assigned_normals (fieldArith Real.sqrt (fun x => decide (x ≠ 0))) (scaledSquare ℝ)
        squareTriangles ∧
    compute_normals (fieldArith Real.sqrt (fun x => decide (x ≠ 0))) (scaledSquare ℝ)
        squareTriangles =
      assigned_normals (fieldArith Real.sqrt (fun x => decide (x ≠ 0))) (scaledSquare ℝ)
        squareTriangles :=
  compute_normals_second_pass_identity (fieldArith Real.sqrt (fun x => decide (x ≠ 0)))
    fieldArith_exact (scaledSquare ℝ) squareTriangles squareTriangles_inRange

/-! ## The element accesses of the reshape loop -/

/-- A projection that commutes with the loop body commutes with the loop. -/
theorem forPure_map {σ τ : Type} (f : τ → σ) (n : Nat) (body : Nat → σ → σ)
    (body2 : Nat → τ → τ) (h : ∀ i t, f (body2 i t) = body i (f t)) (t : τ) :
    f (forPure n body2 t) = forPure n body (f t) := by
  induction n with
  | zero => rfl
  | succ k ih =>
    show f (body2 k (forPure k body2 t)) = body k (forPure k body (f t))
    rw [h, ih]

theorem reshapeQuadsTraced_fst (flat : List Int) (nquad : Nat) :
    (reshapeQuadsTraced flat nquad).1 = reshapeQuads flat nquad := by
  unfold reshapeQuadsTraced reshapeQuads
  simp only
  congr 2
  apply forPure_map Prod.fst
  intro j t
  apply forPure_map Prod.fst
  intro i u
  rfl

theorem reshapeQuadsTraced_snd (flat : List Int) (nquad : Nat) :
    (reshapeQuadsTraced flat nquad).2 = (List.range flat.length).map (fun i => (i, 0, i)) := by
  have hbody : (reshapeQuadsTraced flat nquad).2 =
      (forPure flat.length
        (fun i (s : (Mat Int × Nat) × List (Nat × Nat × Nat)) =>
          ((s.1.1.set i 0 ((⟨flat.length, 1, flat⟩ : Mat Int).coeff s.1.2 0), s.1.2 + 1),
            s.2 ++ [(i, 0, s.1.2)]))
        (((Mat.resize 4 nquad 0 : Mat Int), 0), ([] : List (Nat × Nat × Nat)))).2 := rfl
  rw [hbody]
  have key := forPure_inv
    (fun k (s : (Mat Int × Nat) × List (Nat × Nat × Nat)) =>
      s.1.2 = k ∧ s.2 = (List.range k).map (fun i => (i, 0, i)))
    flat.length
    (fun i (s : (Mat Int × Nat) × List (Nat × Nat × Nat)) =>
      ((s.1.1.set i 0 ((⟨flat.length, 1, flat⟩ : Mat Int).coeff s.1.2 0), s.1.2 + 1),
        s.2 ++ [(i, 0, s.1.2)]))
    (((Mat.resize 4 nquad 0 : Mat Int), 0), ([] : List (Nat × Nat × Nat)))
    ⟨rfl, rfl⟩
    (by
      intro i t _ hP
      obtain ⟨h1, h2⟩ := hP
      refine ⟨?_, ?_⟩
      · show t.1.2 + 1 = i + 1
        rw [h1]
      · show t.2 ++ [(i, 0, t.1.2)] = _
        rw [h1, h2, List.range_succ, List.map_append]
        rfl)
  exact key.2

/-- C22: the reshape loop of the quad branch of `Surface::read`, run on a flat
buffer of any length, leaves the matrix of `reshapeQuads` and performs, for
`i = 0, 1, ...` up to the length of the buffer, the access
`quads_new(i, 0) = quads(i, 0)`. For the quad block of two quads the buffer
has the values 0..7 and the accesses are the eight with `i = 0..7`: every
read is inside the `8 x 1` buffer and every write inside the storage of
`quads_new`, but the writes with `i = 4..7` have a row index outside the
declared `4 x 2` matrix. -/
theorem reshape_loop_accesses (flat : List Int) (nquad : Nat) :
    (reshapeQuadsTraced flat nquad).1 = reshapeQuads flat nquad ∧
    (reshapeQuadsTraced flat nquad).2 = (List.range flat.length).map (fun i => (i, 0, i)) ∧
    fread3_many (2 * 4)
        [0, 0, 0, 0, 0, 1, 0, 0, 2, 0, 0, 3, 0, 0, 4, 0, 0, 5, 0, 0, 6, 0, 0, 7] =
      .ok ([0, 1, 2, 3, 4, 5, 6, 7], []) ∧
    (reshapeQuadsTraced [0, 1, 2, 3, 4, 5, 6, 7] 2).2 =
      [(0, 0, 0), (1, 0, 1), (2, 0, 2), (3, 0, 3), (4, 0, 4), (5, 0, 5), (6, 0, 6),
        (7, 0, 7)] ∧
    (∀ a ∈ (reshapeQuadsTraced [0, 1, 2, 3, 4, 5, 6, 7] 2).2,
      a.2.2 < 4 * 2 ∧ a.1 + 4 * a.2.1 < 4 * 2) ∧
    ¬ (∀ a ∈ (reshapeQuadsTraced [0, 1, 2, 3, 4, 5, 6, 7] 2).2, AccessInBounds 2 a) ∧
    ¬ AccessInBounds 2 (4, 0, 4) := by
  refine ⟨reshapeQuadsTraced_fst flat nquad, reshapeQuadsTraced_snd flat nquad, rfl, ?_, ?_, ?_,
    ?_⟩
  · rw [reshapeQuadsTraced_snd]
    rfl
  · rw [reshapeQuadsTraced_snd]
    decide
  · rw [reshapeQuadsTraced_snd]
    decide
  · decide

/-! ## Symmetries of `compute_normals` -/

theorem compute_normals_exact (A : Arith ℝ) (hA : ExactArith A) (rr : Mat ℝ) (tris : Mat Int)
    (hin : InRange rr tris) :
    (compute_normals A rr tris).rows = rr.rows ∧ (compute_normals A rr tris).cols = 3 ∧
    (compute_normals A rr tris).WF ∧
    ∀ v, v < rr.rows → (compute_normals A rr tris).row3 v = lastNormal A rr tris v := by
  obtain ⟨h1, h2, h3⟩ := compute_normals_row A rr tris hin
  obtain ⟨_, a2, a3, _⟩ := assigned_normals_spec A rr tris hin
  obtain ⟨_, _, n3, _⟩ := norm_stage A (assigned_normals A rr tris) a3 a2
  refine ⟨h1, h2, ?_, ?_⟩
  · rw [assigned_normals_eq]
    exact n3
  · intro v hv
    rw [h3 v hv]
    exact lastNormal_exact A hA rr tris v

/-- Two matrices with three columns, well formed and with the same rows, are
equal. -/
theorem Mat.ext_row3 {α : Type} [Inhabited α] (a b : Mat α) (ha : a.WF) (hb : b.WF)
    (hr : a.rows = b.rows) (hca : a.cols = 3) (hcb : b.cols = 3)
    (h : ∀ i, i < a.rows → a.row3 i = b.row3 i) : a = b := by
  apply Mat.ext_coeff a b ha hb hr (hca.trans hcb.symm)
  intro i j hi hj
  have e := h i hi
  simp only [Mat.row3, Prod.mk.injEq] at e
  rw [hca] at hj
  interval_cases j
  · exact e.1
  · exact e.2.1
  · exact e.2.2

theorem lastTriangle_congr (tris tris2 : Mat Int) (v n : Nat)
    (h : ∀ p, p < n →
      ((tris.coeff p 0 = (v : Int) ∨ tris.coeff p 1 = (v : Int) ∨ tris.coeff p 2 = (v : Int)) ↔
        (tris2.coeff p 0 = (v : Int) ∨ tris2.coeff p 1 = (v : Int) ∨
          tris2.coeff p 2 = (v : Int)))) :
    lastTriangle tris v n = lastTriangle tris2 v n := by
  induction n with
  | zero => rfl
  | succ k ih =>
    simp only [lastTriangle]
    rw [ih (fun p hp => h p (Nat.lt_succ_of_lt hp))]
    exact if_congr (h k (Nat.lt_succ_self k)) rfl rfl

theorem faceCross_exact (A : Arith ℝ) (hA : ExactArith A) (rr : Mat ℝ) (a b c : Nat) :
    faceCross A rr a b c =
      ((rr.coeff b 1 - rr.coeff a 1) * (rr.coeff c 2 - rr.coeff a 2) -
          (rr.coeff b 2 - rr.coeff a 2) * (rr.coeff c 1 - rr.coeff a 1),
        (rr.coeff b 2 - rr.coeff a 2) * (rr.coeff c 0 - rr.coeff a 0) -
          (rr.coeff b 0 - rr.coeff a 0) * (rr.coeff c 2 - rr.coeff a 2),
        (rr.coeff b 0 - rr.coeff a 0) * (rr.coeff c 1 - rr.coeff a 1) -
          (rr.coeff b 1 - rr.coeff a 1) * (rr.coeff c 0 - rr.coeff a 0)) := by
  simp only [faceCross, hA.sub_eq, hA.mul_eq]

/-- Over exact arithmetic a positive factor does not change the normalised
vector. -/
theorem normalize3_scale (A : Arith ℝ) (hA : ExactArith A) (k : ℝ) (hk : 0 < k) (a b c : ℝ) :
    normalize3 A (k * a, k * b, k * c) = normalize3 A (a, b, c) := by
  have hS : 0 ≤ a * a + b * b + c * c :=
    add_nonneg (add_nonneg (mul_self_nonneg a) (mul_self_nonneg b)) (mul_self_nonneg c)
  have hnorm : norm3 A (k * a, k * b, k * c) = k * norm3 A (a, b, c) := by
    rw [norm3_exact A hA, norm3_exact A hA]
    have e : k * a * (k * a) + k * b * (k * b) + k * c * (k * c) =
        k * k * (a * a + b * b + c * c) := by ring
    simp only [e]
    rw [Real.sqrt_mul (mul_self_nonneg k), Real.sqrt_mul_self (le_of_lt hk)]
  rcases normalize3_exact A hA (a, b, c) with ⟨h1, h2, _⟩ | ⟨_, h2, _⟩
  · have hne : norm3 A (k * a, k * b, k * c) ≠ 0 := by
      rw [hnorm]
      exact mul_ne_zero (ne_of_gt hk) h1
    rw [normalize3_of_nonzero A _ ((hA.nonzero_iff _).mpr hne), h2, hnorm]
    simp only [hA.div_eq]
    rw [mul_div_mul_left _ _ (ne_of_gt hk), mul_div_mul_left _ _ (ne_of_gt hk),
      mul_div_mul_left _ _ (ne_of_gt hk)]
  · simp only [Prod.mk.injEq] at h2
    rw [h2.1, h2.2.1, h2.2.2]
    simp only [mul_zero]

/-- Over exact arithmetic the normalised vector of the opposite vector is the
opposite of the normalised vector. -/
theorem normalize3_neg (A : Arith ℝ) (hA : ExactArith A) (a b c : ℝ) :
    normalize3 A (-a, -b, -c) =
      (-(normalize3 A (a, b, c)).1, -(normalize3 A (a, b, c)).2.1,
        -(normalize3 A (a, b, c)).2.2) := by
  have hnorm : norm3 A (-a, -b, -c) = norm3 A (a, b, c) := by
    rw [norm3_exact A hA, norm3_exact A hA]
    simp only [neg_mul_neg]
  rcases normalize3_exact A hA (a, b, c) with ⟨h1, h2, _⟩ | ⟨_, h2, h3⟩
  · have hne : norm3 A (-a, -b, -c) ≠ 0 := by
      rw [hnorm]
      exact h1
    rw [normalize3_of_nonzero A _ ((hA.nonzero_iff _).mpr hne), h2, hnorm]
    simp only [hA.div_eq, neg_div]
  · rw [h3]
    simp only [Prod.mk.injEq] at h2
    rw [h2.1, h2.2.1, h2.2.2]
    simp only [neg_zero]
    exact normalize3_zero A hA

/-- The normal of the last triangle is the same for two vertex matrices that
differ by a positive scale factor and a translation. -/
theorem lastNormal_affine (A : Arith ℝ) (hA : ExactArith A) (rr rr2 : Mat ℝ) (tris : Mat Int)
    (hin : InRange rr tris) (s : ℝ) (hs : 0 < s) (t : ℝ × ℝ × ℝ)
    (hco : ∀ i, i < rr.rows →
      rr2.row3 i =
        (s * rr.coeff i 0 + t.1, s * rr.coeff i 1 + t.2.1, s * rr.coeff i 2 + t.2.2))
    (v : Nat) : lastNormal A rr2 tris v = lastNormal A rr tris v := by
  unfold lastNormal
  cases h : lastTriangle tris v tris.rows with
  | none => rfl
  | some p =>
    simp only
    obtain ⟨hp, _, _⟩ := lastTriangle_lt tris v tris.rows p h
    obtain ⟨a0, a1⟩ := hin p 0 hp (by decide)
    obtain ⟨b0, b1⟩ := hin p 1 hp (by decide)
    obtain ⟨c0, c1⟩ := hin p 2 hp (by decide)
    have ea := hco (tris.coeff p 0).toNat (by omega)
    have eb := hco (tris.coeff p 1).toNat (by omega)
    have ec := hco (tris.coeff p 2).toNat (by omega)
    simp only [Mat.row3, Prod.mk.injEq] at ea eb ec
    generalize (tris.coeff p 0).toNat = a at ea
    generalize (tris.coeff p 1).toNat = b at eb
    generalize (tris.coeff p 2).toNat = c at ec
    have hcross : faceCross A rr2 a b c =
        (s * s * (faceCross A rr a b c).1, s * s * (faceCross A rr a b c).2.1,
          s * s * (faceCross A rr a b c).2.2) := by
      rw [faceCross_exact A hA, faceCross_exact A hA, ea.1, ea.2.1, ea.2.2, eb.1, eb.2.1,
        eb.2.2, ec.1, ec.2.1, ec.2.2]
      simp only [Prod.mk.injEq]
      refine ⟨by ring, by ring, by ring⟩
    rw [hcross]
    exact normalize3_scale A hA (s * s) (mul_pos hs hs) _ _ _

/-- C25: over exact real arithmetic, for in-range triangles, a scale factor
`s > 0` and a translation `t`, `compute_normals` returns for the vertices
`s * v + t` the same matrix of normals as for the vertices `v`, the triangles
being the same. -/
theorem compute_normals_affine_invariant (A : Arith ℝ) (hA : ExactArith A) (rr rr2 : Mat ℝ)
    (tris : Mat Int) (hin : InRange rr tris) (s : ℝ) (hs : 0 < s) (t : ℝ × ℝ × ℝ)
    (hrows : rr2.rows = rr.rows)
    (hco : ∀ i, i < rr.rows →
      rr2.row3 i =
        (s * rr.coeff i 0 + t.1, s * rr.coeff i 1 + t.2.1, s * rr.coeff i 2 + t.2.2)) :
    compute_normals A rr2 tris = compute_normals A rr tris := by
  have hin2 : InRange rr2 tris := by
    intro p j hp hj
    rw [hrows]
    exact hin p j hp hj
  obtain ⟨x1, x2, x3, x4⟩ := compute_normals_exact A hA rr tris hin
  obtain ⟨y1, y2, y3, y4⟩ := compute_normals_exact A hA rr2 tris hin2
  apply Mat.ext_row3 _ _ y3 x3 (by rw [y1, x1, hrows]) y2 x2
  intro i hi
  rw [y1] at hi
  rw [y4 i hi, x4 i (by rw [← hrows]; exact hi)]
  exact lastNormal_affine A hA rr rr2 tris hin s hs t hco i

theorem rawSquare_inRange : InRange (rawSquare ℝ) squareTriangles := by
  intro p j hp hj
  have hp2 : p < 2 := hp
  have hr : ((rawSquare ℝ).rows : Int) = 4 := rfl
  rw [hr]
  interval_cases p <;> interval_cases j <;> decide

theorem compute_normals_affine_invariant_witness :
    compute_normals (fieldArith Real.sqrt (fun x => decide (x ≠ 0))) (scaledSquare ℝ)
        squareTriangles =
      compute_normals (fieldArith Real.sqrt (fun x => decide (x ≠ 0))) (rawSquare ℝ)
        squareTriangles :=
  compute_normals_affine_invariant (fieldArith Real.sqrt (fun x => decide (x ≠ 0)))
    fieldArith_exact (rawSquare ℝ) (scaledSquare ℝ) squareTriangles rawSquare_inRange
    (1 / 1000) (by norm_num) (0, 0, 0) rfl
    (by
      intro i hi
      have hi4 : i < 4 := hi
      interval_cases i <;> simp [Mat.row3, Mat.coeff, scaledSquare, rawSquare])

/-- The normals of the last triangles are opposite when the second and third
vertex of every triangle are exchanged. -/
theorem lastNormal_swapped (A : Arith ℝ) (hA : ExactArith A) (rr : Mat ℝ) (tris tris2 : Mat Int)
    (hrows : tris2.rows = tris.rows)
    (hsw : ∀ p, p < tris.rows →
      tris2.row3 p = (tris.coeff p 0, tris.coeff p 2, tris.coeff p 1))
    (v : Nat) :
    lastNormal A rr tris2 v =
      (-(lastNormal A rr tris v).1, -(lastNormal A rr tris v).2.1,
        -(lastNormal A rr tris v).2.2) := by
  have hlast : lastTriangle tris2 v tris.rows = lastTriangle tris v tris.rows := by
    apply lastTriangle_congr
    intro p hp
    have e := hsw p hp
    simp only [Mat.row3, Prod.mk.injEq] at e
    rw [e.1, e.2.1, e.2.2]
    constructor
    · rintro (h | h | h)
      · exact Or.inl h
      · exact Or.inr (Or.inr h)
      · exact Or.inr (Or.inl h)
    · rintro (h | h | h)
      · exact Or.inl h
      · exact Or.inr (Or.inr h)
      · exact Or.inr (Or.inl h)
  unfold lastNormal
  rw [hrows, hlast]
  cases h : lastTriangle tris v tris.rows with
  | none =>
    simp only [hA.zero_eq, neg_zero]
  | some p =>
    simp only
    obtain ⟨hp, _, _⟩ := lastTriangle_lt tris v tris.rows p h
    have e := hsw p hp
    simp only [Mat.row3, Prod.mk.injEq] at e
    rw [e.1, e.2.1, e.2.2]
    generalize (tris.coeff p 0).toNat = a
    generalize (tris.coeff p 1).toNat = b
    generalize (tris.coeff p 2).toNat = c
    have hcross : faceCross A rr a c b =
        (-(faceCross A rr a b c).1, -(faceCross A rr a b c).2.1,
          -(faceCross A rr a b c).2.2) := by
      rw [faceCross_exact A hA, faceCross_exact A hA]
      simp only [Prod.mk.injEq]
      refine ⟨by ring, by ring, by ring⟩
    rw [hcross]
    exact normalize3_neg A hA _ _ _

/-- The normals of the last triangles are the same when every triangle is
rotated cyclically. -/
theorem lastNormal_rotated (A : Arith ℝ) (hA : ExactArith A) (rr : Mat ℝ) (tris tris3 : Mat Int)
    (hrows : tris3.rows = tris.rows)
    (hrot : ∀ p, p < tris.rows →
      tris3.row3 p = (tris.coeff p 1, tris.coeff p 2, tris.coeff p 0))
    (v : Nat) : lastNormal A rr tris3 v = lastNormal A rr tris v := by
  have hlast : lastTriangle tris3 v tris.rows = lastTriangle tris v tris.rows := by
    apply lastTriangle_congr
    intro p hp
    have e := hrot p hp
    simp only [Mat.row3, Prod.mk.injEq] at e
    rw [e.1, e.2.1, e.2.2]
    constructor
    · rintro (h | h | h)
      · exact Or.inr (Or.inl h)
      · exact Or.inr (Or.inr h)
      · exact Or.inl h
    · rintro (h | h | h)
      · exact Or.inr (Or.inr h)
      · exact Or.inl h
      · exact Or.inr (Or.inl h)
  unfold lastNormal
  rw [hrows, hlast]
  cases h : lastTriangle tris v tris.rows with
  | none => rfl
  | some p =>
    simp only
    obtain ⟨hp, _, _⟩ := lastTriangle_lt tris v tris.rows p h
    have e := hrot p hp
    simp only [Mat.row3, Prod.mk.injEq] at e
    rw [e.1, e.2.1, e.2.2]
    generalize (tris.coeff p 0).toNat = a
    generalize (tris.coeff p 1).toNat = b
    generalize (tris.coeff p 2).toNat = c
    have hcross : faceCross A rr b c a = faceCross A rr a b c := by
      rw [faceCross_exact A hA, faceCross_exact A hA]
      simp only [Prod.mk.injEq]
      refine ⟨by ring, by ring, by ring⟩
    rw [hcross]

theorem inRange_of_rows {K : Type} (rr : Mat K) (tris tris2 : Mat Int) (hin : InRange rr tris)
    (hrows : tris2.rows = tris.rows)
    (h : ∀ p j, p < tris.rows → j < 3 → ∃ j2, j2 < 3 ∧ tris2.coeff p j = tris.coeff p j2) :
    InRange rr tris2 := by
  intro p j hp hj
  rw [hrows] at hp
  obtain ⟨j2, hj2, e⟩ := h p j hp hj
  rw [e]
  exact hin p j2 hp hj2

/-- C26: over exact real arithmetic, for in-range triangles, `compute_normals`
returns the opposite of every vertex normal when every triangle `(a,b,c)` is
replaced by `(a,c,b)`, and the same matrix of normals when every triangle is
replaced by its cyclic rotation `(b,c,a)`. -/
theorem compute_normals_orientation (A : Arith ℝ) (hA : ExactArith A) (rr : Mat ℝ)
    (tris tris2 tris3 : Mat Int) (hin : InRange rr tris)
    (hrows2 : tris2.rows = tris.rows)
    (hsw : ∀ p, p < tris.rows →
      tris2.row3 p = (tris.coeff p 0, tris.coeff p 2, tris.coeff p 1))
    (hrows3 : tris3.rows = tris.rows)
    (hrot : ∀ p, p < tris.rows →
      tris3.row3 p = (tris.coeff p 1, tris.coeff p 2, tris.coeff p 0)) :
    ((compute_normals A rr tris2).rows = (compute_normals A rr tris).rows ∧
      (compute_normals A rr tris2).cols = (compute_normals A rr tris).cols ∧
      ∀ v, v < rr.rows →
        (compute_normals A rr tris2).row3 v =
          (-(compute_normals A rr tris).coeff v 0, -(compute_normals A rr tris).coeff v 1,
            -(compute_normals A rr tris).coeff v 2)) ∧
    compute_normals A rr tris3 = compute_normals A rr tris := by
  have hin2 : InRange rr tris2 := by
    apply inRange_of_rows rr tris tris2 hin hrows2
    intro p j hp hj
    have e := hsw p hp
    simp only [Mat.row3, Prod.mk.injEq] at e
    interval_cases j
    · exact ⟨0, by decide, e.1⟩
    · exact ⟨2, by decide, e.2.1⟩
    · exact ⟨1, by decide, e.2.2⟩
  have hin3 : InRange rr tris3 := by
    apply inRange_of_rows rr tris tris3 hin hrows3
    intro p j hp hj
    have e := hrot p hp
    simp only [Mat.row3, Prod.mk.injEq] at e
    interval_cases j
    · exact ⟨1, by decide, e.1⟩
    · exact ⟨2, by decide, e.2.1⟩
    · exact ⟨0, by decide, e.2.2⟩
  obtain ⟨x1, x2, x3, x4⟩ := compute_normals_exact A hA rr tris hin
  obtain ⟨y1, y2, _, y4⟩ := compute_normals_exact A hA rr tris2 hin2
  obtain ⟨z1, z2, z3, z4⟩ := compute_normals_exact A hA rr tris3 hin3
  refine ⟨⟨y1.trans x1.symm, y2.trans x2.symm, ?_⟩, ?_⟩
  · intro v hv
    rw [y4 v hv, lastNormal_swapped A hA rr tris tris2 hrows2 hsw v, ← x4 v hv]
    rfl
  · apply Mat.ext_row3 _ _ z3 x3 (z1.trans x1.symm) z2 x2
    intro i hi
    rw [z1] at hi
    rw [z4 i hi, x4 i hi]
    exact lastNormal_rotated A hA rr tris tris3 hrows3 hrot i

theorem compute_normals_orientation_witness :
    ((compute_normals (fieldArith Real.sqrt (fun x => decide (x ≠ 0))) (scaledSquare ℝ)
          squareTrianglesSwapped).rows =
        (compute_normals (fieldArith Real.sqrt (fun x => decide (x ≠ 0))) (scaledSquare ℝ)
          squareTriangles).rows ∧
      (compute_normals (fieldArith Real.sqrt (fun x => decide (x ≠ 0))) (scaledSquare ℝ)
          squareTrianglesSwapped).cols =
        (compute_normals (fieldArith Real.sqrt (fun x => decide (x ≠ 0))) (scaledSquare ℝ)
          squareTriangles).cols ∧
      ∀ v, v < (scaledSquare ℝ).rows →
        (compute_normals (fieldArith Real.sqrt (fun x => decide (x ≠ 0))) (scaledSquare ℝ)
            squareTrianglesSwapped).row3 v =
          (-(compute_normals (fieldArith Real.sqrt (fun x => decide (x ≠ 0))) (scaledSquare ℝ)
              squareTriangles).coeff v 0,
            -(compute_normals (fieldArith Real.sqrt (fun x => decide (x ≠ 0))) (scaledSquare ℝ)
              squareTriangles).coeff v 1,
            -(compute_normals (fieldArith Real.sqrt (fun x => decide (x ≠ 0))) (scaledSquare ℝ)
              squareTriangles).coeff v 2)) ∧
    compute_normals (fieldArith Real.sqrt (fun x => decide (x ≠ 0))) (scaledSquare ℝ)
        squareTrianglesRotated =
      compute_normals (fieldArith Real.sqrt (fun x => decide (x ≠ 0))) (scaledSquare ℝ)
        squareTriangles :=
  compute_normals_orientation (fieldArith Real.sqrt (fun x => decide (x ≠ 0))) fieldArith_exact
    (scaledSquare ℝ) squareTriangles squareTrianglesSwapped squareTrianglesRotated
    squareTriangles_inRange rfl (by decide) rfl (by decide)

end FSLIB
